import Mathlib

/-!
# Tag management of the awesome window manager (`tag.c`)

A shallow embedding of `src/tag.c` and a verification of its specification.

Conventions of the embedding.

* A C array is a `List`; every read and every write through an index is
  checked, and an access outside the array makes the function return `none`
  (the C program has no defined behaviour there).  Element counts such as
  `ntags` and `nrules` stay separate fields, exactly as in the C structures.
* `for` loops are recursive functions on the number of iterations left,
  carrying the loop index.
* The global `sel` and the configuration `*awesomeconf` form the `State`.
  Calls to the external collaborators (`saveprops`, `saveawesomeprops`,
  `arrange`, `resize`) are recorded, in order, in `State.calls`; what these
  collaborators do is outside `tag.c`.
* The libc matcher `regexec` is a parameter `regexec : R → String → Int`
  over the type `R` of compiled expressions (`regex_t`); `0` means a match.
  The libc compiler `regcomp` is a parameter `regcomp : String → Option R`,
  `none` for a pattern it rejects.
-/

namespace Awesome

/-! ## Data model -/

/-- Modelled from the spec: the `Tag` structure declared outside `tag.c`
(name, selected, was_selected, layout reference). -/
structure Tag where
  name : String
  selected : Bool
  was_selected : Bool
  layout : Nat
  deriving DecidableEq

/-- Modelled from the spec: the `Client` structure declared outside `tag.c`
(display name, live geometry, remembered floating geometry, floating flag,
tag bitset, screen and the window handle). -/
structure Client where
  name : String
  x : Int
  y : Int
  w : Int
  h : Int
  rx : Int
  ry : Int
  rw : Int
  rh : Int
  isfloating : Bool
  tags : List Bool
  screen : Int
  win : Nat
  deriving DecidableEq

/-- Modelled from the spec: the `Rule` structure declared outside `tag.c`
(optional property pattern, optional tag pattern, floating default). -/
structure Rule where
  prop : Option String
  tags : Option String
  isfloating : Bool
  deriving DecidableEq

/-- Modelled from the spec: the fields of `awesome_config` that `tag.c` uses. -/
structure awesome_config where
  screen : Int
  rules : List Rule
  nrules : Nat
  tags : List Tag
  ntags : Nat
  current_layout : Nat
  deriving DecidableEq

/-- The structure `Regs` of `tag.c`: the two compiled matchers of one rule,
each possibly absent (a null pointer). -/
structure Regs (R : Type) where
  propregex : Option R
  tagregex : Option R
  deriving DecidableEq

/-- The Xlib structure `XClassHint` that `XGetClassHint` fills: the class and
instance strings of a window, each possibly null. -/
structure XClassHint where
  res_class : Option String
  res_name : Option String
  deriving DecidableEq

/-- A call to an external collaborator, with the arguments it receives. -/
inductive Event where
  | saveprops (c : Client) (ntags : Nat)
  | saveawesomeprops (conf : awesome_config)
  | arrange (conf : awesome_config)
  | resize (c : Client) (x y w h : Int) (sizehints : Bool)
  deriving DecidableEq

/-- The memory `tag.c` works on: the selected client `sel` (possibly null), the
configuration behind `awesomeconf`, and the calls made to collaborators. -/
structure State where
  sel : Option Client
  awesomeconf : awesome_config
  calls : List Event
  deriving DecidableEq

/-! ## Checked array access -/

/-- Write `v` at index `i`; `none` outside the array. -/
def store {α : Type} (xs : List α) (i : Nat) (v : α) : Option (List α) :=
  if i < xs.length then some (xs.set i v) else none

/-- Modelled from the spec: `a_strcmp` of `util.h`, string comparison, `0`
exactly for equal strings. -/
def a_strcmp (a b : String) : Int :=
  if a = b then 0 else if a.data < b.data then -1 else 1

/-! ## `idxoftag` -/

/-- The loop of `idxoftag`: `for(i = 0; i < ntags; i++)`, with `n` iterations
left; falling out of the loop returns `0`. -/
def idxoftag.loop (tag_to_find : String) (tags : List Tag) : Nat → Nat → Option Nat
  | 0, _ => some 0
  | n + 1, i =>
    match tags[i]? with
    | none => none
    | some t =>
      if a_strcmp t.name tag_to_find = 0 then some i
      else idxoftag.loop tag_to_find tags n (i + 1)

/-- The function `idxoftag`: index of the first tag named `tag_to_find`, `0` for a
null argument and for a name no tag has. -/
def idxoftag (tag_to_find : Option String) (tags : List Tag) (ntags : Nat) : Option Nat :=
  match tag_to_find with
  | none => some 0
  | some name => idxoftag.loop name tags ntags 0

/-! ## `isvisible` -/

/-- The loop of `isvisible`, with `n` iterations left at index `i`.  The `&&`
reads `tags[i].selected` only when `c->tags[i]` is true. -/
def isvisible.loop (c : Client) (tags : List Tag) : Nat → Nat → Option Bool
  | 0, _ => some false
  | n + 1, i =>
    match c.tags[i]? with
    | none => none
    | some ci =>
      if ci then
        match tags[i]? with
        | none => none
        | some t =>
          if t.selected then some true
          else isvisible.loop c tags n (i + 1)
      else isvisible.loop c tags n (i + 1)

/-- The function `isvisible`. -/
def isvisible (c : Client) (screen : Int) (tags : List Tag) (ntags : Nat) : Option Bool :=
  if c.screen ≠ screen then some false
  else isvisible.loop c tags ntags 0

/-! ## `applyrules` -/

/-- The composite key `"%s:%s:%s"` that `applyrules` prints into `prop`: class,
instance and the client's name, the empty string for a null class or instance.
The buffer holds `len + 3` bytes, the two colons and the terminator included, so
`snprintf` never truncates. -/
def applyrules.prop (ch : XClassHint) (c : Client) : String :=
  ch.res_class.getD "" ++ ":" ++ ch.res_name.getD "" ++ ":" ++ c.name

/-- An entry of the global table `regs`; `none` when `regs` is null or too short. -/
def regsAt {R : Type} (regs : Option (List (Regs R))) (i : Nat) : Option (Regs R) :=
  match regs with
  | none => none
  | some table => table[i]?

/-- The inner loop of `applyrules`,
`for(j = 0; regs[i].tagregex && j < ntags; j++)`, with `n` iterations left:
every tag name is tested and the bit `c->tags[j]` set or cleared. -/
def applyrules.inner {R : Type} (regexec : R → String → Int) (tagregex : Option R)
    (tags : List Tag) : Nat → Nat → Bool → List Bool → Option (Bool × List Bool)
  | 0, _, matched, ctags => some (matched, ctags)
  | n + 1, j, matched, ctags =>
    match tagregex with
    | none => some (matched, ctags)
    | some re =>
      match tags[j]? with
      | none => none
      | some t =>
        if regexec re t.name = 0 then
          match store ctags j true with
          | none => none
          | some ctags1 => applyrules.inner regexec tagregex tags n (j + 1) true ctags1
        else
          match store ctags j false with
          | none => none
          | some ctags1 => applyrules.inner regexec tagregex tags n (j + 1) matched ctags1

/-- The condition `regs[i].propregex && !regexec(regs[i].propregex, prop, 1, &tmp, 0)`
of the rule loop: the property matcher is present and matches the key. -/
def propMatches {R : Type} (regexec : R → String → Int) (prop : String) (r : Regs R) : Bool :=
  match r.propregex with
  | none => false
  | some re => decide (regexec re prop = 0)

/-- The rule loop of `applyrules`, `for(i = 0; i < nrules; i++)`, with `n`
iterations left; the loop state is the client and the flag `matched`. -/
def applyrules.outer {R : Type} (regexec : R → String → Int) (regs : Option (List (Regs R)))
    (prop : String) (conf : awesome_config) : Nat → Nat → Client → Bool → Option (Client × Bool)
  | 0, _, c, matched => some (c, matched)
  | n + 1, i, c, matched =>
    match regsAt regs i with
    | none => none
    | some r =>
      if propMatches regexec prop r then
        match conf.rules[i]? with
        | none => none
        | some rule =>
          match applyrules.inner regexec r.tagregex conf.tags conf.ntags 0 matched c.tags with
          | none => none
          | some (matched1, ctags) =>
            applyrules.outer regexec regs prop conf n (i + 1)
              { c with isfloating := rule.isfloating, tags := ctags } matched1
      else applyrules.outer regexec regs prop conf n (i + 1) c matched

/-- The last loop of `applyrules`: `c->tags[i] = awesomeconf->tags[i].selected`. -/
def applyrules.fallback (tags : List Tag) : Nat → Nat → List Bool → Option (List Bool)
  | 0, _, ctags => some ctags
  | n + 1, i, ctags =>
    match tags[i]? with
    | none => none
    | some t =>
      match store ctags i t.selected with
      | none => none
      | some ctags1 => applyrules.fallback tags n (i + 1) ctags1

/-- The function `applyrules`.  `regs` is the global matcher table and `ch` what
`XGetClassHint` delivers for the window; the result is the client as the
function leaves it. -/
def applyrules {R : Type} (regexec : R → String → Int) (regs : Option (List (Regs R)))
    (ch : XClassHint) (c : Client) (awesomeconf : awesome_config) : Option Client :=
  match applyrules.outer regexec regs (applyrules.prop ch c) awesomeconf
      awesomeconf.nrules 0 c false with
  | none => none
  | some (c1, matched) =>
    if !matched then
      match applyrules.fallback awesomeconf.tags awesomeconf.ntags 0 c1.tags with
      | none => none
      | some ctags => some { c1 with tags := ctags }
    else some c1

/-! ## `compileregs` -/

/-- Modelled from the spec: the macro `p_new` of `util.h` at the type `Regs`, an
array of `count` entries with both matchers null (the table has one entry per
rule and a matcher stays absent until its pattern compiles); the array is taken
to exist for every count. -/
def p_new {R : Type} (count : Nat) : List (Regs R) :=
  List.replicate count { propregex := none, tagregex := none }

/-- The assignment `regs[i].propregex = reg`. -/
def setPropregex {R : Type} (table : List (Regs R)) (i : Nat) (reg : R) :
    Option (List (Regs R)) :=
  match table[i]? with
  | none => none
  | some e => store table i { e with propregex := some reg }

/-- The assignment `regs[i].tagregex = reg`. -/
def setTagregex {R : Type} (table : List (Regs R)) (i : Nat) (reg : R) :
    Option (List (Regs R)) :=
  match table[i]? with
  | none => none
  | some e => store table i { e with tagregex := some reg }

/-- The loop of `compileregs`, with `n` iterations left.  A pattern that is
present is compiled; `regcomp` failing (`none`) frees the expression and writes
nothing, success stores it in `regs[i]`. -/
def compileregs.loop {R : Type} (regcomp : String → Option R) (rules : List Rule) :
    Nat → Nat → List (Regs R) → Option (List (Regs R))
  | 0, _, table => some table
  | n + 1, i, table =>
    match rules[i]? with
    | none => none
    | some rule =>
      let afterProp :=
        match rule.prop with
        | none => some table
        | some p =>
          match regcomp p with
          | none => some table
          | some reg => setPropregex table i reg
      match afterProp with
      | none => none
      | some table1 =>
        let afterTags :=
          match rule.tags with
          | none => some table1
          | some t =>
            match regcomp t with
            | none => some table1
            | some reg => setTagregex table1 i reg
        match afterTags with
        | none => none
        | some table2 => compileregs.loop regcomp rules n (i + 1) table2

/-- The entry `regs[i]` as iteration `i` of the loop of `compileregs` leaves it,
given the entry `e` it finds there: a matcher is overwritten exactly when the rule
has the pattern and the pattern compiles. -/
def compileregs.entry {R : Type} (regcomp : String → Option R) (rule : Rule) (e : Regs R) :
    Regs R :=
  { propregex :=
      match rule.prop.bind regcomp with
      | none => e.propregex
      | some reg => some reg
    tagregex :=
      match rule.tags.bind regcomp with
      | none => e.tagregex
      | some reg => some reg }

/-- The function `compileregs`: the new value of the global `regs`.  The libc
compiler is the parameter `regcomp`, `none` for a pattern it rejects.  With
`regs` already set the function returns at once. -/
def compileregs {R : Type} (regcomp : String → Option R) (regs : Option (List (Regs R)))
    (rules : List Rule) (nrules : Nat) : Option (Option (List (Regs R))) :=
  match regs with
  | some table => some (some table)
  | none =>
    match compileregs.loop regcomp rules nrules 0 (p_new nrules) with
    | none => none
    | some table => some (some table)

/-! ## Commands on the selected window -/

/-- The first loop of `uicb_tag`: `sel->tags[i] = arg == NULL`. -/
def uicb_tag.loop (v : Bool) : Nat → Nat → List Bool → Option (List Bool)
  | 0, _, ctags => some ctags
  | n + 1, i, ctags =>
    match store ctags i v with
    | none => none
    | some ctags1 => uicb_tag.loop v n (i + 1) ctags1

/-- The function `uicb_tag`. -/
def uicb_tag (s : State) (arg : Option String) : Option State :=
  match s.sel with
  | none => some s
  | some sel =>
    match uicb_tag.loop arg.isNone s.awesomeconf.ntags 0 sel.tags with
    | none => none
    | some ctags =>
      match idxoftag arg s.awesomeconf.tags s.awesomeconf.ntags with
      | none => none
      | some i =>
        match (if i < s.awesomeconf.ntags then store ctags i true else some ctags) with
        | none => none
        | some ctags1 =>
          let sel1 : Client := { sel with tags := ctags1 }
          some { s with
            sel := some sel1
            calls := s.calls ++
              [Event.saveprops sel1 s.awesomeconf.ntags, Event.arrange s.awesomeconf] }

/-- The function `uicb_togglefloating`. -/
def uicb_togglefloating (s : State) ( _arg : Option String) : Option State :=
  match s.sel with
  | none => some s
  | some sel =>
    let sel1 : Client := { sel with isfloating := !sel.isfloating }
    if sel1.isfloating then
      some { s with
        sel := some sel1
        calls := s.calls ++
          [Event.resize sel1 sel1.rx sel1.ry sel1.rw sel1.rh true,
           Event.saveprops sel1 s.awesomeconf.ntags, Event.arrange s.awesomeconf] }
    else
      let sel2 : Client := { sel1 with rx := sel1.x, ry := sel1.y, rw := sel1.w, rh := sel1.h }
      some { s with
        sel := some sel2
        calls := s.calls ++
          [Event.saveprops sel2 s.awesomeconf.ntags, Event.arrange s.awesomeconf] }

/-- The scan of `uicb_toggletag`,
`for(j = 0; j < ntags && !sel->tags[j]; j++);`: the value of `j` after it. -/
def uicb_toggletag.scan (ctags : List Bool) : Nat → Nat → Option Nat
  | 0, j => some j
  | n + 1, j =>
    match ctags[j]? with
    | none => none
    | some b => if !b then uicb_toggletag.scan ctags n (j + 1) else some j

/-- The function `uicb_toggletag`. -/
def uicb_toggletag (s : State) (arg : Option String) : Option State :=
  match s.sel with
  | none => some s
  | some sel =>
    match idxoftag arg s.awesomeconf.tags s.awesomeconf.ntags with
    | none => none
    | some i =>
      match sel.tags[i]? with
      | none => none
      | some b =>
        match store sel.tags i (!b) with
        | none => none
        | some ctags =>
          match uicb_toggletag.scan ctags s.awesomeconf.ntags 0 with
          | none => none
          | some j =>
            match (if j = s.awesomeconf.ntags then store ctags i true else some ctags) with
            | none => none
            | some ctags1 =>
              let sel1 : Client := { sel with tags := ctags1 }
              some { s with
                sel := some sel1
                calls := s.calls ++
                  [Event.saveprops sel1 s.awesomeconf.ntags, Event.arrange s.awesomeconf] }

/-! ## Commands on the selection of the screen -/

/-- Write the field `selected` of `tags[i]`. -/
def setSelected (tags : List Tag) (i : Nat) (v : Bool) : Option (List Tag) :=
  match tags[i]? with
  | none => none
  | some t => store tags i { t with selected := v }

/-- The scan of `uicb_toggleview`,
`for(j = 0; j < ntags && !tags[j].selected; j++);`: the value of `j` after it. -/
def uicb_toggleview.scan (tags : List Tag) : Nat → Nat → Option Nat
  | 0, j => some j
  | n + 1, j =>
    match tags[j]? with
    | none => none
    | some t => if !t.selected then uicb_toggleview.scan tags n (j + 1) else some j

/-- The function `uicb_toggleview`. -/
def uicb_toggleview (s : State) (arg : Option String) : Option State :=
  match idxoftag arg s.awesomeconf.tags s.awesomeconf.ntags with
  | none => none
  | some i =>
    match s.awesomeconf.tags[i]? with
    | none => none
    | some t =>
      match setSelected s.awesomeconf.tags i (!t.selected) with
      | none => none
      | some tags1 =>
        match uicb_toggleview.scan tags1 s.awesomeconf.ntags 0 with
        | none => none
        | some j =>
          match (if j = s.awesomeconf.ntags then setSelected tags1 i true else some tags1) with
          | none => none
          | some tags2 =>
            let conf : awesome_config := { s.awesomeconf with tags := tags2 }
            some { s with
              awesomeconf := conf
              calls := s.calls ++ [Event.saveawesomeprops conf, Event.arrange conf] }

/-- The loop of `uicb_view`: `was_selected = selected; selected = arg == NULL`. -/
def uicb_view.loop (v : Bool) : Nat → Nat → List Tag → Option (List Tag)
  | 0, _, tags => some tags
  | n + 1, i, tags =>
    match tags[i]? with
    | none => none
    | some t =>
      match store tags i { t with was_selected := t.selected, selected := v } with
      | none => none
      | some tags1 => uicb_view.loop v n (i + 1) tags1

/-- The function `uicb_view`. -/
def uicb_view (s : State) (arg : Option String) : Option State :=
  match uicb_view.loop arg.isNone s.awesomeconf.ntags 0 s.awesomeconf.tags with
  | none => none
  | some tags1 =>
    match idxoftag arg tags1 s.awesomeconf.ntags with
    | none => none
    | some i =>
      if i < s.awesomeconf.ntags then
        match setSelected tags1 i true with
        | none => none
        | some tags2 =>
          match tags2[i]? with
          | none => none
          | some t =>
            let conf : awesome_config :=
              { s.awesomeconf with tags := tags2, current_layout := t.layout }
            some { s with
              awesomeconf := conf
              calls := s.calls ++ [Event.saveawesomeprops conf, Event.arrange conf] }
      else
        let conf : awesome_config := { s.awesomeconf with tags := tags1 }
        some { s with
          awesomeconf := conf
          calls := s.calls ++ [Event.saveawesomeprops conf, Event.arrange conf] }

/-- The loop of `uicb_tag_prev_selected`: exchange `selected` and `was_selected`
of `tags[i]` through the temporary `t`. -/
def uicb_tag_prev_selected.loop : Nat → Nat → List Tag → Option (List Tag)
  | 0, _, tags => some tags
  | n + 1, i, tags =>
    match tags[i]? with
    | none => none
    | some tg =>
      let t := tg.selected
      match store tags i { tg with selected := tg.was_selected, was_selected := t } with
      | none => none
      | some tags1 => uicb_tag_prev_selected.loop n (i + 1) tags1

/-- The function `uicb_tag_prev_selected`; it calls `arrange` only. -/
def uicb_tag_prev_selected (s : State) ( _arg : Option String) : Option State :=
  match uicb_tag_prev_selected.loop s.awesomeconf.ntags 0 s.awesomeconf.tags with
  | none => none
  | some tags1 =>
    let conf : awesome_config := { s.awesomeconf with tags := tags1 }
    some { s with awesomeconf := conf, calls := s.calls ++ [Event.arrange conf] }

/-- The loop of `uicb_tag_viewnext`, ascending, with `n` iterations left: remember
the first selected index in `firsttag` and clear every `selected`. -/
def uicb_tag_viewnext.loop : Nat → Nat → Int → List Tag → Option (Int × List Tag)
  | 0, _, firsttag, tags => some (firsttag, tags)
  | n + 1, i, firsttag, tags =>
    match tags[i]? with
    | none => none
    | some t =>
      let firsttag1 : Int := if firsttag < 0 ∧ t.selected = true then (i : Int) else firsttag
      match setSelected tags i false with
      | none => none
      | some tags1 => uicb_tag_viewnext.loop n (i + 1) firsttag1 tags1

/-- Write `selected = True` at the signed index `firsttag` and fetch the layout of
that tag; `none` for an index outside the array. -/
def selectAt (tags : List Tag) (firsttag : Int) : Option (List Tag × Nat) :=
  if firsttag < 0 then none
  else
    match setSelected tags firsttag.toNat true with
    | none => none
    | some tags1 =>
      match tags1[firsttag.toNat]? with
      | none => none
      | some t => some (tags1, t.layout)

/-- The function `uicb_tag_viewnext`. -/
def uicb_tag_viewnext (s : State) ( _arg : Option String) : Option State :=
  match uicb_tag_viewnext.loop s.awesomeconf.ntags 0 (-1) s.awesomeconf.tags with
  | none => none
  | some (firsttag, tags1) =>
    let firsttag1 : Int := if firsttag + 1 ≥ (s.awesomeconf.ntags : Int) then 0 else firsttag + 1
    match selectAt tags1 firsttag1 with
    | none => none
    | some (tags2, layout) =>
      let conf : awesome_config := { s.awesomeconf with tags := tags2, current_layout := layout }
      some { s with
        awesomeconf := conf
        calls := s.calls ++ [Event.saveawesomeprops conf, Event.arrange conf] }

/-- The loop of `uicb_tag_viewprev`, `for(i = ntags - 1; i >= 0; i--)`: with `n`
iterations left the index is `n - 1`. -/
def uicb_tag_viewprev.loop : Nat → Int → List Tag → Option (Int × List Tag)
  | 0, firsttag, tags => some (firsttag, tags)
  | n + 1, firsttag, tags =>
    match tags[n]? with
    | none => none
    | some t =>
      let firsttag1 : Int := if firsttag < 0 ∧ t.selected = true then (n : Int) else firsttag
      match setSelected tags n false with
      | none => none
      | some tags1 => uicb_tag_viewprev.loop n firsttag1 tags1

/-- The function `uicb_tag_viewprev`. -/
def uicb_tag_viewprev (s : State) ( _arg : Option String) : Option State :=
  match uicb_tag_viewprev.loop s.awesomeconf.ntags (-1) s.awesomeconf.tags with
  | none => none
  | some (firsttag, tags1) =>
    let firsttag1 : Int :=
      if firsttag - 1 < 0 then (s.awesomeconf.ntags : Int) - 1 else firsttag - 1
    match selectAt tags1 firsttag1 with
    | none => none
    | some (tags2, layout) =>
      let conf : awesome_config := { s.awesomeconf with tags := tags2, current_layout := layout }
      some { s with
        awesomeconf := conf
        calls := s.calls ++ [Event.saveawesomeprops conf, Event.arrange conf] }

/-! ## A matcher to run the code on concrete rules -/

/-- A model of the libc matcher `regexec` at one position of the subject, for the
fragment of POSIX extended regular expressions made of literal characters, `.`,
a starred character and a final `$`.  The first argument bounds the number of
steps. -/
def ere.here : Nat → List Char → List Char → Bool
  | 0, _, _ => false
  | _ + 1, [], _ => true
  | f + 1, c :: pat, text =>
    if pat.head? = some '*' then
      ere.here f pat.tail text ||
        (match text with
         | [] => false
         | t :: text1 => (c = '.' || c = t) && ere.here f (c :: pat) text1)
    else if c = '$' ∧ pat = [] then text.isEmpty
    else
      match text with
      | [] => false
      | t :: text1 => (c = '.' || c = t) && ere.here f pat text1

/-- Try the expression at every position of the subject, from left to right. -/
def ere.search (pat : List Char) : List Char → Bool
  | [] => ere.here (pat.length + 1) pat []
  | t :: text =>
    ere.here (pat.length + text.length + 2) pat (t :: text) || ere.search pat text

/-- A model of the libc matcher `regexec` on the fragment of `ere.here`, to put in
place of the parameter `regexec` when the code is run on concrete rules:
unanchored search, a leading `^` ties the match to the start of the subject; `0`
for a match and `REG_NOMATCH` (`1`) otherwise.  A compiled expression is
represented by its pattern. -/
def posix_regexec (re : String) (subject : String) : Int :=
  let matched :=
    match re.data with
    | [] => true
    | c :: pat =>
      if c = '^' then ere.here (pat.length + subject.data.length + 1) pat subject.data
      else ere.search (c :: pat) subject.data
  if matched then 0 else 1

/-- A model of the libc compiler `regcomp`, to put in place of the parameter
`regcomp` when the code is run on concrete rules: an expression with an unmatched
parenthesis is rejected, any other one is represented by its pattern. -/
def posix_regcomp (p : String) : Option String :=
  if p.data.count '(' = p.data.count ')' then some p else none

/-- A Firefox window: class `Firefox`, instance `Navigator`. -/
def firefoxHint : XClassHint :=
  { res_class := some "Firefox", res_name := some "Navigator" }

/-- A client titled `Mozilla`, on no tag yet, with `ntags` tag bits. -/
def mozillaClient (ntags : Nat) : Client :=
  { name := "Mozilla", x := 0, y := 0, w := 800, h := 600, rx := 0, ry := 0, rw := 800, rh := 600,
    isfloating := true, tags := List.replicate ntags false, screen := 0, win := 1 }

/-- A configuration with the given rules and tags, the counts set accordingly. -/
def mkConfig (rules : List Rule) (tags : List Tag) : awesome_config :=
  { screen := 0, rules := rules, nrules := rules.length, tags := tags, ntags := tags.length,
    current_layout := 0 }

/-- The matcher table of a rule list in which every pattern compiles. -/
def tableOf (rules : List Rule) : List (Regs String) :=
  rules.map (fun rule => { propregex := rule.prop, tagregex := rule.tags })

/-- Three tags, `web` being the one in view. -/
def threeTags : List Tag :=
  [⟨"term", false, false, 0⟩, ⟨"web", true, false, 0⟩, ⟨"mail", false, false, 1⟩]

/-- One rule whose tag pattern names a tag that is not configured. -/
def rulesUnknownTag : List Rule :=
  [⟨some "^Firefox:.*", some "^chat$", false⟩]

/-- Two rules for Firefox windows, the later one naming a tag that is not
configured. -/
def rulesThenUnknownTag : List Rule :=
  [⟨some "^Firefox:.*", some "^web$", false⟩, ⟨some "Navigator", some "^chat$", true⟩]

/-- Two rules for Firefox windows with different tag patterns. -/
def rulesTwoTags : List Rule :=
  [⟨some "^Firefox:.*", some "^web$", false⟩, ⟨some "Navigator", some "^ma.*l$", true⟩]

/-- The rule of the specification's example. -/
def rulesFirefoxWeb : List Rule :=
  [⟨some "^Firefox:.*", some "^web$", false⟩]

/-- A rule that sets the floating flag only, for windows of no configured class. -/
def rulesNoTagPattern : List Rule :=
  [⟨some "^Firefox:.*", none, false⟩, ⟨some "^Gimp:", some "^mail$", true⟩]

/-- Three rules: a property pattern that does not compile, a tag pattern that does
not compile, and a rule without tag pattern. -/
def rulesBadPatterns : List Rule :=
  [⟨some "^(Firefox", some "^web$", false⟩, ⟨some "^Gimp", some "(mail", true⟩,
   ⟨some "^xterm", none, false⟩]

/-! ## Sequences of commands -/

/-- Run one command handler on a list of arguments, one call after the other. -/
def runCalls (f : State → Option String → Option State) : State → List (Option String) →
    Option State
  | s, [] => some s
  | s, arg :: args =>
    match f s arg with
    | none => none
    | some s1 => runCalls f s1 args

/-- The commands that change the selection of the screen, with their argument. -/
inductive Command where
  | view (arg : Option String)
  | toggleview (arg : Option String)
  | tag_prev_selected (arg : Option String)
  | tag_viewnext (arg : Option String)
  | tag_viewprev (arg : Option String)
  deriving DecidableEq

/-- The handler of a command. -/
def Command.run : Command → State → Option State
  | Command.view arg, s => uicb_view s arg
  | Command.toggleview arg, s => uicb_toggleview s arg
  | Command.tag_prev_selected arg, s => uicb_tag_prev_selected s arg
  | Command.tag_viewnext arg, s => uicb_tag_viewnext s arg
  | Command.tag_viewprev arg, s => uicb_tag_viewprev s arg

/-- Run a list of selection commands, one after the other. -/
def runCommands : State → List Command → Option State
  | s, [] => some s
  | s, cmd :: cmds =>
    match cmd.run s with
    | none => none
    | some s1 => runCommands s1 cmds

/-- A screen with the given tags and no selected client. -/
def screenOf (tags : List Tag) : State :=
  { sel := none, awesomeconf := mkConfig [] tags, calls := [] }

/-- A screen with the given tags whose selected client has the given bitset. -/
def screenWith (tags : List Tag) (bits : List Bool) : State :=
  { sel := some { mozillaClient 0 with tags := bits }, awesomeconf := mkConfig [] tags,
    calls := [] }

/-! # Verification -/

/-! ## Checked access: basic facts -/

theorem store_eq_some {α : Type} {xs ys : List α} {i : Nat} {v : α} :
    store xs i v = some ys ↔ i < xs.length ∧ ys = xs.set i v := by
  unfold store
  split <;> simp_all [eq_comm]

theorem store_of_lt {α : Type} {xs : List α} {i : Nat} (v : α) (h : i < xs.length) :
    store xs i v = some (xs.set i v) := by
  simp [store, h]

theorem a_strcmp_eq_zero (a b : String) : a_strcmp a b = 0 ↔ a = b := by
  unfold a_strcmp
  split
  · simp_all
  · split <;> simp_all

theorem getElem?_append_cons {α : Type} (pre : List α) (x : α) (rest : List α) :
    (pre ++ x :: rest)[pre.length]? = some x := by
  rw [List.getElem?_append_right (le_refl _)]
  simp

theorem store_append_cons {α : Type} (pre : List α) (x y : α) (rest : List α) :
    store (pre ++ x :: rest) pre.length y = some (pre ++ y :: rest) := by
  simp [store]

/-- Overwriting an entry by one with the same image under `f` does not change
the list of images. -/
theorem map_set_of_eq {α β : Type} (f : α → β) (l : List α) (i : Nat) (t x : α)
    (h : l[i]? = some t) (hf : f x = f t) : (l.set i x).map f = l.map f := by
  apply List.ext_getElem?
  intro k
  by_cases hk : i = k
  · subst hk
    have hi := (List.getElem?_eq_some.mp h).1
    rw [List.getElem?_map, List.getElem?_map, List.getElem?_set_self hi, h]
    simp [hf]
  · rw [List.getElem?_map, List.getElem?_map, List.getElem?_set_ne hk]

/-- Writing back the entry that is already there changes nothing. -/
theorem set_getElem_same {α : Type} (l : List α) (i : Nat) (h : i < l.length) :
    l.set i l[i] = l := by
  apply List.ext_getElem?
  intro k
  by_cases hk : i = k
  · subst hk
    rw [List.getElem?_set_self h, List.getElem?_eq_getElem h]
  · rw [List.getElem?_set_ne hk]

/-! ## `isvisible` -/

theorem isvisible_loop_spec (c : Client) (tags : List Tag) :
    ∀ (n i : Nat), i + n ≤ c.tags.length → i + n ≤ tags.length →
      ∃ b, isvisible.loop c tags n i = some b ∧
        (b = true ↔ ∃ k, i ≤ k ∧ k < i + n ∧ c.tags[k]? = some true ∧
          (tags[k]?).map Tag.selected = some true) := by
  intro n
  induction n with
  | zero =>
    intro i _ _
    refine ⟨false, rfl, ?_⟩
    simp
    intro k hk hk2
    omega
  | succ n ih =>
    intro i hc ht
    have hic : i < c.tags.length := by omega
    have hit : i < tags.length := by omega
    obtain ⟨b, hb, hiff⟩ := ih (i + 1) (by omega) (by omega)
    have hstep : ∀ k, i ≤ k → k ≠ i → i + 1 ≤ k := by intro k h1 h2; omega
    simp only [isvisible.loop, List.getElem?_eq_getElem hic, List.getElem?_eq_getElem hit]
    by_cases h1 : c.tags[i] = true
    · by_cases h2 : tags[i].selected = true
      · refine ⟨true, by simp [h1, h2], ?_⟩
        simp only [true_iff]
        exact ⟨i, le_refl _, by omega, by simp [List.getElem?_eq_getElem hic, h1],
          by simp [List.getElem?_eq_getElem hit, h2]⟩
      · refine ⟨b, by simp [h1, h2, hb], ?_⟩
        rw [hiff]
        constructor
        · rintro ⟨k, hk1, hk2, hk3, hk4⟩
          exact ⟨k, by omega, by omega, hk3, hk4⟩
        · rintro ⟨k, hk1, hk2, hk3, hk4⟩
          have hne : k ≠ i := by
            rintro rfl
            simp [List.getElem?_eq_getElem hit] at hk4
            exact h2 hk4
          exact ⟨k, hstep k hk1 hne, by omega, hk3, hk4⟩
    · refine ⟨b, by simp [h1, hb], ?_⟩
      rw [hiff]
      constructor
      · rintro ⟨k, hk1, hk2, hk3, hk4⟩
        exact ⟨k, by omega, by omega, hk3, hk4⟩
      · rintro ⟨k, hk1, hk2, hk3, hk4⟩
        have hne : k ≠ i := by
          rintro rfl
          simp [List.getElem?_eq_getElem hic] at hk3
          exact h1 hk3
        exact ⟨k, hstep k hk1 hne, by omega, hk3, hk4⟩

/-- C1: for a window bitset and a tag list both of length `N`, `isvisible` returns,
and returns true exactly when the window's screen is the given screen and some
index `i < N` has `c->tags[i]` true and `tags[i].selected` true. -/
theorem isvisible_iff (c : Client) (screen : Int) (tags : List Tag) (N : Nat)
    (hc : c.tags.length = N) (ht : tags.length = N) :
    ∃ b, isvisible c screen tags N = some b ∧
      (b = true ↔ c.screen = screen ∧
        ∃ i, i < N ∧ c.tags[i]? = some true ∧ (tags[i]?).map Tag.selected = some true) := by
  unfold isvisible
  by_cases hs : c.screen = screen
  · obtain ⟨b, hb, hiff⟩ := isvisible_loop_spec c tags N 0 (by omega) (by omega)
    refine ⟨b, by simp [hs, hb], ?_⟩
    rw [hiff]
    constructor
    · rintro ⟨k, _, hk2, hk3, hk4⟩
      exact ⟨hs, k, by omega, hk3, hk4⟩
    · rintro ⟨_, k, hk2, hk3, hk4⟩
      exact ⟨k, Nat.zero_le _, by omega, hk3, hk4⟩
  · exact ⟨false, by simp [hs], by simp [hs]⟩

/-- A window on tags 0 and 1 of a screen showing tag 1 only: witness of C1. -/
theorem isvisible_iff_witness :
    ∃ b, isvisible ⟨"xterm", 0, 0, 80, 24, 0, 0, 80, 24, false, [true, true], 0, 7⟩ 0
        [⟨"a", false, false, 0⟩, ⟨"b", true, false, 1⟩] 2 = some b ∧
      (b = true ↔ (0 : Int) = 0 ∧
        ∃ i, i < 2 ∧ [true, true][i]? = some true ∧
          ([(⟨"a", false, false, 0⟩ : Tag), ⟨"b", true, false, 1⟩][i]?).map Tag.selected
            = some true) :=
  isvisible_iff ⟨"xterm", 0, 0, 80, 24, 0, 0, 80, 24, false, [true, true], 0, 7⟩ 0
    [⟨"a", false, false, 0⟩, ⟨"b", true, false, 1⟩] 2 (by decide) (by decide)

/-! ## `applyrules`: the loops -/

theorem applyrules_inner_none {R : Type} (regexec : R → String → Int) (tags : List Tag)
    (n j : Nat) (m : Bool) (ct : List Bool) :
    applyrules.inner regexec none tags n j m ct = some (m, ct) := by
  cases n <;> simp [applyrules.inner]

theorem applyrules_inner_succ {R : Type} (regexec : R → String → Int) (re : R) (tags : List Tag)
    (n j : Nat) (m : Bool) (ct : List Bool) (hj : j < tags.length) (hc : j < ct.length) :
    applyrules.inner regexec (some re) tags (n + 1) j m ct =
      applyrules.inner regexec (some re) tags n (j + 1)
        (m || decide (regexec re tags[j].name = 0))
        (ct.set j (decide (regexec re tags[j].name = 0))) := by
  simp only [applyrules.inner, List.getElem?_eq_getElem hj]
  by_cases h : regexec re tags[j].name = 0
  · simp [h, store_of_lt _ hc]
  · simp [h, store_of_lt _ hc]

theorem applyrules_inner_spec {R : Type} (regexec : R → String → Int) (re : R) (tags : List Tag) :
    ∀ (n j : Nat) (m : Bool) (ct : List Bool), j + n ≤ tags.length → j + n ≤ ct.length →
      ∃ m1 ct1, applyrules.inner regexec (some re) tags n j m ct = some (m1, ct1) ∧
        ct1.length = ct.length ∧
        (∀ k (hk : k < tags.length), j ≤ k → k < j + n →
          ct1[k]? = some (decide (regexec re tags[k].name = 0))) ∧
        (∀ k, k < j → ct1[k]? = ct[k]?) ∧
        (∀ k, j + n ≤ k → ct1[k]? = ct[k]?) ∧
        (m1 = true ↔ m = true ∨
          ∃ k, ∃ hk : k < tags.length, j ≤ k ∧ k < j + n ∧ regexec re tags[k].name = 0) := by
  intro n
  induction n with
  | zero =>
    intro j m ct _ _
    refine ⟨m, ct, by simp [applyrules.inner], rfl, ?_, fun _ _ => rfl, fun _ _ => rfl, ?_⟩
    · intro k _ h1 h2
      omega
    · constructor
      · intro h
        exact Or.inl h
      · rintro (h | ⟨k, _, h1, h2, _⟩)
        · exact h
        · omega
  | succ n ih =>
    intro j m ct ht hc
    have hjt : j < tags.length := by omega
    have hjc : j < ct.length := by omega
    rw [applyrules_inner_succ regexec re tags n j m ct hjt hjc]
    obtain ⟨m1, ct1, h1, h2, h3, h4, h5, h6⟩ :=
      ih (j + 1) (m || decide (regexec re tags[j].name = 0))
        (ct.set j (decide (regexec re tags[j].name = 0))) (by omega)
        (by rw [List.length_set]; omega)
    refine ⟨m1, ct1, h1, by rw [h2, List.length_set], ?_, ?_, ?_, ?_⟩
    · intro k hk hk1 hk2
      by_cases hkj : k = j
      · subst hkj
        rw [h4 k (by omega), List.getElem?_set_self hjc]
      · exact h3 k hk (by omega) (by omega)
    · intro k hk
      rw [h4 k (by omega), List.getElem?_set_ne (by omega)]
    · intro k hk
      rw [h5 k (by omega), List.getElem?_set_ne (by omega)]
    · rw [h6]
      constructor
      · rintro (h | ⟨k, hk, hk1, hk2, hk3⟩)
        · simp only [Bool.or_eq_true, decide_eq_true_eq] at h
          rcases h with h | h
          · exact Or.inl h
          · exact Or.inr ⟨j, hjt, le_refl _, by omega, h⟩
        · exact Or.inr ⟨k, hk, by omega, by omega, hk3⟩
      · rintro (h | ⟨k, hk, hk1, hk2, hk3⟩)
        · exact Or.inl (by simp [h])
        · by_cases hkj : k = j
          · subst hkj
            exact Or.inl (by simp [hk3])
          · exact Or.inr ⟨k, hk, by omega, by omega, hk3⟩

/-- The inner loop run over the whole tag list: the bitset becomes the list of
match results and `matched` is raised exactly when some name matches. -/
theorem applyrules_inner_full {R : Type} (regexec : R → String → Int) (re : R) (tags : List Tag)
    (m : Bool) (ct : List Bool) (hc : ct.length = tags.length) :
    ∃ m1, applyrules.inner regexec (some re) tags tags.length 0 m ct =
        some (m1, tags.map (fun t => decide (regexec re t.name = 0))) ∧
      (m1 = true ↔ m = true ∨ ∃ t ∈ tags, regexec re t.name = 0) := by
  obtain ⟨m1, ct1, h1, h2, h3, _, _, h6⟩ :=
    applyrules_inner_spec regexec re tags tags.length 0 m ct (by omega) (by omega)
  have hct : ct1 = tags.map (fun t => decide (regexec re t.name = 0)) := by
    apply List.ext_getElem?
    intro k
    by_cases hk : k < tags.length
    · rw [h3 k hk (Nat.zero_le _) (by omega)]
      simp [List.getElem?_eq_getElem hk]
    · rw [List.getElem?_eq_none (by omega), List.getElem?_eq_none (by simp; omega)]
  refine ⟨m1, by rw [h1, hct], ?_⟩
  rw [h6]
  constructor
  · rintro (h | ⟨k, hk, _, _, hk3⟩)
    · exact Or.inl h
    · exact Or.inr ⟨tags[k], List.getElem_mem hk, hk3⟩
  · rintro (h | ⟨t, ht, hm⟩)
    · exact Or.inl h
    · obtain ⟨k, hk, rfl⟩ := List.getElem_of_mem ht
      exact Or.inr ⟨k, hk, Nat.zero_le _, by omega, hm⟩

theorem applyrules_fallback_spec (tags : List Tag) :
    ∀ (n i : Nat) (ct : List Bool), i + n ≤ tags.length → i + n ≤ ct.length →
      ∃ ct1, applyrules.fallback tags n i ct = some ct1 ∧ ct1.length = ct.length ∧
        (∀ k (hk : k < tags.length), i ≤ k → k < i + n → ct1[k]? = some tags[k].selected) ∧
        (∀ k, k < i → ct1[k]? = ct[k]?) ∧ (∀ k, i + n ≤ k → ct1[k]? = ct[k]?) := by
  intro n
  induction n with
  | zero =>
    intro i ct _ _
    refine ⟨ct, by simp [applyrules.fallback], rfl, ?_, fun _ _ => rfl, fun _ _ => rfl⟩
    intro k _ h1 h2
    omega
  | succ n ih =>
    intro i ct ht hc
    have hit : i < tags.length := by omega
    have hic : i < ct.length := by omega
    obtain ⟨ct1, h1, h2, h3, h4, h5⟩ :=
      ih (i + 1) (ct.set i tags[i].selected) (by omega) (by rw [List.length_set]; omega)
    refine ⟨ct1, ?_, by rw [h2, List.length_set], ?_, ?_, ?_⟩
    · simp only [applyrules.fallback, List.getElem?_eq_getElem hit, store_of_lt _ hic]
      exact h1
    · intro k hk hk1 hk2
      by_cases hki : k = i
      · subst hki
        rw [h4 k (by omega), List.getElem?_set_self hic]
      · exact h3 k hk (by omega) (by omega)
    · intro k hk
      rw [h4 k (by omega), List.getElem?_set_ne (by omega)]
    · intro k hk
      rw [h5 k (by omega), List.getElem?_set_ne (by omega)]

/-- The fallback loop run over the whole tag list copies the selection. -/
theorem applyrules_fallback_full (tags : List Tag) (ct : List Bool)
    (hc : ct.length = tags.length) :
    applyrules.fallback tags tags.length 0 ct = some (tags.map Tag.selected) := by
  obtain ⟨ct1, h1, h2, h3, _, _⟩ :=
    applyrules_fallback_spec tags tags.length 0 ct (by omega) (by omega)
  rw [h1]
  congr 1
  apply List.ext_getElem?
  intro k
  by_cases hk : k < tags.length
  · rw [h3 k hk (Nat.zero_le _) (by omega)]
    simp [List.getElem?_eq_getElem hk]
  · rw [List.getElem?_eq_none (by omega), List.getElem?_eq_none (by simp; omega)]

/-- One iteration of the rule loop, for an entry inside the table and the rule
list and a bitset as long as the tag list. -/
theorem applyrules_outer_step {R : Type} (regexec : R → String → Int) (table : List (Regs R))
    (prop : String) (conf : awesome_config) (n i : Nat) (c : Client) (m : Bool)
    (r : Regs R) (rule : Rule) (hr : table[i]? = some r) (hrule : conf.rules[i]? = some rule)
    (hnt : conf.ntags = conf.tags.length) (hc : c.tags.length = conf.tags.length) :
    ∃ c1 m1, applyrules.outer regexec (some table) prop conf (n + 1) i c m =
        applyrules.outer regexec (some table) prop conf n (i + 1) c1 m1 ∧
      c1.tags.length = conf.tags.length ∧
      ((propMatches regexec prop r = false ∧ c1 = c ∧ m1 = m) ∨
       (propMatches regexec prop r = true ∧ r.tagregex = none ∧
          c1 = { c with isfloating := rule.isfloating } ∧ m1 = m) ∨
       (propMatches regexec prop r = true ∧ ∃ tre, r.tagregex = some tre ∧
          c1 = { c with isfloating := rule.isfloating,
                        tags := conf.tags.map (fun t => decide (regexec tre t.name = 0)) } ∧
          (m1 = true ↔ m = true ∨ ∃ t ∈ conf.tags, regexec tre t.name = 0))) := by
  by_cases hp : propMatches regexec prop r = true
  · cases htr : r.tagregex with
    | none =>
      refine ⟨{ c with isfloating := rule.isfloating }, m, ?_, hc, Or.inr (Or.inl ⟨hp, rfl, rfl, rfl⟩)⟩
      simp [applyrules.outer, regsAt, hr, hrule, hp, htr, applyrules_inner_none]
    | some tre =>
      obtain ⟨m1, h1, h2⟩ := applyrules_inner_full regexec tre conf.tags m c.tags hc
      refine ⟨{ c with isfloating := rule.isfloating,
                       tags := conf.tags.map (fun t => decide (regexec tre t.name = 0)) }, m1,
        ?_, by simp, Or.inr (Or.inr ⟨hp, tre, rfl, rfl, h2⟩)⟩
      simp [applyrules.outer, regsAt, hr, hrule, hp, htr, hnt, h1]
  · have hp1 : propMatches regexec prop r = false := by simpa using hp
    refine ⟨c, m, ?_, hc, Or.inl ⟨hp1, rfl, rfl⟩⟩
    simp [applyrules.outer, regsAt, hr, hp1]

/-- The rule loop over rules none of which both matches the key and has a tag
matcher: it returns, and leaves the bitset and `matched` as they were. -/
theorem applyrules_outer_no_tag_rule {R : Type} (regexec : R → String → Int)
    (table : List (Regs R)) (prop : String) (conf : awesome_config)
    (hnt : conf.ntags = conf.tags.length) :
    ∀ (n i : Nat) (c : Client) (m : Bool), i + n ≤ table.length → i + n ≤ conf.rules.length →
      c.tags.length = conf.tags.length →
      (∀ k r, i ≤ k → table[k]? = some r → propMatches regexec prop r = true →
        r.tagregex = none) →
      ∃ c1, applyrules.outer regexec (some table) prop conf n i c m = some (c1, m) ∧
        c1.tags = c.tags := by
  intro n
  induction n with
  | zero =>
    intro i c m _ _ _ _
    exact ⟨c, by simp [applyrules.outer], rfl⟩
  | succ n ih =>
    intro i c m ht hr hc hno
    have hit : i < table.length := by omega
    have hir : i < conf.rules.length := by omega
    obtain ⟨c1, m1, h1, h2, h3⟩ := applyrules_outer_step regexec table prop conf n i c m
      table[i] conf.rules[i] (List.getElem?_eq_getElem hit) (List.getElem?_eq_getElem hir) hnt hc
    have hnone := hno i table[i] (le_refl _) (List.getElem?_eq_getElem hit)
    have hrest : ∀ k r, i + 1 ≤ k → table[k]? = some r → propMatches regexec prop r = true →
        r.tagregex = none := fun k r hk => hno k r (by omega)
    obtain ⟨c2, h4, h5⟩ := ih (i + 1) c1 m1 (by omega) (by omega) h2 hrest
    rw [h1]
    rcases h3 with ⟨_, hc1, hm1⟩ | ⟨_, _, hc1, hm1⟩ | ⟨hp, tre, htre, _, _⟩
    · exact ⟨c2, by rw [h4, hm1], by rw [h5, hc1]⟩
    · exact ⟨c2, by rw [h4, hm1], by rw [h5, hc1]⟩
    · rw [hnone hp] at htre
      cases htre

/-- The rule loop always returns when the table and the rule list have an entry
for every index it visits, and the bitset keeps the length of the tag list. -/
theorem applyrules_outer_total {R : Type} (regexec : R → String → Int)
    (table : List (Regs R)) (prop : String) (conf : awesome_config)
    (hnt : conf.ntags = conf.tags.length) :
    ∀ (n i : Nat) (c : Client) (m : Bool), i + n ≤ table.length → i + n ≤ conf.rules.length →
      c.tags.length = conf.tags.length →
      ∃ c1 m1, applyrules.outer regexec (some table) prop conf n i c m = some (c1, m1) ∧
        c1.tags.length = conf.tags.length := by
  intro n
  induction n with
  | zero =>
    intro i c m _ _ hc
    exact ⟨c, m, by simp [applyrules.outer], hc⟩
  | succ n ih =>
    intro i c m ht hr hc
    have hit : i < table.length := by omega
    have hir : i < conf.rules.length := by omega
    obtain ⟨c1, m1, h1, h2, _⟩ := applyrules_outer_step regexec table prop conf n i c m
      table[i] conf.rules[i] (List.getElem?_eq_getElem hit) (List.getElem?_eq_getElem hir) hnt hc
    rw [h1]
    exact ih (i + 1) c1 m1 (by omega) (by omega) h2

/-- The rule loop over a range that holds the last rule which matches the key and
has a tag matcher, when that matcher matches some tag name: the bitset is the
list of its match results and `matched` is raised. -/
theorem applyrules_outer_last_tag_rule {R : Type} (regexec : R → String → Int)
    (table : List (Regs R)) (prop : String) (conf : awesome_config)
    (hnt : conf.ntags = conf.tags.length) (last : Nat) (r : Regs R) (tre : R)
    (hlast : table[last]? = some r) (hp : propMatches regexec prop r = true)
    (htre : r.tagregex = some tre)
    (hafter : ∀ k r1, last < k → table[k]? = some r1 → propMatches regexec prop r1 = true →
      r1.tagregex = none)
    (hsome : ∃ t ∈ conf.tags, regexec tre t.name = 0) :
    ∀ (n i : Nat) (c : Client) (m : Bool), i + n ≤ table.length → i + n ≤ conf.rules.length →
      c.tags.length = conf.tags.length → i ≤ last → last < i + n →
      ∃ c1, applyrules.outer regexec (some table) prop conf n i c m = some (c1, true) ∧
        c1.tags = conf.tags.map (fun t => decide (regexec tre t.name = 0)) := by
  intro n
  induction n with
  | zero =>
    intro i c m _ _ _ h1 h2
    omega
  | succ n ih =>
    intro i c m ht hr hc hil hlt
    have hit : i < table.length := by omega
    have hir : i < conf.rules.length := by omega
    obtain ⟨c1, m1, h1, h2, h3⟩ := applyrules_outer_step regexec table prop conf n i c m
      table[i] conf.rules[i] (List.getElem?_eq_getElem hit) (List.getElem?_eq_getElem hir) hnt hc
    rw [h1]
    by_cases hi : i = last
    · subst hi
      have hri : table[i] = r := by
        have := List.getElem?_eq_getElem hit
        rw [hlast] at this
        exact (Option.some.inj this).symm
      rw [hri] at h3
      rcases h3 with ⟨hp1, _, _⟩ | ⟨_, hnone, _, _⟩ | ⟨_, tre1, htre1, hc1, hm1⟩
      · rw [hp] at hp1
        cases hp1
      · rw [htre] at hnone
        cases hnone
      · rw [htre] at htre1
        cases htre1
        have hm : m1 = true := hm1.mpr (Or.inr hsome)
        subst hm
        obtain ⟨c2, h4, h5⟩ := applyrules_outer_no_tag_rule regexec table prop conf hnt n (i + 1)
          c1 true (by omega) (by omega) h2 (fun k r1 hk => hafter k r1 (by omega))
        exact ⟨c2, h4, by rw [h5, hc1]⟩
    · exact ih (i + 1) c1 m1 (by omega) (by omega) h2 (by omega) (by omega)

/-! ## `applyrules`: the claims -/

/-- C2, as the specification states it, fails: the only rule matches the key and
has a tag matcher, that matcher matches no tag name (in particular not `web`), and
yet the window ends up on tag `web`, inherited from the view. -/
theorem applyrules_last_rule_counterexample :
    (tableOf rulesUnknownTag)[0]? = some ⟨some "^Firefox:.*", some "^chat$"⟩ ∧
    propMatches posix_regexec (applyrules.prop firefoxHint (mozillaClient 3))
      ⟨some "^Firefox:.*", some "^chat$"⟩ = true ∧
    threeTags[1]? = some ⟨"web", true, false, 0⟩ ∧
    posix_regexec "^chat$" "web" ≠ 0 ∧
    (applyrules posix_regexec (some (tableOf rulesUnknownTag)) firefoxHint (mozillaClient 3)
      (mkConfig rulesUnknownTag threeTags)).map Client.tags = some [false, true, false] := by
  decide

/-- C2 (amended): when the last rule that matches the key and has a tag matcher
matches at least one tag name, `applyrules` returns and the bitset is exactly the
list of that matcher's results on the tag names; no earlier rule contributes. -/
theorem applyrules_last_tag_rule_wins {R : Type} (regexec : R → String → Int)
    (table : List (Regs R)) (ch : XClassHint) (c : Client) (conf : awesome_config)
    (hnt : conf.ntags = conf.tags.length) (hct : c.tags.length = conf.ntags)
    (hnr : conf.nrules = conf.rules.length) (htab : table.length = conf.nrules)
    (last : Nat) (hlast : last < table.length) (tre : R)
    (hp : propMatches regexec (applyrules.prop ch c) table[last] = true)
    (htre : table[last].tagregex = some tre)
    (hafter : ∀ k (hk : k < table.length), last < k →
      propMatches regexec (applyrules.prop ch c) table[k] = true → table[k].tagregex = none)
    (hsome : ∃ t ∈ conf.tags, regexec tre t.name = 0) :
    ∃ c1, applyrules regexec (some table) ch c conf = some c1 ∧
      c1.tags = conf.tags.map (fun t => decide (regexec tre t.name = 0)) := by
  have hafter1 : ∀ k r1, last < k → table[k]? = some r1 →
      propMatches regexec (applyrules.prop ch c) r1 = true → r1.tagregex = none := by
    intro k r1 hk hr1 hp1
    obtain ⟨hk1, rfl⟩ := List.getElem?_eq_some.mp hr1
    exact hafter k hk1 hk hp1
  obtain ⟨c1, h1, h2⟩ := applyrules_outer_last_tag_rule regexec table (applyrules.prop ch c) conf
    hnt last table[last] tre (List.getElem?_eq_getElem hlast) hp htre hafter1 hsome
    conf.nrules 0 c false (by omega) (by omega) (by omega) (Nat.zero_le _) (by omega)
  exact ⟨c1, by simp [applyrules, h1], h2⟩

/-- Two rules match a Firefox window; the later one, with pattern `^ma.*l$`,
decides alone: witness of C2 (amended). -/
theorem applyrules_last_tag_rule_wins_witness :
    ∃ c1, applyrules posix_regexec (some (tableOf rulesTwoTags)) firefoxHint (mozillaClient 3)
        (mkConfig rulesTwoTags threeTags) = some c1 ∧
      c1.tags = threeTags.map (fun t => decide (posix_regexec "^ma.*l$" t.name = 0)) :=
  applyrules_last_tag_rule_wins posix_regexec (tableOf rulesTwoTags) firefoxHint (mozillaClient 3)
    (mkConfig rulesTwoTags threeTags) (by decide) (by decide) (by decide) (by decide)
    1 (by decide) "^ma.*l$" (by decide) (by decide) (by decide) (by decide)

/-- C3: the code leaves a window without any tag.  Both rules match the Firefox
window; the first puts it on `web`, the second names a tag that is not configured,
clears every bit, and `matched`, raised by the first, suppresses the fallback,
although tag `web` is selected. -/
theorem applyrules_untagged_window :
    (mkConfig rulesThenUnknownTag threeTags).tags.map Tag.selected = [false, true, false] ∧
    (applyrules posix_regexec (some (tableOf rulesThenUnknownTag)) firefoxHint (mozillaClient 3)
      (mkConfig rulesThenUnknownTag threeTags)).map Client.tags = some [false, false, false] := by
  decide

/-- C7: when no rule both matches the key and has a tag matcher, `applyrules`
returns and the window's bitset is the snapshot of the selection, bit by bit. -/
theorem applyrules_fallback_to_view {R : Type} (regexec : R → String → Int)
    (table : List (Regs R)) (ch : XClassHint) (c : Client) (conf : awesome_config)
    (hnt : conf.ntags = conf.tags.length) (hct : c.tags.length = conf.ntags)
    (hnr : conf.nrules = conf.rules.length) (htab : table.length = conf.nrules)
    (hno : ∀ r ∈ table, propMatches regexec (applyrules.prop ch c) r = true →
      r.tagregex = none) :
    ∃ c1, applyrules regexec (some table) ch c conf = some c1 ∧
      c1.tags = conf.tags.map Tag.selected ∧
      ∀ j (hj : j < conf.tags.length), c1.tags[j]? = some conf.tags[j].selected := by
  obtain ⟨c1, h1, h2⟩ := applyrules_outer_no_tag_rule regexec table (applyrules.prop ch c) conf
    hnt conf.nrules 0 c false (by omega) (by omega) (by omega)
    (fun k r _ hr => hno r (List.getElem?_mem hr))
  have h3 := applyrules_fallback_full conf.tags c1.tags (by rw [h2]; omega)
  refine ⟨{ c1 with tags := conf.tags.map Tag.selected }, ?_, rfl, ?_⟩
  · simp [applyrules, h1, hnt, h3]
  · intro j hj
    simp [List.getElem?_eq_getElem hj]

/-- A Firefox window under a rule without tag pattern and a rule for another
class: witness of C7. -/
theorem applyrules_fallback_to_view_witness :
    ∃ c1, applyrules posix_regexec (some (tableOf rulesNoTagPattern)) firefoxHint
        (mozillaClient 3) (mkConfig rulesNoTagPattern threeTags) = some c1 ∧
      c1.tags = (mkConfig rulesNoTagPattern threeTags).tags.map Tag.selected ∧
      ∀ j (hj : j < (mkConfig rulesNoTagPattern threeTags).tags.length),
        c1.tags[j]? = some (mkConfig rulesNoTagPattern threeTags).tags[j].selected :=
  applyrules_fallback_to_view posix_regexec (tableOf rulesNoTagPattern) firefoxHint
    (mozillaClient 3) (mkConfig rulesNoTagPattern threeTags) (by decide) (by decide) (by decide)
    (by decide) (by decide)

/-- C8: a single rule whose property matcher matches the composite key and whose
tag matcher matches the name of exactly one tag `t0`: `applyrules` returns, the
bit of `t0` is true, every other bit is false, and `isfloating` is the rule's
default. -/
theorem applyrules_single_rule {R : Type} (regexec : R → String → Int) (r : Regs R)
    (rule : Rule) (ch : XClassHint) (c : Client) (conf : awesome_config) (re tre : R)
    (hrules : conf.rules = [rule]) (hnr : conf.nrules = 1)
    (hnt : conf.ntags = conf.tags.length) (hct : c.tags.length = conf.ntags)
    (hre : r.propregex = some re)
    (hm : regexec re (applyrules.prop ch c) = 0)
    (htre : r.tagregex = some tre) (t0 : Nat) (ht0 : t0 < conf.tags.length)
    (hone : ∀ j (hj : j < conf.tags.length), regexec tre conf.tags[j].name = 0 ↔ j = t0) :
    ∃ c1, applyrules regexec (some [r]) ch c conf = some c1 ∧
      c1.isfloating = rule.isfloating ∧ c1.tags.length = conf.tags.length ∧
      c1.tags[t0]? = some true ∧
      ∀ j, j < conf.tags.length → j ≠ t0 → c1.tags[j]? = some false := by
  have hp : propMatches regexec (applyrules.prop ch c) r = true := by
    simp [propMatches, hre, hm]
  obtain ⟨m1, h1, h2⟩ := applyrules_inner_full regexec tre conf.tags false c.tags (by omega)
  have hm1 : m1 = true :=
    h2.mpr (Or.inr ⟨conf.tags[t0], List.getElem_mem ht0, (hone t0 ht0).mpr rfl⟩)
  subst hm1
  refine ⟨{ c with isfloating := rule.isfloating,
                   tags := conf.tags.map (fun t => decide (regexec tre t.name = 0)) },
    ?_, rfl, by simp, ?_, ?_⟩
  · simp [applyrules, applyrules.outer, regsAt, hp, hrules, hnr, htre, hnt, h1]
  · simp [List.getElem?_eq_getElem ht0, (hone t0 ht0).mpr rfl]
  · intro j hj hne
    have hnm : ¬ regexec tre conf.tags[j].name = 0 := fun h => hne ((hone j hj).mp h)
    simp [List.getElem?_eq_getElem hj, hnm]

/-- The rule `^Firefox:.*` / `^web$` / not floating, applied to the window of class
`Firefox`, instance `Navigator` and title `Mozilla`: witness of C8. -/
theorem applyrules_single_rule_witness :
    applyrules.prop firefoxHint (mozillaClient 3) = "Firefox:Navigator:Mozilla" ∧
    ∃ c1, applyrules posix_regexec (some [⟨some "^Firefox:.*", some "^web$"⟩]) firefoxHint
        (mozillaClient 3) (mkConfig rulesFirefoxWeb threeTags) = some c1 ∧
      c1.isfloating = false ∧ c1.tags.length = 3 ∧ c1.tags[1]? = some true ∧
      ∀ j, j < 3 → j ≠ 1 → c1.tags[j]? = some false :=
  ⟨by decide,
   applyrules_single_rule posix_regexec ⟨some "^Firefox:.*", some "^web$"⟩
    ⟨some "^Firefox:.*", some "^web$", false⟩ firefoxHint (mozillaClient 3)
    (mkConfig rulesFirefoxWeb threeTags) "^Firefox:.*" "^web$" rfl rfl (by decide) (by decide)
    rfl (by decide) rfl 1 (by decide) (by decide)⟩

/-! ## `idxoftag` and the toggles -/

theorem idxoftag_loop_bound (name : String) (tags : List Tag) :
    ∀ (n i0 : Nat), i0 + n ≤ tags.length →
      ∃ i, idxoftag.loop name tags n i0 = some i ∧ (i = 0 ∨ (i0 ≤ i ∧ i < i0 + n)) := by
  intro n
  induction n with
  | zero =>
    intro i0 _
    exact ⟨0, rfl, Or.inl rfl⟩
  | succ n ih =>
    intro i0 h
    have hi : i0 < tags.length := by omega
    simp only [idxoftag.loop, List.getElem?_eq_getElem hi]
    by_cases hcmp : a_strcmp tags[i0].name name = 0
    · exact ⟨i0, by simp [hcmp], Or.inr ⟨le_refl _, by omega⟩⟩
    · obtain ⟨i, h1, h2⟩ := ih (i0 + 1) (by omega)
      refine ⟨i, by simp [hcmp, h1], ?_⟩
      rcases h2 with h2 | h2
      · exact Or.inl h2
      · exact Or.inr ⟨by omega, by omega⟩

/-- On a list of at least one tag `idxoftag` returns an index inside the list. -/
theorem idxoftag_lt (arg : Option String) (tags : List Tag) (hN : 1 ≤ tags.length) :
    ∃ i, idxoftag arg tags tags.length = some i ∧ i < tags.length := by
  cases arg with
  | none => exact ⟨0, rfl, by omega⟩
  | some name =>
    obtain ⟨i, h1, h2⟩ := idxoftag_loop_bound name tags tags.length 0 (by omega)
    exact ⟨i, h1, by omega⟩

theorem toggletag_scan_spec (ct : List Bool) :
    ∀ (n j : Nat), j + n ≤ ct.length →
      ∃ j1, uicb_toggletag.scan ct n j = some j1 ∧ j ≤ j1 ∧ j1 ≤ j + n ∧
        (j1 < j + n → ct[j1]? = some true) ∧
        (j1 = j + n → ∀ k, j ≤ k → k < j + n → ct[k]? = some false) := by
  intro n
  induction n with
  | zero =>
    intro j _
    refine ⟨j, rfl, le_refl _, le_refl _, ?_, ?_⟩
    · intro h
      omega
    · intro _ k h1 h2
      omega
  | succ n ih =>
    intro j h
    have hj : j < ct.length := by omega
    simp only [uicb_toggletag.scan, List.getElem?_eq_getElem hj]
    by_cases hb : ct[j] = true
    · refine ⟨j, by simp [hb], le_refl _, by omega, ?_, ?_⟩
      · intro _
        simp [List.getElem?_eq_getElem hj, hb]
      · intro h1
        omega
    · obtain ⟨j1, h1, h2, h3, h4, h5⟩ := ih (j + 1) (by omega)
      refine ⟨j1, by simp [hb, h1], by omega, by omega, ?_, ?_⟩
      · intro h6
        exact h4 (by omega)
      · intro h6 k hk1 hk2
        by_cases hkj : k = j
        · subst hkj
          simp [List.getElem?_eq_getElem hj, hb]
        · exact h5 (by omega) k (by omega) (by omega)

/-- What one call of `uicb_toggletag` does to a selected window whose bitset is as
long as the non-empty tag list: it returns, the configuration is untouched, the
bitset keeps its length, differs from the old one at most at the resolved index
and has a true entry. -/
theorem uicb_toggletag_spec (s : State) (c : Client) (arg : Option String)
    (hsel : s.sel = some c) (hnt : s.awesomeconf.ntags = s.awesomeconf.tags.length)
    (hct : c.tags.length = s.awesomeconf.ntags) (hN : 1 ≤ s.awesomeconf.ntags) :
    ∃ (s1 : State) (c1 : Client) (i : Nat), uicb_toggletag s arg = some s1 ∧ s1.sel = some c1 ∧
      s1.awesomeconf = s.awesomeconf ∧ c1.tags.length = c.tags.length ∧
      idxoftag arg s.awesomeconf.tags s.awesomeconf.ntags = some i ∧
      (∀ k : Nat, k ≠ i → c1.tags[k]? = c.tags[k]?) ∧
      (∃ k : Nat, c1.tags[k]? = some true) := by
  obtain ⟨i, hi1, hi2⟩ := idxoftag_lt arg s.awesomeconf.tags (by omega)
  rw [← hnt] at hi1
  have hic : i < c.tags.length := by omega
  obtain ⟨j, hj1, _, hj3, hj4, hj5⟩ :=
    toggletag_scan_spec (c.tags.set i (!c.tags[i])) s.awesomeconf.ntags 0
      (by rw [List.length_set]; omega)
  have hlen : i < (c.tags.set i (!c.tags[i])).length := by rw [List.length_set]; exact hic
  by_cases hj : j = s.awesomeconf.ntags
  · refine ⟨{ s with
        sel := some { c with tags := (c.tags.set i (!c.tags[i])).set i true }
        calls := s.calls ++
          [Event.saveprops { c with tags := (c.tags.set i (!c.tags[i])).set i true }
            s.awesomeconf.ntags, Event.arrange s.awesomeconf] },
      { c with tags := (c.tags.set i (!c.tags[i])).set i true }, i, ?_, rfl, rfl,
      by simp, hi1, ?_, ⟨i, ?_⟩⟩
    · simp [uicb_toggletag, hsel, hi1, List.getElem?_eq_getElem hic, store_of_lt _ hic, hj1, hj,
        store_of_lt _ hlen]
    · intro k hk
      simp [List.getElem?_set_ne (Ne.symm hk)]
    · simp [hic]
  · refine ⟨{ s with
        sel := some { c with tags := c.tags.set i (!c.tags[i]) }
        calls := s.calls ++
          [Event.saveprops { c with tags := c.tags.set i (!c.tags[i]) }
            s.awesomeconf.ntags, Event.arrange s.awesomeconf] },
      { c with tags := c.tags.set i (!c.tags[i]) }, i, ?_, rfl, rfl,
      by simp, hi1, ?_, ⟨j, hj4 (by omega)⟩⟩
    · simp [uicb_toggletag, hsel, hi1, List.getElem?_eq_getElem hic, store_of_lt _ hic, hj1, hj]
    · intro k hk
      simp [List.getElem?_set_ne (Ne.symm hk)]

theorem runCalls_single (f : State → Option String → Option State) (s : State)
    (arg : Option String) : runCalls f s ([] ++ [arg]) = f s arg := by
  simp only [List.nil_append, runCalls]
  cases f s arg <;> rfl

theorem runCalls_cons (f : State → Option String → Option State) (s s1 : State)
    (arg : Option String) (args : List (Option String)) (h : f s arg = some s1) :
    runCalls f s (arg :: args) = runCalls f s1 args := by
  simp [runCalls, h]

/-- C5: on a selected window whose bitset has the length `N ≥ 1` of the tag list,
whatever the bitset holds, every call of a sequence of `uicb_toggletag` calls
(the call with argument `arg`, after any calls `args`) returns and leaves a
bitset of length `N` with at least one true entry. -/
theorem uicb_toggletag_never_untagged (N : Nat) (hN : 1 ≤ N) (args : List (Option String))
    (arg : Option String) :
    ∀ (s : State) (c : Client), s.sel = some c → s.awesomeconf.ntags = N →
      s.awesomeconf.tags.length = N → c.tags.length = N →
      ∃ s1 c1, runCalls uicb_toggletag s (args ++ [arg]) = some s1 ∧ s1.sel = some c1 ∧
        c1.tags.length = N ∧ ∃ k, k < N ∧ c1.tags[k]? = some true := by
  induction args with
  | nil =>
    intro s c hsel hnt htl hct
    obtain ⟨s1, c1, i, h1, h2, _, h4, _, _, k, hk⟩ :=
      uicb_toggletag_spec s c arg hsel (by omega) (by omega) (by omega)
    refine ⟨s1, c1, by simp [runCalls, h1], h2, by omega, k, ?_, hk⟩
    have := (List.getElem?_eq_some.mp hk).1
    omega
  | cons a rest ih =>
    intro s c hsel hnt htl hct
    obtain ⟨s1, c1, i, h1, h2, h3, h4, _, _, _⟩ :=
      uicb_toggletag_spec s c a hsel (by omega) (by omega) (by omega)
    obtain ⟨s2, c2, h5, h6⟩ := ih s1 c1 h2 (by rw [h3]; exact hnt) (by rw [h3]; exact htl)
      (by omega)
    exact ⟨s2, c2, by simp [runCalls, h1, h5], h6⟩

/-- A window on tag `a` only, toggled off `a` (reverted), onto `b`, off an unknown
name, that is off `a`: witness of C5. -/
theorem uicb_toggletag_never_untagged_witness :
    ∃ s1 c1, runCalls uicb_toggletag
        (screenWith [⟨"a", true, false, 0⟩, ⟨"b", false, false, 0⟩] [false, false])
        ([some "a", some "b", some "zz"] ++ [none]) = some s1 ∧ s1.sel = some c1 ∧
      c1.tags.length = 2 ∧ ∃ k, k < 2 ∧ c1.tags[k]? = some true :=
  uicb_toggletag_never_untagged 2 (by decide) [some "a", some "b", some "zz"] none
    (screenWith [⟨"a", true, false, 0⟩, ⟨"b", false, false, 0⟩] [false, false])
    { mozillaClient 0 with tags := [false, false] } rfl rfl rfl rfl

theorem setSelected_of_lt (tags : List Tag) (i : Nat) (v : Bool) (hi : i < tags.length) :
    setSelected tags i v = some (tags.set i { tags[i] with selected := v }) := by
  simp [setSelected, List.getElem?_eq_getElem hi, store_of_lt _ hi]

theorem toggleview_scan_spec (tags : List Tag) :
    ∀ (n j : Nat), j + n ≤ tags.length →
      ∃ j1, uicb_toggleview.scan tags n j = some j1 ∧ j ≤ j1 ∧ j1 ≤ j + n ∧
        (j1 < j + n → ∃ t, tags[j1]? = some t ∧ t.selected = true) ∧
        (j1 = j + n → ∀ k (hk : k < tags.length), j ≤ k → k < j + n →
          tags[k].selected = false) := by
  intro n
  induction n with
  | zero =>
    intro j _
    refine ⟨j, rfl, le_refl _, le_refl _, ?_, ?_⟩
    · intro h
      omega
    · intro _ k _ h1 h2
      omega
  | succ n ih =>
    intro j h
    have hj : j < tags.length := by omega
    simp only [uicb_toggleview.scan, List.getElem?_eq_getElem hj]
    by_cases hb : tags[j].selected = true
    · refine ⟨j, by simp [hb], le_refl _, by omega, ?_, ?_⟩
      · intro _
        exact ⟨tags[j], List.getElem?_eq_getElem hj, hb⟩
      · intro h1
        omega
    · obtain ⟨j1, h1, h2, h3, h4, h5⟩ := ih (j + 1) (by omega)
      refine ⟨j1, by simp [hb, h1], by omega, by omega, ?_, ?_⟩
      · intro h6
        exact h4 (by omega)
      · intro h6 k hk hk1 hk2
        by_cases hkj : k = j
        · subst hkj
          simpa using hb
        · exact h5 (by omega) k hk (by omega) (by omega)

/-- The scan over the whole list stops at `ntags` exactly when no tag is selected. -/
theorem toggleview_scan_full (tags : List Tag) :
    ∃ j, uicb_toggleview.scan tags tags.length 0 = some j ∧
      (j = tags.length ↔ ∀ t ∈ tags, t.selected = false) := by
  obtain ⟨j, h1, _, h3, h4, h5⟩ := toggleview_scan_spec tags tags.length 0 (by omega)
  refine ⟨j, h1, ?_, ?_⟩
  · intro hj t ht
    obtain ⟨k, hk, rfl⟩ := List.getElem_of_mem ht
    exact h5 (by omega) k hk (Nat.zero_le _) (by omega)
  · intro hall
    by_contra hne
    obtain ⟨t, ht1, ht2⟩ := h4 (by omega)
    rw [hall t (List.getElem?_mem ht1)] at ht2
    cases ht2

/-- What one call of `uicb_toggleview` does on a non-empty tag list: it returns and
changes nothing but the tag list, which is the old one with `selected` of the
resolved tag negated, or, when that leaves no tag selected, forced to true. -/
theorem uicb_toggleview_spec (s : State) (arg : Option String)
    (hnt : s.awesomeconf.ntags = s.awesomeconf.tags.length) (hN : 1 ≤ s.awesomeconf.ntags) :
    ∃ (i : Nat) (t : Tag) (tags1 : List Tag),
      idxoftag arg s.awesomeconf.tags s.awesomeconf.ntags = some i ∧
      s.awesomeconf.tags[i]? = some t ∧
      uicb_toggleview s arg = some { s with
        awesomeconf := { s.awesomeconf with tags := tags1 }
        calls := s.calls ++ [Event.saveawesomeprops { s.awesomeconf with tags := tags1 },
          Event.arrange { s.awesomeconf with tags := tags1 }] } ∧
      ((∃ u ∈ s.awesomeconf.tags.set i { t with selected := !t.selected }, u.selected = true) →
        tags1 = s.awesomeconf.tags.set i { t with selected := !t.selected }) ∧
      ((∀ u ∈ s.awesomeconf.tags.set i { t with selected := !t.selected }, u.selected = false) →
        tags1 = s.awesomeconf.tags.set i { t with selected := true }) ∧
      (∃ u ∈ tags1, u.selected = true) ∧ tags1.length = s.awesomeconf.tags.length := by
  obtain ⟨i, hi1, hi2⟩ := idxoftag_lt arg s.awesomeconf.tags (by omega)
  rw [← hnt] at hi1
  obtain ⟨j, hj1, hj2⟩ := toggleview_scan_full
    (s.awesomeconf.tags.set i { s.awesomeconf.tags[i] with selected := !s.awesomeconf.tags[i].selected })
  have hlen : i < (s.awesomeconf.tags.set i
      { s.awesomeconf.tags[i] with selected := !s.awesomeconf.tags[i].selected }).length := by
    rw [List.length_set]; exact hi2
  rw [List.length_set, ← hnt] at hj1 hj2
  by_cases hj : j = s.awesomeconf.ntags
  · refine ⟨i, s.awesomeconf.tags[i],
      s.awesomeconf.tags.set i { s.awesomeconf.tags[i] with selected := true },
      hi1, List.getElem?_eq_getElem hi2, ?_, ?_, fun _ => rfl, ?_, by simp⟩
    · simp [uicb_toggleview, hi1, List.getElem?_eq_getElem hi2, setSelected_of_lt _ _ _ hi2,
        hj1, hj, setSelected_of_lt _ _ _ hlen]
    · rintro ⟨u, hu1, hu2⟩
      rw [(hj2.mp hj) u hu1] at hu2
      cases hu2
    · exact ⟨_, List.mem_iff_getElem?.mpr ⟨i, List.getElem?_set_self hi2⟩, rfl⟩
  · have hex : ∃ u ∈ s.awesomeconf.tags.set i
        { s.awesomeconf.tags[i] with selected := !s.awesomeconf.tags[i].selected },
        u.selected = true := by
      by_contra hcon
      apply hj
      apply hj2.mpr
      intro u hu
      by_contra hne
      exact hcon ⟨u, hu, by simpa using hne⟩
    refine ⟨i, s.awesomeconf.tags[i],
      s.awesomeconf.tags.set i
        { s.awesomeconf.tags[i] with selected := !s.awesomeconf.tags[i].selected },
      hi1, List.getElem?_eq_getElem hi2, ?_, fun _ => rfl, ?_, hex, by simp⟩
    · simp [uicb_toggleview, hi1, List.getElem?_eq_getElem hi2, setSelected_of_lt _ _ _ hi2,
        hj1, hj]
    · intro hall
      obtain ⟨u, hu1, hu2⟩ := hex
      rw [hall u hu1] at hu2
      cases hu2

/-- The sequence part of C6, for every start state. -/
theorem runCalls_toggleview_selected (N : Nat) (hN : 1 ≤ N) (args : List (Option String))
    (arg : Option String) :
    ∀ (s : State), s.awesomeconf.ntags = N → s.awesomeconf.tags.length = N →
      ∃ s1, runCalls uicb_toggleview s (args ++ [arg]) = some s1 ∧
        ∃ u ∈ s1.awesomeconf.tags, u.selected = true := by
  induction args with
  | nil =>
    intro s hnt htl
    obtain ⟨i, t, tags1, _, _, h3, _, _, h6, _⟩ :=
      uicb_toggleview_spec s arg (by omega) (by omega)
    rw [runCalls_single, h3]
    exact ⟨_, rfl, h6⟩
  | cons a rest ih =>
    intro s hnt htl
    obtain ⟨i, t, tags1, _, _, h3, _, _, _, h7⟩ :=
      uicb_toggleview_spec s a (by omega) (by omega)
    obtain ⟨s2, h8, h9⟩ := ih _ (show ({ s with
        awesomeconf := { s.awesomeconf with tags := tags1 }
        calls := s.calls ++ [Event.saveawesomeprops { s.awesomeconf with tags := tags1 },
          Event.arrange { s.awesomeconf with tags := tags1 }] } : State).awesomeconf.ntags = N
        from hnt) (by simpa [htl] using h7)
    rw [List.cons_append, runCalls_cons _ _ _ _ _ h3]
    exact ⟨s2, h8, h9⟩

/-- C6: on a tag list of `N ≥ 1` tags, whatever the selection, every call of a
sequence of `uicb_toggleview` calls (the call with argument `arg`, after any calls
`args`) returns and leaves at least one tag selected; and a call whose flip
would leave every tag unselected ends with the resolved tag selected. -/
theorem uicb_toggleview_never_empty (N : Nat) (hN : 1 ≤ N) (args : List (Option String))
    (arg : Option String) (s : State) (hnt : s.awesomeconf.ntags = N)
    (htl : s.awesomeconf.tags.length = N) :
    (∃ s1, runCalls uicb_toggleview s (args ++ [arg]) = some s1 ∧
      ∃ u ∈ s1.awesomeconf.tags, u.selected = true) ∧
    (∃ (i : Nat) (t : Tag) (s1 : State),
      idxoftag arg s.awesomeconf.tags s.awesomeconf.ntags = some i ∧
      s.awesomeconf.tags[i]? = some t ∧ uicb_toggleview s arg = some s1 ∧
      ((∀ u ∈ s.awesomeconf.tags.set i { t with selected := !t.selected }, u.selected = false) →
        s1.awesomeconf.tags[i]? = some { t with selected := true })) := by
  refine ⟨runCalls_toggleview_selected N hN args arg s hnt htl, ?_⟩
  obtain ⟨i, t, tags1, h1, h2, h3, _, h5, _, _⟩ :=
    uicb_toggleview_spec s arg (by omega) (by omega)
  refine ⟨i, t, _, h1, h2, h3, ?_⟩
  intro hall
  have hi := (List.getElem?_eq_some.mp h2).1
  simp [h5 hall, hi]

/-- A screen showing tag `a` only, asked to hide `a` (reverted), show `b`, hide
`a`, hide `b` (reverted): witness of C6. -/
theorem uicb_toggleview_never_empty_witness :
    (∃ s1, runCalls uicb_toggleview (screenOf [⟨"a", true, false, 0⟩, ⟨"b", false, false, 0⟩])
        ([some "a", some "b", some "a"] ++ [some "b"]) = some s1 ∧
      ∃ u ∈ s1.awesomeconf.tags, u.selected = true) ∧
    (∃ (i : Nat) (t : Tag) (s1 : State),
      idxoftag (some "b") (screenOf [⟨"a", true, false, 0⟩, ⟨"b", false, false, 0⟩]).awesomeconf.tags
        (screenOf [⟨"a", true, false, 0⟩, ⟨"b", false, false, 0⟩]).awesomeconf.ntags = some i ∧
      (screenOf [⟨"a", true, false, 0⟩, ⟨"b", false, false, 0⟩]).awesomeconf.tags[i]? = some t ∧
      uicb_toggleview (screenOf [⟨"a", true, false, 0⟩, ⟨"b", false, false, 0⟩]) (some "b")
        = some s1 ∧
      ((∀ u ∈ (screenOf [⟨"a", true, false, 0⟩, ⟨"b", false, false, 0⟩]).awesomeconf.tags.set i
          { t with selected := !t.selected }, u.selected = false) →
        s1.awesomeconf.tags[i]? = some { t with selected := true })) :=
  uicb_toggleview_never_empty 2 (by decide) [some "a", some "b", some "a"] (some "b")
    (screenOf [⟨"a", true, false, 0⟩, ⟨"b", false, false, 0⟩]) rfl rfl

/-! ## `uicb_view` and `uicb_tag_prev_selected` -/

theorem uicb_view_loop_spec (v : Bool) :
    ∀ (post pre : List Tag),
      uicb_view.loop v post.length pre.length (pre ++ post) =
        some (pre ++ post.map (fun t => { t with was_selected := t.selected, selected := v })) := by
  intro post
  induction post with
  | nil =>
    intro pre
    simp [uicb_view.loop]
  | cons x rest ih =>
    intro pre
    have h := ih (pre ++ [{ x with was_selected := x.selected, selected := v }])
    simp only [List.length_append, List.length_singleton, List.append_assoc,
      List.singleton_append] at h
    simp only [List.length_cons, uicb_view.loop, getElem?_append_cons, store_append_cons,
      List.map_cons]
    exact h

theorem uicb_view_loop_full (v : Bool) (tags : List Tag) :
    uicb_view.loop v tags.length 0 tags =
      some (tags.map (fun t => { t with was_selected := t.selected, selected := v })) := by
  simpa using uicb_view_loop_spec v tags []

theorem uicb_tag_prev_selected_loop_spec :
    ∀ (post pre : List Tag),
      uicb_tag_prev_selected.loop post.length pre.length (pre ++ post) =
        some (pre ++ post.map (fun t =>
          { t with selected := t.was_selected, was_selected := t.selected })) := by
  intro post
  induction post with
  | nil =>
    intro pre
    simp [uicb_tag_prev_selected.loop]
  | cons x rest ih =>
    intro pre
    have h := ih (pre ++ [{ x with selected := x.was_selected, was_selected := x.selected }])
    simp only [List.length_append, List.length_singleton, List.append_assoc,
      List.singleton_append] at h
    simp only [List.length_cons, uicb_tag_prev_selected.loop, getElem?_append_cons,
      store_append_cons, List.map_cons]
    exact h

/-- One call of `uicb_tag_prev_selected`: it returns, exchanges `selected` and
`was_selected` of every tag, and calls `arrange` only. -/
theorem uicb_tag_prev_selected_eq (s : State) (arg : Option String)
    (hnt : s.awesomeconf.ntags = s.awesomeconf.tags.length) :
    uicb_tag_prev_selected s arg = some { s with
      awesomeconf := { s.awesomeconf with
        tags := s.awesomeconf.tags.map (fun t =>
          { t with selected := t.was_selected, was_selected := t.selected }) }
      calls := s.calls ++ [Event.arrange { s.awesomeconf with
        tags := s.awesomeconf.tags.map (fun t =>
          { t with selected := t.was_selected, was_selected := t.selected }) }] } := by
  have h := uicb_tag_prev_selected_loop_spec s.awesomeconf.tags []
  simp only [List.length_nil, List.nil_append] at h
  simp [uicb_tag_prev_selected, hnt, h]

theorem idxoftag_total (arg : Option String) (tags : List Tag) :
    ∃ i, idxoftag arg tags tags.length = some i ∧ (i = 0 ∨ i < tags.length) := by
  cases arg with
  | none => exact ⟨0, rfl, Or.inl rfl⟩
  | some name =>
    obtain ⟨i, h1, h2⟩ := idxoftag_loop_bound name tags tags.length 0 (by omega)
    exact ⟨i, h1, by omega⟩

/-- One call of `uicb_view`: every tag gets `was_selected = selected` and
`selected = (arg == NULL)`; then, when the resolved index is inside the list, that
tag is selected and its layout becomes the current one. -/
theorem uicb_view_spec (s : State) (arg : Option String)
    (hnt : s.awesomeconf.ntags = s.awesomeconf.tags.length) :
    ∃ i : Nat,
      idxoftag arg (s.awesomeconf.tags.map (fun t =>
        { t with was_selected := t.selected, selected := arg.isNone })) s.awesomeconf.ntags
        = some i ∧
      (i < s.awesomeconf.ntags → ∃ t : Tag,
        (s.awesomeconf.tags.map (fun t =>
          { t with was_selected := t.selected, selected := arg.isNone }))[i]? = some t ∧
        uicb_view s arg = some { s with
          awesomeconf := { s.awesomeconf with
            tags := (s.awesomeconf.tags.map (fun t =>
              { t with was_selected := t.selected, selected := arg.isNone })).set i
                { t with selected := true }
            current_layout := t.layout }
          calls := s.calls ++
            [Event.saveawesomeprops { s.awesomeconf with
              tags := (s.awesomeconf.tags.map (fun t =>
                { t with was_selected := t.selected, selected := arg.isNone })).set i
                  { t with selected := true }
              current_layout := t.layout },
             Event.arrange { s.awesomeconf with
              tags := (s.awesomeconf.tags.map (fun t =>
                { t with was_selected := t.selected, selected := arg.isNone })).set i
                  { t with selected := true }
              current_layout := t.layout }] }) ∧
      (¬ i < s.awesomeconf.ntags →
        uicb_view s arg = some { s with
          awesomeconf := { s.awesomeconf with
            tags := s.awesomeconf.tags.map (fun t =>
              { t with was_selected := t.selected, selected := arg.isNone }) }
          calls := s.calls ++
            [Event.saveawesomeprops { s.awesomeconf with
              tags := s.awesomeconf.tags.map (fun t =>
                { t with was_selected := t.selected, selected := arg.isNone }) },
             Event.arrange { s.awesomeconf with
              tags := s.awesomeconf.tags.map (fun t =>
                { t with was_selected := t.selected, selected := arg.isNone }) }] }) := by
  have hloop := uicb_view_loop_full arg.isNone s.awesomeconf.tags
  obtain ⟨i, hi1, _⟩ := idxoftag_total arg (s.awesomeconf.tags.map (fun t =>
    { t with was_selected := t.selected, selected := arg.isNone }))
  rw [List.length_map, ← hnt] at hi1
  rw [← hnt] at hloop
  refine ⟨i, hi1, ?_, ?_⟩
  · intro hi
    have hi2 : i < (s.awesomeconf.tags.map (fun t =>
        ({ t with was_selected := t.selected, selected := arg.isNone } : Tag))).length := by
      rw [List.length_map]; omega
    refine ⟨_, List.getElem?_eq_getElem hi2, ?_⟩
    simp only [uicb_view, hloop, hi1, hi, if_true, setSelected_of_lt _ _ _ hi2]
    rw [List.getElem?_set_self hi2]
  · intro hi
    simp only [uicb_view, hloop, hi1, hi, if_false]

theorem swap_swap (tags : List Tag) :
    (tags.map (fun t => ({ t with selected := t.was_selected, was_selected := t.selected } : Tag))).map
      (fun t => ({ t with selected := t.was_selected, was_selected := t.selected } : Tag)) = tags := by
  rw [List.map_map]
  conv_rhs => rw [← List.map_id tags]
  rfl

/-- C9: `uicb_tag_prev_selected` is an involution.  On every tag list one call
returns and exchanges `selected` and `was_selected` of every tag, leaving the
current layout alone; a second call returns and restores the configuration (every
flag of every tag and the current layout) and the selected client exactly. -/
theorem uicb_tag_prev_selected_involution (s : State) (arg1 arg2 : Option String)
    (hnt : s.awesomeconf.ntags = s.awesomeconf.tags.length) :
    ∃ s1 s2, uicb_tag_prev_selected s arg1 = some s1 ∧
      uicb_tag_prev_selected s1 arg2 = some s2 ∧
      s1.awesomeconf.tags = s.awesomeconf.tags.map (fun t =>
        { t with selected := t.was_selected, was_selected := t.selected }) ∧
      s1.awesomeconf.current_layout = s.awesomeconf.current_layout ∧
      s2.awesomeconf = s.awesomeconf ∧ s2.sel = s.sel := by
  have h1 := uicb_tag_prev_selected_eq s arg1 hnt
  refine ⟨_, _, h1, uicb_tag_prev_selected_eq _ arg2 (by simpa using hnt), rfl, rfl, ?_, rfl⟩
  simp only [swap_swap]

/-- Tags `a` (in view) and `b` (in view before): witness of C9. -/
theorem uicb_tag_prev_selected_involution_witness :
    ∃ s1 s2, uicb_tag_prev_selected
        (screenOf [⟨"a", true, false, 0⟩, ⟨"b", false, true, 1⟩]) none = some s1 ∧
      uicb_tag_prev_selected s1 none = some s2 ∧
      s1.awesomeconf.tags =
        (screenOf [⟨"a", true, false, 0⟩, ⟨"b", false, true, 1⟩]).awesomeconf.tags.map (fun t =>
          { t with selected := t.was_selected, was_selected := t.selected }) ∧
      s1.awesomeconf.current_layout =
        (screenOf [⟨"a", true, false, 0⟩, ⟨"b", false, true, 1⟩]).awesomeconf.current_layout ∧
      s2.awesomeconf = (screenOf [⟨"a", true, false, 0⟩, ⟨"b", false, true, 1⟩]).awesomeconf ∧
      s2.sel = (screenOf [⟨"a", true, false, 0⟩, ⟨"b", false, true, 1⟩]).sel :=
  uicb_tag_prev_selected_involution (screenOf [⟨"a", true, false, 0⟩, ⟨"b", false, true, 1⟩])
    none none rfl

/-- What `uicb_view` leaves behind, in the terms the history needs: it returns, the
counts and the selected client are unchanged, every `was_selected` is the former
`selected`, and on a non-empty list some tag is selected. -/
theorem uicb_view_history (s : State) (arg : Option String)
    (hnt : s.awesomeconf.ntags = s.awesomeconf.tags.length) :
    ∃ s1, uicb_view s arg = some s1 ∧ s1.sel = s.sel ∧
      s1.awesomeconf.ntags = s.awesomeconf.ntags ∧
      s1.awesomeconf.tags.length = s.awesomeconf.tags.length ∧
      s1.awesomeconf.tags.map Tag.was_selected = s.awesomeconf.tags.map Tag.selected ∧
      (1 ≤ s.awesomeconf.ntags → ∃ u ∈ s1.awesomeconf.tags, u.selected = true) := by
  obtain ⟨i, hi1, h2, h3⟩ := uicb_view_spec s arg hnt
  have hws : (s.awesomeconf.tags.map (fun t =>
      ({ t with was_selected := t.selected, selected := arg.isNone } : Tag))).map Tag.was_selected
      = s.awesomeconf.tags.map Tag.selected := by
    rw [List.map_map]
    rfl
  by_cases hi : i < s.awesomeconf.ntags
  · obtain ⟨t, ht, hv⟩ := h2 hi
    have hi2 := (List.getElem?_eq_some.mp ht).1
    refine ⟨_, hv, rfl, rfl, by simp, ?_, fun _ => ?_⟩
    · exact (map_set_of_eq Tag.was_selected _ i t { t with selected := true } ht rfl).trans hws
    · exact ⟨_, List.mem_iff_getElem?.mpr ⟨i, List.getElem?_set_self hi2⟩, rfl⟩
  · refine ⟨_, h3 hi, rfl, rfl, by simp, hws, fun hN => ?_⟩
    exfalso
    obtain ⟨i1, hi3, hi4⟩ := idxoftag_lt arg (s.awesomeconf.tags.map (fun t =>
      ({ t with was_selected := t.selected, selected := arg.isNone } : Tag)))
      (by rw [List.length_map]; omega)
    rw [List.length_map, ← hnt, hi1] at hi3
    rw [List.length_map] at hi4
    cases hi3
    omega

/-- C10: on every tag list (of `N ≥ 1` tags, and of none as well) `uicb_view`
followed by `uicb_tag_prev_selected` returns and leaves every tag with the
`selected` flag it had before the `uicb_view` call, whatever the argument;
`uicb_view` has put that flag into `was_selected`. -/
theorem uicb_view_then_prev_selected (s : State) (arg arg2 : Option String)
    (hnt : s.awesomeconf.ntags = s.awesomeconf.tags.length) :
    ∃ s1 s2, uicb_view s arg = some s1 ∧ uicb_tag_prev_selected s1 arg2 = some s2 ∧
      s1.awesomeconf.tags.map Tag.was_selected = s.awesomeconf.tags.map Tag.selected ∧
      s2.awesomeconf.tags.map Tag.selected = s.awesomeconf.tags.map Tag.selected ∧
      s2.awesomeconf.tags.length = s.awesomeconf.tags.length := by
  obtain ⟨s1, h1, _, h3, h4, h5, _⟩ := uicb_view_history s arg hnt
  have h6 := uicb_tag_prev_selected_eq s1 arg2 (by omega)
  refine ⟨s1, _, h1, h6, h5, ?_, ?_⟩
  · simp only [List.map_map]
    rw [← h5]
    simp only [List.map_inj_left, Function.comp]
    intro t _
    trivial
  · simp [h4]

/-- Tag `a` in view, then `view b`, then `prev_selected`: witness of C10. -/
theorem uicb_view_then_prev_selected_witness :
    ∃ s1 s2, uicb_view (screenOf [⟨"a", true, false, 0⟩, ⟨"b", false, false, 1⟩]) (some "b")
        = some s1 ∧
      uicb_tag_prev_selected s1 none = some s2 ∧
      s1.awesomeconf.tags.map Tag.was_selected =
        (screenOf [⟨"a", true, false, 0⟩, ⟨"b", false, false, 1⟩]).awesomeconf.tags.map
          Tag.selected ∧
      s2.awesomeconf.tags.map Tag.selected =
        (screenOf [⟨"a", true, false, 0⟩, ⟨"b", false, false, 1⟩]).awesomeconf.tags.map
          Tag.selected ∧
      s2.awesomeconf.tags.length =
        (screenOf [⟨"a", true, false, 0⟩, ⟨"b", false, false, 1⟩]).awesomeconf.tags.length :=
  uicb_view_then_prev_selected (screenOf [⟨"a", true, false, 0⟩, ⟨"b", false, false, 1⟩])
    (some "b") none rfl

/-! ## `uicb_tag_viewnext` and `uicb_tag_viewprev` -/

theorem uicb_tag_viewnext_loop_spec :
    ∀ (post pre : List Tag) (ft : Int),
      ∃ ft1, uicb_tag_viewnext.loop post.length pre.length ft (pre ++ post) =
          some (ft1, pre ++ post.map (fun t => { t with selected := false })) ∧
        (-1 ≤ ft → ft < pre.length → -1 ≤ ft1 ∧ ft1 < (pre.length + post.length : Nat)) := by
  intro post
  induction post with
  | nil =>
    intro pre ft
    refine ⟨ft, by simp [uicb_tag_viewnext.loop], ?_⟩
    intro h1 h2
    exact ⟨h1, by simpa using h2⟩
  | cons x rest ih =>
    intro pre ft
    obtain ⟨ft1, h1, h2⟩ := ih (pre ++ [{ x with selected := false }])
      (if ft < 0 ∧ x.selected = true then (pre.length : Int) else ft)
    simp only [List.length_append, List.length_singleton, List.append_assoc,
      List.singleton_append] at h1 h2
    refine ⟨ft1, ?_, ?_⟩
    · simp only [List.length_cons, uicb_tag_viewnext.loop, getElem?_append_cons, setSelected,
        store_append_cons, List.map_cons]
      exact h1
    · intro h3 h4
      have h5 := h2 (by split <;> omega) (by split <;> push_cast <;> omega)
      simp only [List.length_cons]
      constructor
      · exact h5.1
      · have := h5.2
        push_cast at this ⊢
        omega

theorem uicb_tag_viewprev_loop_spec :
    ∀ (n : Nat) (ft : Int) (tags : List Tag), n ≤ tags.length →
      ∃ ft1 tags1, uicb_tag_viewprev.loop n ft tags = some (ft1, tags1) ∧
        tags1.length = tags.length ∧
        tags1.map Tag.was_selected = tags.map Tag.was_selected ∧
        (∀ k, n ≤ k → tags1[k]? = tags[k]?) ∧
        (∀ k, k < n → tags1[k]? = (tags[k]?).map (fun t => { t with selected := false })) ∧
        (-1 ≤ ft → ft < tags.length → -1 ≤ ft1 ∧ ft1 < tags.length) := by
  intro n
  induction n with
  | zero =>
    intro ft tags _
    refine ⟨ft, tags, rfl, rfl, rfl, fun _ _ => rfl, ?_, fun h1 h2 => ⟨h1, h2⟩⟩
    intro k hk
    omega
  | succ n ih =>
    intro ft tags hn
    have hlt : n < tags.length := by omega
    obtain ⟨ft1, tags1, h1, h2, h3, h4, h5, h6⟩ :=
      ih (if ft < 0 ∧ tags[n].selected = true then (n : Int) else ft)
        (tags.set n { tags[n] with selected := false }) (by rw [List.length_set]; omega)
    rw [List.length_set] at h2 h6
    refine ⟨ft1, tags1, ?_, h2, ?_, ?_, ?_, ?_⟩
    · simp only [uicb_tag_viewprev.loop, List.getElem?_eq_getElem hlt,
        setSelected_of_lt _ _ _ hlt]
      exact h1
    · rw [h3]
      exact map_set_of_eq Tag.was_selected tags n tags[n] _ (List.getElem?_eq_getElem hlt) rfl
    · intro k hk
      rw [h4 k (by omega), List.getElem?_set_ne (by omega)]
    · intro k hk
      by_cases hkn : k = n
      · subst hkn
        rw [h4 k (le_refl _), List.getElem?_set_self hlt, List.getElem?_eq_getElem hlt]
        rfl
      · rw [h5 k (by omega), List.getElem?_set_ne (by omega)]
    · intro h7 h8
      exact h6 (by split <;> omega) (by split <;> omega)

theorem selectAt_of_lt (tags : List Tag) (ft : Int) (h0 : 0 ≤ ft) (hlt : ft.toNat < tags.length) :
    selectAt tags ft = some (tags.set ft.toNat { tags[ft.toNat] with selected := true },
      tags[ft.toNat].layout) := by
  have hneg : ¬ ft < 0 := by omega
  simp [selectAt, hneg, setSelected_of_lt _ _ _ hlt, List.getElem?_set_self hlt]

/-- Transport of "some entry has the flag `f`" along equal lists of flags. -/
theorem exists_flag_of_map_eq (f : Tag → Bool) (l1 l2 : List Tag) (h : l1.map f = l2.map f)
    (hex : ∃ u ∈ l1, f u = true) : ∃ u ∈ l2, f u = true := by
  obtain ⟨u, hu1, hu2⟩ := hex
  have hmem : f u ∈ l2.map f := by
    rw [← h]
    exact List.mem_map_of_mem f hu1
  obtain ⟨v, hv1, hv2⟩ := List.mem_map.mp hmem
  exact ⟨v, hv1, by rw [hv2, hu2]⟩

/-- One call of `uicb_tag_viewnext` on a non-empty tag list: it returns, keeps the
counts, the selected client and every `was_selected`, and leaves a tag selected. -/
theorem uicb_tag_viewnext_history (s : State) (arg : Option String)
    (hnt : s.awesomeconf.ntags = s.awesomeconf.tags.length) (hN : 1 ≤ s.awesomeconf.ntags) :
    ∃ s1, uicb_tag_viewnext s arg = some s1 ∧ s1.sel = s.sel ∧
      s1.awesomeconf.ntags = s.awesomeconf.ntags ∧
      s1.awesomeconf.tags.length = s.awesomeconf.tags.length ∧
      s1.awesomeconf.tags.map Tag.was_selected = s.awesomeconf.tags.map Tag.was_selected ∧
      (∃ u ∈ s1.awesomeconf.tags, u.selected = true) := by
  obtain ⟨ft, h1, h2⟩ := uicb_tag_viewnext_loop_spec s.awesomeconf.tags [] (-1)
  simp only [List.length_nil, List.nil_append, Nat.zero_add] at h1 h2
  have hb := h2 (le_refl _) (by decide)
  rw [← hnt] at h1
  generalize hidx : (if ft + 1 ≥ (s.awesomeconf.ntags : Int) then (0 : Int) else ft + 1) = idx
  have h0 : 0 ≤ idx := by rw [← hidx]; split <;> omega
  have hlt : idx.toNat < (s.awesomeconf.tags.map (fun t =>
      ({ t with selected := false } : Tag))).length := by
    rw [List.length_map, ← hidx]
    split <;> omega
  have hsel := selectAt_of_lt _ idx h0 hlt
  simp only [uicb_tag_viewnext, h1, hidx, hsel, Option.some.injEq, exists_eq_left']
  refine ⟨trivial, trivial, ?_, ?_, ?_⟩
  · simp
  · refine (map_set_of_eq Tag.was_selected _ idx.toNat _ _ (List.getElem?_eq_getElem hlt)
      ?_).trans ?_
    · rfl
    · rw [List.map_map]
      rfl
  · exact ⟨_, List.mem_iff_getElem?.mpr ⟨idx.toNat, List.getElem?_set_self hlt⟩, rfl⟩

/-- One call of `uicb_tag_viewprev` on a non-empty tag list: it returns, keeps the
counts, the selected client and every `was_selected`, and leaves a tag selected. -/
theorem uicb_tag_viewprev_history (s : State) (arg : Option String)
    (hnt : s.awesomeconf.ntags = s.awesomeconf.tags.length) (hN : 1 ≤ s.awesomeconf.ntags) :
    ∃ s1, uicb_tag_viewprev s arg = some s1 ∧ s1.sel = s.sel ∧
      s1.awesomeconf.ntags = s.awesomeconf.ntags ∧
      s1.awesomeconf.tags.length = s.awesomeconf.tags.length ∧
      s1.awesomeconf.tags.map Tag.was_selected = s.awesomeconf.tags.map Tag.was_selected ∧
      (∃ u ∈ s1.awesomeconf.tags, u.selected = true) := by
  obtain ⟨ft, tags1, h1, h2, h3, _, _, h6⟩ :=
    uicb_tag_viewprev_loop_spec s.awesomeconf.tags.length (-1) s.awesomeconf.tags (le_refl _)
  have hb := h6 (le_refl _) (by omega)
  rw [← hnt] at h1
  generalize hidx : (if ft - 1 < 0 then (s.awesomeconf.ntags : Int) - 1 else ft - 1) = idx
  have h0 : 0 ≤ idx := by rw [← hidx]; split <;> omega
  have hlt : idx.toNat < tags1.length := by
    rw [h2, ← hidx]
    split <;> omega
  have hsel := selectAt_of_lt _ idx h0 hlt
  simp only [uicb_tag_viewprev, h1, hidx, hsel, Option.some.injEq, exists_eq_left']
  refine ⟨trivial, trivial, ?_, ?_, ?_⟩
  · simp [h2]
  · refine (map_set_of_eq Tag.was_selected _ idx.toNat _ _ (List.getElem?_eq_getElem hlt)
      ?_).trans h3
    rfl
  · exact ⟨_, List.mem_iff_getElem?.mpr ⟨idx.toNat, List.getElem?_set_self hlt⟩, rfl⟩

/-! ## The selection is never empty -/

/-- One call of `uicb_toggleview` on a non-empty tag list: it returns, keeps the
counts, the selected client and every `was_selected`, and leaves a tag selected. -/
theorem uicb_toggleview_history (s : State) (arg : Option String)
    (hnt : s.awesomeconf.ntags = s.awesomeconf.tags.length) (hN : 1 ≤ s.awesomeconf.ntags) :
    ∃ s1, uicb_toggleview s arg = some s1 ∧ s1.sel = s.sel ∧
      s1.awesomeconf.ntags = s.awesomeconf.ntags ∧
      s1.awesomeconf.tags.length = s.awesomeconf.tags.length ∧
      s1.awesomeconf.tags.map Tag.was_selected = s.awesomeconf.tags.map Tag.was_selected ∧
      (∃ u ∈ s1.awesomeconf.tags, u.selected = true) := by
  obtain ⟨i, t, tags1, _, h2, h3, h4, h5, h6, h7⟩ := uicb_toggleview_spec s arg hnt hN
  refine ⟨_, h3, rfl, rfl, h7, ?_, h6⟩
  show tags1.map Tag.was_selected = _
  by_cases hex : ∃ u ∈ s.awesomeconf.tags.set i { t with selected := !t.selected },
      u.selected = true
  · rw [h4 hex]
    exact map_set_of_eq Tag.was_selected _ i t _ h2 rfl
  · have hall : ∀ u ∈ s.awesomeconf.tags.set i { t with selected := !t.selected },
        u.selected = false := by
      intro u hu
      by_contra hne
      exact hex ⟨u, hu, by simpa using hne⟩
    rw [h5 hall]
    exact map_set_of_eq Tag.was_selected _ i t _ h2 rfl

/-- One call of `uicb_tag_prev_selected`: it returns, keeps the counts and the
selected client, and the lists of `selected` and `was_selected` flags change
places. -/
theorem uicb_tag_prev_selected_history (s : State) (arg : Option String)
    (hnt : s.awesomeconf.ntags = s.awesomeconf.tags.length) :
    ∃ s1, uicb_tag_prev_selected s arg = some s1 ∧ s1.sel = s.sel ∧
      s1.awesomeconf.ntags = s.awesomeconf.ntags ∧
      s1.awesomeconf.tags.length = s.awesomeconf.tags.length ∧
      s1.awesomeconf.tags.map Tag.was_selected = s.awesomeconf.tags.map Tag.selected ∧
      s1.awesomeconf.tags.map Tag.selected = s.awesomeconf.tags.map Tag.was_selected := by
  refine ⟨_, uicb_tag_prev_selected_eq s arg hnt, rfl, rfl, by simp, ?_, ?_⟩
  · simp only [List.map_map]
    rfl
  · simp only [List.map_map]
    rfl

/-- Every selection command, run on a non-empty tag list on which some tag is
selected and some tag was selected before, returns a state of the same kind. -/
theorem run_keeps_history (cmd : Command) (s : State)
    (hnt : s.awesomeconf.ntags = s.awesomeconf.tags.length) (hN : 1 ≤ s.awesomeconf.ntags)
    (hsel : ∃ u ∈ s.awesomeconf.tags, u.selected = true)
    (hwas : ∃ u ∈ s.awesomeconf.tags, u.was_selected = true) :
    ∃ s1, cmd.run s = some s1 ∧ s1.sel = s.sel ∧
      s1.awesomeconf.ntags = s1.awesomeconf.tags.length ∧
      s1.awesomeconf.ntags = s.awesomeconf.ntags ∧
      (∃ u ∈ s1.awesomeconf.tags, u.selected = true) ∧
      (∃ u ∈ s1.awesomeconf.tags, u.was_selected = true) := by
  cases cmd with
  | view arg =>
    obtain ⟨s1, h1, h2, h3, h4, h5, h6⟩ := uicb_view_history s arg hnt
    refine ⟨s1, h1, h2, by omega, h3, h6 hN, ?_⟩
    obtain ⟨u, hu1, hu2⟩ := hsel
    have hmem : u.selected ∈ s1.awesomeconf.tags.map Tag.was_selected := by
      rw [h5]
      exact List.mem_map_of_mem Tag.selected hu1
    obtain ⟨v, hv1, hv2⟩ := List.mem_map.mp hmem
    exact ⟨v, hv1, by rw [hv2, hu2]⟩
  | toggleview arg =>
    obtain ⟨s1, h1, h2, h3, h4, h5, h6⟩ := uicb_toggleview_history s arg hnt hN
    exact ⟨s1, h1, h2, by omega, h3, h6,
      exists_flag_of_map_eq Tag.was_selected _ _ h5.symm hwas⟩
  | tag_prev_selected arg =>
    obtain ⟨s1, h1, h2, h3, h4, h5, h6⟩ := uicb_tag_prev_selected_history s arg hnt
    refine ⟨s1, h1, h2, by omega, h3, ?_, ?_⟩
    · obtain ⟨u, hu1, hu2⟩ := hwas
      have hmem : u.was_selected ∈ s1.awesomeconf.tags.map Tag.selected := by
        rw [h6]
        exact List.mem_map_of_mem Tag.was_selected hu1
      obtain ⟨v, hv1, hv2⟩ := List.mem_map.mp hmem
      exact ⟨v, hv1, by rw [hv2, hu2]⟩
    · obtain ⟨u, hu1, hu2⟩ := hsel
      have hmem : u.selected ∈ s1.awesomeconf.tags.map Tag.was_selected := by
        rw [h5]
        exact List.mem_map_of_mem Tag.selected hu1
      obtain ⟨v, hv1, hv2⟩ := List.mem_map.mp hmem
      exact ⟨v, hv1, by rw [hv2, hu2]⟩
  | tag_viewnext arg =>
    obtain ⟨s1, h1, h2, h3, h4, h5, h6⟩ := uicb_tag_viewnext_history s arg hnt hN
    exact ⟨s1, h1, h2, by omega, h3, h6,
      exists_flag_of_map_eq Tag.was_selected _ _ h5.symm hwas⟩
  | tag_viewprev arg =>
    obtain ⟨s1, h1, h2, h3, h4, h5, h6⟩ := uicb_tag_viewprev_history s arg hnt hN
    exact ⟨s1, h1, h2, by omega, h3, h6,
      exists_flag_of_map_eq Tag.was_selected _ _ h5.symm hwas⟩

/-- Every finite sequence of selection commands, from such a state, returns a
state of the same kind. -/
theorem runCommands_keeps_history (cmds : List Command) :
    ∀ (s : State), s.awesomeconf.ntags = s.awesomeconf.tags.length → 1 ≤ s.awesomeconf.ntags →
      (∃ u ∈ s.awesomeconf.tags, u.selected = true) →
      (∃ u ∈ s.awesomeconf.tags, u.was_selected = true) →
      ∃ s1, runCommands s cmds = some s1 ∧
        (∃ u ∈ s1.awesomeconf.tags, u.selected = true) ∧
        (∃ u ∈ s1.awesomeconf.tags, u.was_selected = true) := by
  induction cmds with
  | nil =>
    intro s _ _ hsel hwas
    exact ⟨s, rfl, hsel, hwas⟩
  | cons cmd rest ih =>
    intro s hnt hN hsel hwas
    obtain ⟨s1, h1, _, h3, h4, h5, h6⟩ := run_keeps_history cmd s hnt hN hsel hwas
    obtain ⟨s2, h7, h8⟩ := ih s1 h3 (by omega) h5 h6
    exact ⟨s2, by simp [runCommands, h1, h7], h8⟩

/-- C4, as the specification states it, fails: one tag, selected, never selected
before; `uicb_tag_prev_selected` returns a state in which no tag is selected. -/
theorem selection_empty_counterexample :
    1 ≤ (screenOf [⟨"a", true, false, 0⟩]).awesomeconf.ntags ∧
    (∃ u ∈ (screenOf [⟨"a", true, false, 0⟩]).awesomeconf.tags, u.selected = true) ∧
    (Command.run (Command.tag_prev_selected none) (screenOf [⟨"a", true, false, 0⟩])).map
      (fun s => s.awesomeconf.tags.map Tag.selected) = some [false] ∧
    ¬ ∃ s1, uicb_tag_prev_selected (screenOf [⟨"a", true, false, 0⟩]) none = some s1 ∧
      ∃ u ∈ s1.awesomeconf.tags, u.selected = true := by
  refine ⟨by decide, by decide, by decide, ?_⟩
  rintro ⟨s1, h1, u, hu1, hu2⟩
  have h2 : uicb_tag_prev_selected (screenOf [⟨"a", true, false, 0⟩]) none =
      some ⟨none, mkConfig [] [⟨"a", false, true, 0⟩],
        [Event.arrange (mkConfig [] [⟨"a", false, true, 0⟩])]⟩ := by decide
  rw [h2] at h1
  cases h1
  simp [mkConfig] at hu1
  subst hu1
  cases hu2

/-- C4 (amended): on a tag list of `N ≥ 1` tags with a selected tag, each of
`uicb_view`, `uicb_toggleview`, `uicb_tag_viewnext` and `uicb_tag_viewprev`, with
any argument, returns a state in which some tag is selected;
`uicb_tag_prev_selected` returns a state in which some tag is selected exactly
when some tag had `was_selected` set; and when some tag has `was_selected` set,
every finite sequence of the five commands returns a state in which some tag is
selected. -/
theorem selection_never_empty (s : State)
    (hnt : s.awesomeconf.ntags = s.awesomeconf.tags.length) (hN : 1 ≤ s.awesomeconf.ntags)
    (hsel : ∃ u ∈ s.awesomeconf.tags, u.selected = true) :
    (∀ arg, ∃ s1, uicb_view s arg = some s1 ∧ ∃ u ∈ s1.awesomeconf.tags, u.selected = true) ∧
    (∀ arg, ∃ s1, uicb_toggleview s arg = some s1 ∧
      ∃ u ∈ s1.awesomeconf.tags, u.selected = true) ∧
    (∀ arg, ∃ s1, uicb_tag_viewnext s arg = some s1 ∧
      ∃ u ∈ s1.awesomeconf.tags, u.selected = true) ∧
    (∀ arg, ∃ s1, uicb_tag_viewprev s arg = some s1 ∧
      ∃ u ∈ s1.awesomeconf.tags, u.selected = true) ∧
    (∀ arg, ∃ s1, uicb_tag_prev_selected s arg = some s1 ∧
      ((∃ u ∈ s1.awesomeconf.tags, u.selected = true) ↔
        ∃ u ∈ s.awesomeconf.tags, u.was_selected = true)) ∧
    ((∃ u ∈ s.awesomeconf.tags, u.was_selected = true) →
      ∀ cmds, ∃ s1, runCommands s cmds = some s1 ∧
        ∃ u ∈ s1.awesomeconf.tags, u.selected = true) := by
  refine ⟨?_, ?_, ?_, ?_, ?_, ?_⟩
  · intro arg
    obtain ⟨s1, h1, _, _, _, _, h6⟩ := uicb_view_history s arg hnt
    exact ⟨s1, h1, h6 hN⟩
  · intro arg
    obtain ⟨s1, h1, _, _, _, _, h6⟩ := uicb_toggleview_history s arg hnt hN
    exact ⟨s1, h1, h6⟩
  · intro arg
    obtain ⟨s1, h1, _, _, _, _, h6⟩ := uicb_tag_viewnext_history s arg hnt hN
    exact ⟨s1, h1, h6⟩
  · intro arg
    obtain ⟨s1, h1, _, _, _, _, h6⟩ := uicb_tag_viewprev_history s arg hnt hN
    exact ⟨s1, h1, h6⟩
  · intro arg
    obtain ⟨s1, h1, _, _, _, _, h6⟩ := uicb_tag_prev_selected_history s arg hnt
    refine ⟨s1, h1, ?_, ?_⟩
    · rintro ⟨u, hu1, hu2⟩
      have hmem : u.selected ∈ s.awesomeconf.tags.map Tag.was_selected := by
        rw [← h6]
        exact List.mem_map_of_mem Tag.selected hu1
      obtain ⟨v, hv1, hv2⟩ := List.mem_map.mp hmem
      exact ⟨v, hv1, by rw [hv2, hu2]⟩
    · rintro ⟨u, hu1, hu2⟩
      have hmem : u.was_selected ∈ s1.awesomeconf.tags.map Tag.selected := by
        rw [h6]
        exact List.mem_map_of_mem Tag.was_selected hu1
      obtain ⟨v, hv1, hv2⟩ := List.mem_map.mp hmem
      exact ⟨v, hv1, by rw [hv2, hu2]⟩
  · intro hwas cmds
    obtain ⟨s1, h1, h2, _⟩ := runCommands_keeps_history cmds s hnt hN hsel hwas
    exact ⟨s1, h1, h2⟩

/-- Tag `a` in view, tag `b` in view before: witness of C4 (amended). -/
theorem selection_never_empty_witness :
    (∀ arg, ∃ s1, uicb_view (screenOf [⟨"a", true, false, 0⟩, ⟨"b", false, true, 1⟩]) arg
        = some s1 ∧ ∃ u ∈ s1.awesomeconf.tags, u.selected = true) ∧
    (∀ arg, ∃ s1, uicb_toggleview (screenOf [⟨"a", true, false, 0⟩, ⟨"b", false, true, 1⟩]) arg
        = some s1 ∧ ∃ u ∈ s1.awesomeconf.tags, u.selected = true) ∧
    (∀ arg, ∃ s1, uicb_tag_viewnext (screenOf [⟨"a", true, false, 0⟩, ⟨"b", false, true, 1⟩]) arg
        = some s1 ∧ ∃ u ∈ s1.awesomeconf.tags, u.selected = true) ∧
    (∀ arg, ∃ s1, uicb_tag_viewprev (screenOf [⟨"a", true, false, 0⟩, ⟨"b", false, true, 1⟩]) arg
        = some s1 ∧ ∃ u ∈ s1.awesomeconf.tags, u.selected = true) ∧
    (∀ arg, ∃ s1,
      uicb_tag_prev_selected (screenOf [⟨"a", true, false, 0⟩, ⟨"b", false, true, 1⟩]) arg
        = some s1 ∧
      ((∃ u ∈ s1.awesomeconf.tags, u.selected = true) ↔
        ∃ u ∈ (screenOf [⟨"a", true, false, 0⟩, ⟨"b", false, true, 1⟩]).awesomeconf.tags,
          u.was_selected = true)) ∧
    ((∃ u ∈ (screenOf [⟨"a", true, false, 0⟩, ⟨"b", false, true, 1⟩]).awesomeconf.tags,
        u.was_selected = true) →
      ∀ cmds, ∃ s1,
        runCommands (screenOf [⟨"a", true, false, 0⟩, ⟨"b", false, true, 1⟩]) cmds = some s1 ∧
        ∃ u ∈ s1.awesomeconf.tags, u.selected = true) :=
  selection_never_empty (screenOf [⟨"a", true, false, 0⟩, ⟨"b", false, true, 1⟩]) rfl
    (by decide) (by decide)

/-! ## `compileregs` -/

theorem compileregs_loop_succ {R : Type} (regcomp : String → Option R) (rules : List Rule)
    (n i : Nat) (table : List (Regs R)) (hr : i < rules.length) (ht : i < table.length) :
    compileregs.loop regcomp rules (n + 1) i table =
      compileregs.loop regcomp rules n (i + 1)
        (table.set i (compileregs.entry regcomp rules[i] table[i])) := by
  have hset : table.set i table[i] = table := set_getElem_same table i ht
  simp only [compileregs.loop, List.getElem?_eq_getElem hr, compileregs.entry]
  cases hp : rules[i].prop with
  | none =>
    cases htg : rules[i].tags with
    | none => simp [hset]
    | some t =>
      cases hc : regcomp t with
      | none => simp [hc, hset]
      | some reg => simp [hc, setTagregex, List.getElem?_eq_getElem ht, store_of_lt _ ht]
  | some p =>
    cases hcp : regcomp p with
    | none =>
      cases htg : rules[i].tags with
      | none => simp [hcp, hset]
      | some t =>
        cases hc : regcomp t with
        | none => simp [hcp, hc, hset]
        | some reg =>
          simp [hcp, hc, setTagregex, List.getElem?_eq_getElem ht, store_of_lt _ ht]
    | some regp =>
      cases htg : rules[i].tags with
      | none => simp [hcp, setPropregex, List.getElem?_eq_getElem ht, store_of_lt _ ht]
      | some t =>
        cases hc : regcomp t with
        | none => simp [hcp, hc, setPropregex, List.getElem?_eq_getElem ht, store_of_lt _ ht]
        | some reg =>
          simp [hcp, hc, setPropregex, setTagregex, List.getElem?_eq_getElem ht,
            store_of_lt _ ht, store, ht]

theorem compileregs_loop_spec {R : Type} (regcomp : String → Option R) (rules : List Rule) :
    ∀ (n i : Nat) (table : List (Regs R)), i + n ≤ rules.length → i + n ≤ table.length →
      ∃ table1, compileregs.loop regcomp rules n i table = some table1 ∧
        table1.length = table.length ∧
        (∀ k (hr : k < rules.length) (ht : k < table.length), i ≤ k → k < i + n →
          table1[k]? = some (compileregs.entry regcomp rules[k] table[k])) ∧
        (∀ k, k < i → table1[k]? = table[k]?) ∧ (∀ k, i + n ≤ k → table1[k]? = table[k]?) := by
  intro n
  induction n with
  | zero =>
    intro i table _ _
    refine ⟨table, rfl, rfl, ?_, fun _ _ => rfl, fun _ _ => rfl⟩
    intro k _ _ h1 h2
    omega
  | succ n ih =>
    intro i table hr ht
    have hir : i < rules.length := by omega
    have hit : i < table.length := by omega
    rw [compileregs_loop_succ regcomp rules n i table hir hit]
    obtain ⟨table1, h1, h2, h3, h4, h5⟩ :=
      ih (i + 1) (table.set i (compileregs.entry regcomp rules[i] table[i])) (by omega)
        (by rw [List.length_set]; omega)
    rw [List.length_set] at h2
    refine ⟨table1, h1, h2, ?_, ?_, ?_⟩
    · intro k hkr hkt hk1 hk2
      by_cases hki : k = i
      · subst hki
        rw [h4 k (by omega), List.getElem?_set_self hit]
      · rw [h3 k hkr (by rw [List.length_set]; exact hkt) (by omega) (by omega)]
        simp [List.getElem_set_ne (Ne.symm hki)]
    · intro k hk
      rw [h4 k (by omega), List.getElem?_set_ne (by omega)]
    · intro k hk
      rw [h5 k (by omega), List.getElem?_set_ne (by omega)]

/-- The first call of `compileregs`: the table has one entry per rule, and each
matcher is what `regcomp` makes of the rule's own pattern. -/
theorem compileregs_first_call {R : Type} (regcomp : String → Option R) (rules : List Rule) :
    compileregs regcomp none rules rules.length =
      some (some (rules.map (fun rule =>
        { propregex := rule.prop.bind regcomp, tagregex := rule.tags.bind regcomp }))) := by
  obtain ⟨table1, h1, h2, h3, _, _⟩ := compileregs_loop_spec regcomp rules rules.length 0
    (p_new rules.length) (by omega) (by simp [p_new])
  have hlen : (p_new rules.length : List (Regs R)).length = rules.length := by simp [p_new]
  rw [hlen] at h2
  have htab : table1 = rules.map (fun rule =>
      ({ propregex := rule.prop.bind regcomp, tagregex := rule.tags.bind regcomp } : Regs R)) := by
    apply List.ext_getElem?
    intro k
    by_cases hk : k < rules.length
    · rw [h3 k hk (by rw [hlen]; exact hk) (Nat.zero_le _) (by omega)]
      rw [List.getElem?_map, List.getElem?_eq_getElem hk]
      simp only [compileregs.entry, p_new, List.getElem_replicate, Option.map_some']
      congr 1
      cases rules[k].prop.bind regcomp <;> cases rules[k].tags.bind regcomp <;> rfl
    · rw [List.getElem?_eq_none (by omega), List.getElem?_eq_none (by simp; omega)]
  simp [compileregs, h1, htab]

/-- C14: `compileregs` is first-call-wins.  A first call on the rule list `R1`
returns and sets `regs`; a second call, on any rule list `R2` with any count,
returns and leaves `regs` exactly as the first call set it, so `applyrules` gives
every window the result it gave before the second call. -/
theorem compileregs_first_call_wins {R : Type} (regcomp : String → Option R)
    (R1 R2 : List Rule) (n1 n2 : Nat) (hn1 : n1 = R1.length) :
    ∃ regs1 regs2, compileregs regcomp none R1 n1 = some regs1 ∧
      compileregs regcomp regs1 R2 n2 = some regs2 ∧ regs1.isSome = true ∧ regs2 = regs1 ∧
      ∀ (regexec : R → String → Int) (ch : XClassHint) (c : Client) (conf : awesome_config),
        applyrules regexec regs2 ch c conf = applyrules regexec regs1 ch c conf := by
  subst hn1
  refine ⟨_, _, compileregs_first_call regcomp R1, rfl, rfl, rfl, ?_⟩
  intro regexec ch c conf
  rfl

/-- A first call on the Firefox rule and a second call on two other rules: witness
of C14. -/
theorem compileregs_first_call_wins_witness :
    ∃ regs1 regs2, compileregs posix_regcomp none rulesFirefoxWeb 1 = some regs1 ∧
      compileregs posix_regcomp regs1 rulesTwoTags 2 = some regs2 ∧ regs1.isSome = true ∧
      regs2 = regs1 ∧
      ∀ (regexec : String → String → Int) (ch : XClassHint) (c : Client) (conf : awesome_config),
        applyrules regexec regs2 ch c conf = applyrules regexec regs1 ch c conf :=
  compileregs_first_call_wins posix_regcomp rulesFirefoxWeb rulesTwoTags 1 2 (by decide)

/-- C15: the first call of `compileregs` (with `regs` null) returns a table with
one entry per rule, in rule order; the property matcher of entry `i` is present
exactly when rule `i` has a property pattern and `regcomp` accepts it, the tag
matcher exactly when rule `i` has a tag pattern and `regcomp` accepts it; each
matcher is what `regcomp` makes of its own pattern, whatever becomes of the other
pattern and of the other rules. -/
theorem compileregs_entries {R : Type} (regcomp : String → Option R) (rules : List Rule)
    (nrules : Nat) (hn : nrules = rules.length) :
    ∃ table, compileregs regcomp none rules nrules = some (some table) ∧
      table.length = rules.length ∧
      ∀ i (hi : i < rules.length), ∃ e, table[i]? = some e ∧
        (e.propregex.isSome = true ↔
          ∃ p, rules[i].prop = some p ∧ (regcomp p).isSome = true) ∧
        (e.tagregex.isSome = true ↔
          ∃ t, rules[i].tags = some t ∧ (regcomp t).isSome = true) ∧
        e.propregex = rules[i].prop.bind regcomp ∧ e.tagregex = rules[i].tags.bind regcomp := by
  subst hn
  refine ⟨_, compileregs_first_call regcomp rules, by simp, ?_⟩
  intro i hi
  refine ⟨_, by rw [List.getElem?_map, List.getElem?_eq_getElem hi]; rfl, ?_, ?_, rfl, rfl⟩
  · cases hp : rules[i].prop with
    | none => simp [hp]
    | some p => simp [hp]
  · cases ht : rules[i].tags with
    | none => simp [ht]
    | some t => simp [ht]

/-- Three rules, two of them with a pattern that does not compile: witness of
C15. -/
theorem compileregs_entries_witness :
    ∃ table, compileregs posix_regcomp none rulesBadPatterns 3 = some (some table) ∧
      table.length = rulesBadPatterns.length ∧
      ∀ i (hi : i < rulesBadPatterns.length), ∃ e, table[i]? = some e ∧
        (e.propregex.isSome = true ↔
          ∃ p, rulesBadPatterns[i].prop = some p ∧ (posix_regcomp p).isSome = true) ∧
        (e.tagregex.isSome = true ↔
          ∃ t, rulesBadPatterns[i].tags = some t ∧ (posix_regcomp t).isSome = true) ∧
        e.propregex = rulesBadPatterns[i].prop.bind posix_regcomp ∧
        e.tagregex = rulesBadPatterns[i].tags.bind posix_regcomp :=
  compileregs_entries posix_regcomp rulesBadPatterns 3 (by decide)

/-! ## `uicb_togglefloating` -/

/-- C16: on a selected window `uicb_togglefloating` returns and negates
`isfloating`.  A window that was floating gets `(rx,ry,rw,rh)` set to its live
geometry `(x,y,w,h)` and no `resize` is requested; for a window that was tiled
`resize` is requested with exactly the remembered `(rx,ry,rw,rh)`, which the
function leaves as they were.  The bitset, the screen, the live geometry and the
configuration are unchanged in both cases. -/
theorem uicb_togglefloating_spec (s : State) (c : Client) (arg : Option String)
    (hsel : s.sel = some c) :
    ∃ s1 c1, uicb_togglefloating s arg = some s1 ∧ s1.sel = some c1 ∧
      c1.isfloating = (!c.isfloating) ∧ c1.tags = c.tags ∧ c1.screen = c.screen ∧
      (c1.x, c1.y, c1.w, c1.h) = (c.x, c.y, c.w, c.h) ∧ s1.awesomeconf = s.awesomeconf ∧
      (c.isfloating = true →
        (c1.rx, c1.ry, c1.rw, c1.rh) = (c.x, c.y, c.w, c.h) ∧
        s1.calls = s.calls ++
          [Event.saveprops c1 s.awesomeconf.ntags, Event.arrange s.awesomeconf]) ∧
      (c.isfloating = false →
        (c1.rx, c1.ry, c1.rw, c1.rh) = (c.rx, c.ry, c.rw, c.rh) ∧
        s1.calls = s.calls ++
          [Event.resize c1 c.rx c.ry c.rw c.rh true,
           Event.saveprops c1 s.awesomeconf.ntags, Event.arrange s.awesomeconf]) := by
  cases hf : c.isfloating with
  | true => simp [uicb_togglefloating, hsel, hf]
  | false => simp [uicb_togglefloating, hsel, hf]

/-- A floating window of 800 by 600 made tiled: witness of C16. -/
theorem uicb_togglefloating_spec_witness :
    ∃ s1 c1, uicb_togglefloating (screenWith threeTags [false, true, false]) none = some s1 ∧
      s1.sel = some c1 ∧
      c1.isfloating = (!({ mozillaClient 0 with tags := [false, true, false] } : Client).isfloating) ∧
      c1.tags = [false, true, false] ∧ c1.screen = 0 ∧
      (c1.x, c1.y, c1.w, c1.h) = (0, 0, 800, 600) ∧
      s1.awesomeconf = (screenWith threeTags [false, true, false]).awesomeconf ∧
      (({ mozillaClient 0 with tags := [false, true, false] } : Client).isfloating = true →
        (c1.rx, c1.ry, c1.rw, c1.rh) = (0, 0, 800, 600) ∧
        s1.calls = (screenWith threeTags [false, true, false]).calls ++
          [Event.saveprops c1 (screenWith threeTags [false, true, false]).awesomeconf.ntags,
           Event.arrange (screenWith threeTags [false, true, false]).awesomeconf]) ∧
      (({ mozillaClient 0 with tags := [false, true, false] } : Client).isfloating = false →
        (c1.rx, c1.ry, c1.rw, c1.rh) = (0, 0, 800, 600) ∧
        s1.calls = (screenWith threeTags [false, true, false]).calls ++
          [Event.resize c1 0 0 800 600 true,
           Event.saveprops c1 (screenWith threeTags [false, true, false]).awesomeconf.ntags,
           Event.arrange (screenWith threeTags [false, true, false]).awesomeconf]) :=
  uicb_togglefloating_spec (screenWith threeTags [false, true, false])
    { mozillaClient 0 with tags := [false, true, false] } none rfl

/-! ## `applyrules`: the floating flag -/

/-- The rule loop over rules whose property matcher is absent or does not match:
it returns and changes nothing. -/
theorem applyrules_outer_no_match {R : Type} (regexec : R → String → Int)
    (table : List (Regs R)) (prop : String) (conf : awesome_config) :
    ∀ (n i : Nat) (c : Client) (m : Bool), i + n ≤ table.length →
      (∀ k r, i ≤ k → table[k]? = some r → propMatches regexec prop r = false) →
      applyrules.outer regexec (some table) prop conf n i c m = some (c, m) := by
  intro n
  induction n with
  | zero =>
    intro i c m _ _
    rfl
  | succ n ih =>
    intro i c m ht hno
    have hit : i < table.length := by omega
    have hp := hno i table[i] (le_refl _) (List.getElem?_eq_getElem hit)
    simp only [applyrules.outer, regsAt, List.getElem?_eq_getElem hit, hp]
    exact ih (i + 1) c m (by omega) (fun k r hk => hno k r (by omega))

/-- The rule loop over a range that holds the last rule whose property matcher
matches the key: it returns with that rule's floating default. -/
theorem applyrules_outer_last_match {R : Type} (regexec : R → String → Int)
    (table : List (Regs R)) (prop : String) (conf : awesome_config)
    (hnt : conf.ntags = conf.tags.length) (last : Nat) (r : Regs R) (rule : Rule)
    (hlast : table[last]? = some r) (hrule : conf.rules[last]? = some rule)
    (hp : propMatches regexec prop r = true)
    (hafter : ∀ k r1, last < k → table[k]? = some r1 → propMatches regexec prop r1 = false) :
    ∀ (n i : Nat) (c : Client) (m : Bool), i + n ≤ table.length → i + n ≤ conf.rules.length →
      c.tags.length = conf.tags.length → i ≤ last → last < i + n →
      ∃ c1 m1, applyrules.outer regexec (some table) prop conf n i c m = some (c1, m1) ∧
        c1.isfloating = rule.isfloating ∧ c1.tags.length = conf.tags.length := by
  intro n
  induction n with
  | zero =>
    intro i c m _ _ _ h1 h2
    omega
  | succ n ih =>
    intro i c m ht hr hc hil hlt
    have hit : i < table.length := by omega
    have hir : i < conf.rules.length := by omega
    obtain ⟨c1, m1, h1, h2, h3⟩ := applyrules_outer_step regexec table prop conf n i c m
      table[i] conf.rules[i] (List.getElem?_eq_getElem hit) (List.getElem?_eq_getElem hir) hnt hc
    rw [h1]
    by_cases hi : i = last
    · subst hi
      have hri : table[i] = r := by
        have := List.getElem?_eq_getElem hit
        rw [hlast] at this
        exact (Option.some.inj this).symm
      have hrl : conf.rules[i] = rule := by
        have := List.getElem?_eq_getElem hir
        rw [hrule] at this
        exact (Option.some.inj this).symm
      rw [hri, hrl] at h3
      rw [applyrules_outer_no_match regexec table prop conf n (i + 1) c1 m1 (by omega)
        (fun k r1 hk => hafter k r1 (by omega))]
      refine ⟨c1, m1, rfl, ?_, h2⟩
      rcases h3 with ⟨hp1, _, _⟩ | ⟨_, _, hc1, _⟩ | ⟨_, tre, _, hc1, _⟩
      · rw [hp] at hp1
        cases hp1
      · rw [hc1]
      · rw [hc1]
    · exact ih (i + 1) c1 m1 (by omega) (by omega) h2 (by omega) (by omega)

/-- C18: with one table entry per rule and a bitset as long as the tag list,
`applyrules` returns, and `isfloating` is the floating default of the last rule
whose property matcher is present and matches the key, with or without a tag
matcher; when no property matcher matches, `isfloating` is what it was. -/
theorem applyrules_floating {R : Type} (regexec : R → String → Int) (table : List (Regs R))
    (ch : XClassHint) (c : Client) (conf : awesome_config)
    (hnt : conf.ntags = conf.tags.length) (hct : c.tags.length = conf.ntags)
    (hnr : conf.nrules = conf.rules.length) (htab : table.length = conf.nrules) :
    (∀ last (hl : last < table.length),
      propMatches regexec (applyrules.prop ch c) table[last] = true →
      (∀ k (hk : k < table.length), last < k →
        propMatches regexec (applyrules.prop ch c) table[k] = false) →
      ∃ c1 rule, applyrules regexec (some table) ch c conf = some c1 ∧
        conf.rules[last]? = some rule ∧ c1.isfloating = rule.isfloating) ∧
    ((∀ r ∈ table, propMatches regexec (applyrules.prop ch c) r = false) →
      ∃ c1, applyrules regexec (some table) ch c conf = some c1 ∧
        c1.isfloating = c.isfloating) := by
  constructor
  · intro last hl hp hafter
    have hlr : last < conf.rules.length := by omega
    have hafter1 : ∀ k r1, last < k → table[k]? = some r1 →
        propMatches regexec (applyrules.prop ch c) r1 = false := by
      intro k r1 hk hr1
      obtain ⟨hk1, rfl⟩ := List.getElem?_eq_some.mp hr1
      exact hafter k hk1 hk
    obtain ⟨c1, m1, h1, h2, h3⟩ := applyrules_outer_last_match regexec table
      (applyrules.prop ch c) conf hnt last table[last] conf.rules[last]
      (List.getElem?_eq_getElem hl) (List.getElem?_eq_getElem hlr) hp hafter1
      conf.nrules 0 c false (by omega) (by omega) (by omega) (Nat.zero_le _) (by omega)
    have hfb := applyrules_fallback_full conf.tags c1.tags h3
    cases hm : m1 with
    | true =>
      exact ⟨c1, conf.rules[last], by simp [applyrules, h1, hm],
        List.getElem?_eq_getElem hlr, h2⟩
    | false =>
      exact ⟨{ c1 with tags := conf.tags.map Tag.selected }, conf.rules[last],
        by simp [applyrules, h1, hm, hnt, hfb], List.getElem?_eq_getElem hlr, h2⟩
  · intro hno
    have h1 := applyrules_outer_no_match regexec table (applyrules.prop ch c) conf
      conf.nrules 0 c false (by omega) (fun k r _ hr => hno r (List.getElem?_mem hr))
    have hfb := applyrules_fallback_full conf.tags c.tags (by omega)
    exact ⟨{ c with tags := conf.tags.map Tag.selected }, by simp [applyrules, h1, hnt, hfb], rfl⟩

/-- A floating Firefox window under two matching rules, the later one with the
default "floating", and under rules for other windows only: witness of C18. -/
theorem applyrules_floating_witness :
    (∀ last (hl : last < (tableOf rulesTwoTags).length),
      propMatches posix_regexec (applyrules.prop firefoxHint (mozillaClient 3))
        (tableOf rulesTwoTags)[last] = true →
      (∀ k (hk : k < (tableOf rulesTwoTags).length), last < k →
        propMatches posix_regexec (applyrules.prop firefoxHint (mozillaClient 3))
          (tableOf rulesTwoTags)[k] = false) →
      ∃ c1 rule, applyrules posix_regexec (some (tableOf rulesTwoTags)) firefoxHint
          (mozillaClient 3) (mkConfig rulesTwoTags threeTags) = some c1 ∧
        (mkConfig rulesTwoTags threeTags).rules[last]? = some rule ∧
        c1.isfloating = rule.isfloating) ∧
    ((∀ r ∈ tableOf rulesTwoTags,
        propMatches posix_regexec (applyrules.prop firefoxHint (mozillaClient 3)) r = false) →
      ∃ c1, applyrules posix_regexec (some (tableOf rulesTwoTags)) firefoxHint
          (mozillaClient 3) (mkConfig rulesTwoTags threeTags) = some c1 ∧
        c1.isfloating = (mozillaClient 3).isfloating) :=
  applyrules_floating posix_regexec (tableOf rulesTwoTags) firefoxHint (mozillaClient 3)
    (mkConfig rulesTwoTags threeTags) (by decide) (by decide) (by decide) (by decide)

/-! ## The joint history invariant -/

/-- C19: on a tag list of `N ≥ 1` tags on which some tag is selected and some tag
has `was_selected` set, every selection command, with any argument, returns a
state in which both still hold; hence every finite sequence of selection commands
returns a state in which some tag is selected. -/
theorem selection_history_invariant (s : State)
    (hnt : s.awesomeconf.ntags = s.awesomeconf.tags.length) (hN : 1 ≤ s.awesomeconf.ntags)
    (hsel : ∃ u ∈ s.awesomeconf.tags, u.selected = true)
    (hwas : ∃ u ∈ s.awesomeconf.tags, u.was_selected = true) :
    (∀ cmd : Command, ∃ s1, cmd.run s = some s1 ∧
      (∃ u ∈ s1.awesomeconf.tags, u.selected = true) ∧
      (∃ u ∈ s1.awesomeconf.tags, u.was_selected = true)) ∧
    (∀ cmds : List Command, ∃ s1, runCommands s cmds = some s1 ∧
      (∃ u ∈ s1.awesomeconf.tags, u.selected = true) ∧
      (∃ u ∈ s1.awesomeconf.tags, u.was_selected = true)) := by
  constructor
  · intro cmd
    obtain ⟨s1, h1, _, _, _, h5, h6⟩ := run_keeps_history cmd s hnt hN hsel hwas
    exact ⟨s1, h1, h5, h6⟩
  · intro cmds
    exact runCommands_keeps_history cmds s hnt hN hsel hwas

/-- Tag `a` in view, tag `b` in view before: witness of C19. -/
theorem selection_history_invariant_witness :
    (∀ cmd : Command, ∃ s1,
      cmd.run (screenOf [⟨"a", true, false, 0⟩, ⟨"b", false, true, 1⟩]) = some s1 ∧
      (∃ u ∈ s1.awesomeconf.tags, u.selected = true) ∧
      (∃ u ∈ s1.awesomeconf.tags, u.was_selected = true)) ∧
    (∀ cmds : List Command, ∃ s1,
      runCommands (screenOf [⟨"a", true, false, 0⟩, ⟨"b", false, true, 1⟩]) cmds = some s1 ∧
      (∃ u ∈ s1.awesomeconf.tags, u.selected = true) ∧
      (∃ u ∈ s1.awesomeconf.tags, u.was_selected = true)) :=
  selection_history_invariant (screenOf [⟨"a", true, false, 0⟩, ⟨"b", false, true, 1⟩]) rfl
    (by decide) (by decide) (by decide)

/-! ## `idxoftag`, exactly -/

theorem idxoftag_loop_first (name : String) (tags : List Tag) :
    ∀ (n i0 : Nat), i0 + n ≤ tags.length →
      (∀ k (hk : k < tags.length), i0 ≤ k → k < i0 + n → tags[k].name = name →
        (∀ j (hj : j < tags.length), i0 ≤ j → j < k → tags[j].name ≠ name) →
        idxoftag.loop name tags n i0 = some k) ∧
      ((∀ k (hk : k < tags.length), i0 ≤ k → k < i0 + n → tags[k].name ≠ name) →
        idxoftag.loop name tags n i0 = some 0) := by
  intro n
  induction n with
  | zero =>
    intro i0 _
    refine ⟨?_, fun _ => rfl⟩
    intro k _ h1 h2
    omega
  | succ n ih =>
    intro i0 h
    have hi : i0 < tags.length := by omega
    obtain ⟨ih1, ih2⟩ := ih (i0 + 1) (by omega)
    constructor
    · intro k hk hk1 hk2 hname hbefore
      simp only [idxoftag.loop, List.getElem?_eq_getElem hi]
      by_cases hki : k = i0
      · subst hki
        simp [(a_strcmp_eq_zero _ _).mpr hname]
      · have hne : ¬ a_strcmp tags[i0].name name = 0 := by
          rw [a_strcmp_eq_zero]
          exact hbefore i0 hi (le_refl _) (by omega)
        simp only [hne, if_false]
        exact ih1 k hk (by omega) (by omega) hname
          (fun j hj hj1 hj2 => hbefore j hj (by omega) hj2)
    · intro hnone
      have hne : ¬ a_strcmp tags[i0].name name = 0 := by
        rw [a_strcmp_eq_zero]
        exact hnone i0 hi (le_refl _) (by omega)
      simp only [idxoftag.loop, List.getElem?_eq_getElem hi, hne, if_false]
      exact ih2 (fun k hk hk1 hk2 => hnone k hk (by omega) (by omega))

/-- With unique names, the name of tag `i` resolves to `i`. -/
theorem idxoftag_of_name (tags : List Tag) (hnodup : (tags.map Tag.name).Nodup) (i : Nat)
    (hi : i < tags.length) : idxoftag (some tags[i].name) tags tags.length = some i := by
  refine (idxoftag_loop_first tags[i].name tags tags.length 0 (by omega)).1 i hi
    (Nat.zero_le _) (by omega) rfl ?_
  intro j hj _ hji heq
  have hj1 : j < (tags.map Tag.name).length := by simpa using hj
  have hi1 : i < (tags.map Tag.name).length := by simpa using hi
  have h1 : (tags.map Tag.name)[j] = (tags.map Tag.name)[i] := by
    simpa using heq
  have := (hnodup.getElem_inj_iff).mp h1
  omega

/-- A name that no tag has resolves to `0`. -/
theorem idxoftag_of_unknown (tags : List Tag) (name : String)
    (hno : ∀ t ∈ tags, t.name ≠ name) : idxoftag (some name) tags tags.length = some 0 :=
  (idxoftag_loop_first name tags tags.length 0 (by omega)).2
    (fun k hk _ _ => hno tags[k] (List.getElem_mem hk))

/-! ## `uicb_view` and `uicb_tag`, exactly -/

theorem set_replicate_true (n i : Nat) :
    (List.replicate n true).set i true = List.replicate n true := by
  simp

/-- The result of `uicb_view` once the resolved index `i` is known to lie inside
the tag list. -/
theorem uicb_view_at (s : State) (arg : Option String) (i : Nat)
    (hnt : s.awesomeconf.ntags = s.awesomeconf.tags.length) (hi : i < s.awesomeconf.tags.length)
    (hidx : idxoftag arg s.awesomeconf.tags s.awesomeconf.tags.length = some i) :
    ∃ s1, uicb_view s arg = some s1 ∧ s1.sel = s.sel ∧
      s1.awesomeconf.ntags = s.awesomeconf.ntags ∧
      s1.awesomeconf.tags.map Tag.selected =
        (List.replicate s.awesomeconf.ntags arg.isNone).set i true ∧
      s1.awesomeconf.current_layout = s.awesomeconf.tags[i].layout ∧
      s1.awesomeconf.tags.map Tag.was_selected = s.awesomeconf.tags.map Tag.selected ∧
      s1.awesomeconf.tags.map Tag.name = s.awesomeconf.tags.map Tag.name := by
  obtain ⟨i1, hi1, h2, _⟩ := uicb_view_spec s arg hnt
  have hsame : idxoftag arg (s.awesomeconf.tags.map (fun t =>
      ({ t with was_selected := t.selected, selected := arg.isNone } : Tag)))
      s.awesomeconf.ntags = idxoftag arg s.awesomeconf.tags s.awesomeconf.tags.length := by
    rw [hnt]
    cases arg with
    | none => rfl
    | some name =>
      have hgen : ∀ (n i0 : Nat), idxoftag.loop name (s.awesomeconf.tags.map (fun t =>
          ({ t with was_selected := t.selected, selected := false } : Tag))) n i0 =
          idxoftag.loop name s.awesomeconf.tags n i0 := by
        intro n
        induction n with
        | zero => intro i0; rfl
        | succ n ih =>
          intro i0
          simp only [idxoftag.loop, List.getElem?_map]
          cases s.awesomeconf.tags[i0]? with
          | none => rfl
          | some t => simp only [Option.map_some', ih]
      exact hgen _ 0
  rw [hsame, hidx] at hi1
  cases hi1
  obtain ⟨t, ht, hv⟩ := h2 (by omega)
  rw [List.getElem?_map, List.getElem?_eq_getElem hi] at ht
  simp only [Option.map_some', Option.some.injEq] at ht
  subst ht
  refine ⟨_, hv, rfl, rfl, ?_, rfl, ?_, ?_⟩
  · simp only [List.map_set, List.map_map]
    congr 1
    rw [hnt, ← List.map_const']
    rfl
  · refine (map_set_of_eq Tag.was_selected _ i
      { s.awesomeconf.tags[i] with
        was_selected := s.awesomeconf.tags[i].selected, selected := arg.isNone } _ ?_ ?_).trans ?_
    · rw [List.getElem?_map, List.getElem?_eq_getElem hi]
      rfl
    · rfl
    · rw [List.map_map]
      rfl
  · refine (map_set_of_eq Tag.name _ i
      { s.awesomeconf.tags[i] with
        was_selected := s.awesomeconf.tags[i].selected, selected := arg.isNone } _ ?_ ?_).trans ?_
    · rw [List.getElem?_map, List.getElem?_eq_getElem hi]
      rfl
    · rfl
    · rw [List.map_map]
      rfl

/-- C12: postcondition of `uicb_view` on `N ≥ 1` uniquely named tags.  With the
name of tag `i` exactly tag `i` is selected and the current layout is the layout
of tag `i`; with a name no tag has exactly tag `0` is selected and the current
layout is that of tag `0`; with no name every tag is selected and the current
layout is that of tag `0`.  In each case the call returns and every `was_selected`
is the `selected` flag from before the call. -/
theorem uicb_view_postcondition (s : State)
    (hnt : s.awesomeconf.ntags = s.awesomeconf.tags.length) (hN : 1 ≤ s.awesomeconf.ntags)
    (hnodup : (s.awesomeconf.tags.map Tag.name).Nodup) :
    (∀ i (hi : i < s.awesomeconf.tags.length),
      ∃ s1, uicb_view s (some s.awesomeconf.tags[i].name) = some s1 ∧
        s1.awesomeconf.tags.map Tag.selected =
          (List.replicate s.awesomeconf.ntags false).set i true ∧
        s1.awesomeconf.current_layout = s.awesomeconf.tags[i].layout ∧
        s1.awesomeconf.tags.map Tag.was_selected = s.awesomeconf.tags.map Tag.selected) ∧
    (∀ name, (∀ t ∈ s.awesomeconf.tags, t.name ≠ name) →
      ∃ s1 t0, uicb_view s (some name) = some s1 ∧
        s1.awesomeconf.tags.map Tag.selected =
          (List.replicate s.awesomeconf.ntags false).set 0 true ∧
        s.awesomeconf.tags[0]? = some t0 ∧ s1.awesomeconf.current_layout = t0.layout ∧
        s1.awesomeconf.tags.map Tag.was_selected = s.awesomeconf.tags.map Tag.selected) ∧
    (∃ s1 t0, uicb_view s none = some s1 ∧
      s1.awesomeconf.tags.map Tag.selected = List.replicate s.awesomeconf.ntags true ∧
      s.awesomeconf.tags[0]? = some t0 ∧ s1.awesomeconf.current_layout = t0.layout ∧
      s1.awesomeconf.tags.map Tag.was_selected = s.awesomeconf.tags.map Tag.selected) := by
  have h0 : 0 < s.awesomeconf.tags.length := by omega
  refine ⟨?_, ?_, ?_⟩
  · intro i hi
    obtain ⟨s1, h1, _, _, h4, h5, h6, _⟩ := uicb_view_at s (some s.awesomeconf.tags[i].name) i
      hnt hi (idxoftag_of_name s.awesomeconf.tags hnodup i hi)
    exact ⟨s1, h1, h4, h5, h6⟩
  · intro name hno
    obtain ⟨s1, h1, _, _, h4, h5, h6, _⟩ := uicb_view_at s (some name) 0 hnt h0
      (idxoftag_of_unknown s.awesomeconf.tags name hno)
    exact ⟨s1, s.awesomeconf.tags[0], h1, h4, List.getElem?_eq_getElem h0, h5, h6⟩
  · obtain ⟨s1, h1, _, _, h4, h5, h6, _⟩ := uicb_view_at s none 0 hnt h0 rfl
    refine ⟨s1, s.awesomeconf.tags[0], h1, ?_, List.getElem?_eq_getElem h0, h5, h6⟩
    rw [h4]
    exact set_replicate_true _ _

/-- Three tags, `view mail`, `view chat` and `view` of all: witness of C12. -/
theorem uicb_view_postcondition_witness :
    (∀ i (hi : i < (screenOf threeTags).awesomeconf.tags.length),
      ∃ s1, uicb_view (screenOf threeTags) (some (screenOf threeTags).awesomeconf.tags[i].name)
          = some s1 ∧
        s1.awesomeconf.tags.map Tag.selected =
          (List.replicate (screenOf threeTags).awesomeconf.ntags false).set i true ∧
        s1.awesomeconf.current_layout = (screenOf threeTags).awesomeconf.tags[i].layout ∧
        s1.awesomeconf.tags.map Tag.was_selected =
          (screenOf threeTags).awesomeconf.tags.map Tag.selected) ∧
    (∀ name, (∀ t ∈ (screenOf threeTags).awesomeconf.tags, t.name ≠ name) →
      ∃ s1 t0, uicb_view (screenOf threeTags) (some name) = some s1 ∧
        s1.awesomeconf.tags.map Tag.selected =
          (List.replicate (screenOf threeTags).awesomeconf.ntags false).set 0 true ∧
        (screenOf threeTags).awesomeconf.tags[0]? = some t0 ∧
        s1.awesomeconf.current_layout = t0.layout ∧
        s1.awesomeconf.tags.map Tag.was_selected =
          (screenOf threeTags).awesomeconf.tags.map Tag.selected) ∧
    (∃ s1 t0, uicb_view (screenOf threeTags) none = some s1 ∧
      s1.awesomeconf.tags.map Tag.selected =
        List.replicate (screenOf threeTags).awesomeconf.ntags true ∧
      (screenOf threeTags).awesomeconf.tags[0]? = some t0 ∧
      s1.awesomeconf.current_layout = t0.layout ∧
      s1.awesomeconf.tags.map Tag.was_selected =
        (screenOf threeTags).awesomeconf.tags.map Tag.selected) :=
  uicb_view_postcondition (screenOf threeTags) rfl (by decide) (by decide)

theorem uicb_tag_loop_spec (v : Bool) :
    ∀ (post pre : List Bool),
      uicb_tag.loop v post.length pre.length (pre ++ post) =
        some (pre ++ List.replicate post.length v) := by
  intro post
  induction post with
  | nil =>
    intro pre
    simp [uicb_tag.loop]
  | cons x rest ih =>
    intro pre
    have h := ih (pre ++ [v])
    simp only [List.length_append, List.length_singleton, List.append_assoc,
      List.singleton_append] at h
    simp only [List.length_cons, uicb_tag.loop, store_append_cons, List.replicate_succ]
    exact h

/-- The result of `uicb_tag` once the resolved index `i` is known to lie inside the
tag list: every bit is `arg == NULL`, but bit `i`, which is true. -/
theorem uicb_tag_at (s : State) (c : Client) (arg : Option String) (i : Nat)
    (hsel : s.sel = some c) (hct : c.tags.length = s.awesomeconf.ntags)
    (hi : i < s.awesomeconf.ntags)
    (hidx : idxoftag arg s.awesomeconf.tags s.awesomeconf.ntags = some i) :
    ∃ s1 c1, uicb_tag s arg = some s1 ∧ s1.sel = some c1 ∧
      c1.tags = (List.replicate s.awesomeconf.ntags arg.isNone).set i true ∧
      c1.isfloating = c.isfloating ∧ c1.screen = c.screen ∧
      s1.awesomeconf = s.awesomeconf := by
  have hloop := uicb_tag_loop_spec arg.isNone c.tags []
  simp only [List.length_nil, List.nil_append] at hloop
  rw [hct] at hloop
  have hlen : i < (List.replicate s.awesomeconf.ntags arg.isNone).length := by
    rw [List.length_replicate]; exact hi
  simp only [uicb_tag, hsel, hloop, hidx, hi, if_true, store_of_lt _ hlen, Option.some.injEq,
    exists_and_left, exists_eq_left']
  exact ⟨trivial, trivial, trivial, trivial⟩

/-- C13: postcondition of `uicb_tag` on a selected window, for `N ≥ 1` uniquely
named tags and a bitset of length `N`.  With no name every bit is true; with the
name of tag `i` exactly bit `i` is true; with a name no tag has exactly bit `0` is
true.  In each case the call returns, the bitset has a true bit, and it is given
by the argument and the tag list alone, not by the bitset before the call. -/
theorem uicb_tag_postcondition (s : State) (c : Client) (hsel : s.sel = some c)
    (hnt : s.awesomeconf.ntags = s.awesomeconf.tags.length) (hN : 1 ≤ s.awesomeconf.ntags)
    (hct : c.tags.length = s.awesomeconf.ntags)
    (hnodup : (s.awesomeconf.tags.map Tag.name).Nodup) :
    (∃ s1 c1, uicb_tag s none = some s1 ∧ s1.sel = some c1 ∧
      c1.tags = List.replicate s.awesomeconf.ntags true) ∧
    (∀ i (hi : i < s.awesomeconf.tags.length),
      ∃ s1 c1, uicb_tag s (some s.awesomeconf.tags[i].name) = some s1 ∧ s1.sel = some c1 ∧
        c1.tags = (List.replicate s.awesomeconf.ntags false).set i true) ∧
    (∀ name, (∀ t ∈ s.awesomeconf.tags, t.name ≠ name) →
      ∃ s1 c1, uicb_tag s (some name) = some s1 ∧ s1.sel = some c1 ∧
        c1.tags = (List.replicate s.awesomeconf.ntags false).set 0 true) ∧
    (∀ arg, ∃ s1 c1, uicb_tag s arg = some s1 ∧ s1.sel = some c1 ∧
      c1.tags.length = s.awesomeconf.ntags ∧ ∃ k : Nat, c1.tags[k]? = some true) := by
  refine ⟨?_, ?_, ?_, ?_⟩
  · obtain ⟨s1, c1, h1, h2, h3, _⟩ := uicb_tag_at s c none 0 hsel hct (by omega) rfl
    refine ⟨s1, c1, h1, h2, ?_⟩
    rw [h3]
    exact set_replicate_true _ _
  · intro i hi
    obtain ⟨s1, c1, h1, h2, h3, _⟩ := uicb_tag_at s c (some s.awesomeconf.tags[i].name) i hsel
      hct (by omega) (by rw [hnt]; exact idxoftag_of_name s.awesomeconf.tags hnodup i hi)
    exact ⟨s1, c1, h1, h2, h3⟩
  · intro name hno
    obtain ⟨s1, c1, h1, h2, h3, _⟩ := uicb_tag_at s c (some name) 0 hsel hct (by omega)
      (by rw [hnt]; exact idxoftag_of_unknown s.awesomeconf.tags name hno)
    exact ⟨s1, c1, h1, h2, h3⟩
  · intro arg
    obtain ⟨i, hi1, hi2⟩ := idxoftag_lt arg s.awesomeconf.tags (by omega)
    rw [← hnt] at hi1 hi2
    obtain ⟨s1, c1, h1, h2, h3, _⟩ := uicb_tag_at s c arg i hsel hct hi2 hi1
    refine ⟨s1, c1, h1, h2, by simp [h3], i, ?_⟩
    rw [h3, List.getElem?_set_self (by simpa using hi2)]

/-- A window on `web` only, among three tags: witness of C13. -/
theorem uicb_tag_postcondition_witness :
    (∃ s1 c1, uicb_tag (screenWith threeTags [false, true, false]) none = some s1 ∧
      s1.sel = some c1 ∧
      c1.tags = List.replicate (screenWith threeTags [false, true, false]).awesomeconf.ntags
        true) ∧
    (∀ i (hi : i < (screenWith threeTags [false, true, false]).awesomeconf.tags.length),
      ∃ s1 c1, uicb_tag (screenWith threeTags [false, true, false])
          (some (screenWith threeTags [false, true, false]).awesomeconf.tags[i].name)
          = some s1 ∧ s1.sel = some c1 ∧
        c1.tags = (List.replicate
          (screenWith threeTags [false, true, false]).awesomeconf.ntags false).set i true) ∧
    (∀ name, (∀ t ∈ (screenWith threeTags [false, true, false]).awesomeconf.tags,
        t.name ≠ name) →
      ∃ s1 c1, uicb_tag (screenWith threeTags [false, true, false]) (some name) = some s1 ∧
        s1.sel = some c1 ∧
        c1.tags = (List.replicate
          (screenWith threeTags [false, true, false]).awesomeconf.ntags false).set 0 true) ∧
    (∀ arg, ∃ s1 c1, uicb_tag (screenWith threeTags [false, true, false]) arg = some s1 ∧
      s1.sel = some c1 ∧
      c1.tags.length = (screenWith threeTags [false, true, false]).awesomeconf.ntags ∧
      ∃ k : Nat, c1.tags[k]? = some true) :=
  uicb_tag_postcondition (screenWith threeTags [false, true, false])
    { mozillaClient 0 with tags := [false, true, false] } rfl rfl (by decide) rfl (by decide)

/-! ## `uicb_tag_viewnext` and `uicb_tag_viewprev`, exactly -/

/-- The value of `firsttag` after the ascending loop: unchanged when it was set
already or no tag is selected, else the index of the first selected tag. -/
theorem uicb_tag_viewnext_loop_first :
    ∀ (post pre : List Tag) (ft ft1 : Int) (tags1 : List Tag),
      uicb_tag_viewnext.loop post.length pre.length ft (pre ++ post) = some (ft1, tags1) →
      (0 ≤ ft → ft1 = ft) ∧
      (ft < 0 → (∀ t ∈ post, t.selected = false) → ft1 = ft) ∧
      (ft < 0 → ∀ k (hk : k < post.length), post[k].selected = true →
        (∀ j (hj : j < post.length), j < k → post[j].selected = false) →
        ft1 = ((pre.length + k : Nat) : Int)) := by
  intro post
  induction post with
  | nil =>
    intro pre ft ft1 tags1 h
    simp only [List.length_nil, uicb_tag_viewnext.loop, Option.some.injEq, Prod.mk.injEq] at h
    refine ⟨fun _ => h.1.symm, fun _ _ => h.1.symm, ?_⟩
    intro _ k hk
    simp at hk
  | cons x rest ih =>
    intro pre ft ft1 tags1 h
    simp only [List.length_cons, uicb_tag_viewnext.loop, getElem?_append_cons, setSelected,
      store_append_cons] at h
    have hre : pre ++ ({ x with selected := false } : Tag) :: rest =
        (pre ++ [{ x with selected := false }]) ++ rest := by simp
    have hlen : pre.length + 1 = (pre ++ [({ x with selected := false } : Tag)]).length := by simp
    rw [hre, hlen] at h
    obtain ⟨ih1, ih2, ih3⟩ := ih _ _ _ _ h
    refine ⟨?_, ?_, ?_⟩
    · intro h0
      have hneg : ¬ ft < 0 := by omega
      simp only [hneg, false_and, if_false] at ih1
      exact ih1 h0
    · intro hlt hall
      have hx : x.selected = false := hall x (List.mem_cons_self _ _)
      simp only [hx, Bool.false_eq_true, and_false, if_false] at ih2
      exact ih2 hlt (fun t ht => hall t (List.mem_cons_of_mem _ ht))
    · intro hlt k hk hsel hbefore
      cases k with
      | zero =>
        have hx : x.selected = true := by simpa using hsel
        simp only [hlt, hx, and_self, if_true] at ih1
        rw [ih1 (by omega)]
        simp
      | succ k =>
        have hx : x.selected = false := by
          have := hbefore 0 (by simp) (by omega)
          simpa using this
        simp only [hx, Bool.false_eq_true, and_false, if_false] at ih3
        have hk1 : k < rest.length := by simpa using hk
        have := ih3 hlt k hk1 (by simpa using hsel) (by
          intro j hj hjk
          have := hbefore (j + 1) (by simpa using hj) (by omega)
          simpa using this)
        rw [this]
        simp only [List.length_append, List.length_singleton]
        push_cast
        omega

/-- The value of `firsttag` after the descending loop: unchanged when it was set
already or no tag is selected, else the index of the last selected tag. -/
theorem uicb_tag_viewprev_loop_first :
    ∀ (n : Nat) (ft ft1 : Int) (tags tags1 : List Tag), n ≤ tags.length →
      uicb_tag_viewprev.loop n ft tags = some (ft1, tags1) →
      (0 ≤ ft → ft1 = ft) ∧
      (ft < 0 → (∀ k (hk : k < tags.length), k < n → tags[k].selected = false) → ft1 = ft) ∧
      (ft < 0 → ∀ h (hh : h < tags.length), h < n → tags[h].selected = true →
        (∀ k (hk : k < tags.length), h < k → k < n → tags[k].selected = false) →
        ft1 = (h : Int)) := by
  intro n
  induction n with
  | zero =>
    intro ft ft1 tags tags1 _ h
    simp only [uicb_tag_viewprev.loop, Option.some.injEq, Prod.mk.injEq] at h
    refine ⟨fun _ => h.1.symm, fun _ _ => h.1.symm, ?_⟩
    intro _ k _ hk
    omega
  | succ n ih =>
    intro ft ft1 tags tags1 hn h
    have hlt : n < tags.length := by omega
    simp only [uicb_tag_viewprev.loop, List.getElem?_eq_getElem hlt,
      setSelected_of_lt _ _ _ hlt] at h
    obtain ⟨ih1, ih2, ih3⟩ := ih _ _ _ _ (by rw [List.length_set]; omega) h
    refine ⟨?_, ?_, ?_⟩
    · intro h0
      have hneg : ¬ ft < 0 := by omega
      simp only [hneg, false_and, if_false] at ih1
      exact ih1 h0
    · intro hneg hall
      have hx : tags[n].selected = false := hall n hlt (by omega)
      simp only [hx, Bool.false_eq_true, and_false, if_false] at ih2
      refine ih2 hneg ?_
      intro k hk hkn
      rw [List.getElem_set_ne (by omega)]
      exact hall k (by rw [List.length_set] at hk; exact hk) (by omega)
    · intro hneg h1 hh hhn hsel hafter
      by_cases hh1 : h1 = n
      · subst hh1
        simp only [hneg, hsel, and_self, if_true] at ih1
        exact ih1 (by omega)
      · have hx : tags[n].selected = false := hafter n hlt (by omega) (by omega)
        simp only [hx, Bool.false_eq_true, and_false, if_false] at ih3
        refine ih3 hneg h1 (by rw [List.length_set]; exact hh) (by omega) ?_ ?_
        · rw [List.getElem_set_ne (by omega)]
          exact hsel
        · intro k hk hk1 hk2
          rw [List.getElem_set_ne (by omega)]
          exact hafter k (by rw [List.length_set] at hk; exact hk) hk1 (by omega)

/-- The descending loop run over the whole tag list clears every `selected`. -/
theorem uicb_tag_viewprev_loop_full (ft : Int) (tags : List Tag) :
    ∃ ft1, uicb_tag_viewprev.loop tags.length ft tags =
      some (ft1, tags.map (fun t => { t with selected := false })) := by
  obtain ⟨ft1, tags1, h1, h2, _, _, h5, _⟩ :=
    uicb_tag_viewprev_loop_spec tags.length ft tags (le_refl _)
  refine ⟨ft1, ?_⟩
  rw [h1]
  congr 2
  apply List.ext_getElem?
  intro k
  by_cases hk : k < tags.length
  · rw [h5 k hk, List.getElem?_map]
  · rw [List.getElem?_eq_none (by omega), List.getElem?_eq_none (by simp; omega)]

/-- Selecting tag `j` after every `selected` has been cleared: the list of
`selected` flags is false everywhere but at `j`. -/
theorem selectAt_cleared (tags : List Tag) (j : Nat) (hj : j < tags.length) :
    ∃ tags2, selectAt (tags.map (fun t => ({ t with selected := false } : Tag))) (j : Int) =
        some (tags2, tags[j].layout) ∧
      tags2.length = tags.length ∧
      tags2.map Tag.selected = (List.replicate tags.length false).set j true ∧
      tags2.map Tag.was_selected = tags.map Tag.was_selected := by
  have hlt : (j : Int).toNat < (tags.map (fun t => ({ t with selected := false } : Tag))).length := by
    simpa using hj
  have h := selectAt_of_lt _ (j : Int) (by omega) hlt
  simp only [Int.toNat_ofNat, List.getElem_map] at h
  refine ⟨_, h, by simp, ?_, ?_⟩
  · simp only [List.map_set, List.map_map]
    congr 1
    rw [← List.map_const']
    rfl
  · refine (map_set_of_eq Tag.was_selected _ j ({ tags[j] with selected := false } : Tag) _
      ?_ ?_).trans ?_
    · rw [List.getElem?_map, List.getElem?_eq_getElem hj]
      rfl
    · rfl
    · rw [List.map_map]
      rfl

/-- One call of `uicb_tag_viewnext` on a non-empty tag list, exactly: one tag `j` is
selected, its layout is the current one, and `j` follows the first selected tag,
cyclically (`0` when no tag was selected). -/
theorem uicb_tag_viewnext_exact (s : State) (arg : Option String)
    (hnt : s.awesomeconf.ntags = s.awesomeconf.tags.length) (hN : 1 ≤ s.awesomeconf.ntags) :
    ∃ (j : Nat) (s1 : State), uicb_tag_viewnext s arg = some s1 ∧ j < s.awesomeconf.ntags ∧
      s1.sel = s.sel ∧ s1.awesomeconf.ntags = s.awesomeconf.ntags ∧
      s1.awesomeconf.tags.length = s.awesomeconf.tags.length ∧
      s1.awesomeconf.tags.map Tag.selected =
        (List.replicate s.awesomeconf.ntags false).set j true ∧
      s1.awesomeconf.tags.map Tag.was_selected = s.awesomeconf.tags.map Tag.was_selected ∧
      (∃ t, s.awesomeconf.tags[j]? = some t ∧ s1.awesomeconf.current_layout = t.layout) ∧
      ((∀ t ∈ s.awesomeconf.tags, t.selected = false) → j = 0) ∧
      (∀ f (hf : f < s.awesomeconf.tags.length), s.awesomeconf.tags[f].selected = true →
        (∀ k (hk : k < s.awesomeconf.tags.length), k < f →
          s.awesomeconf.tags[k].selected = false) →
        j = (f + 1) % s.awesomeconf.ntags) := by
  obtain ⟨ft, h1, h2⟩ := uicb_tag_viewnext_loop_spec s.awesomeconf.tags [] (-1)
  obtain ⟨_, hf2, hf3⟩ := uicb_tag_viewnext_loop_first s.awesomeconf.tags [] (-1) ft _ h1
  simp only [List.length_nil, List.nil_append, Nat.zero_add] at h1 h2 hf2 hf3
  have hb := h2 (le_refl _) (by decide)
  rw [← hnt] at h1
  generalize hidx : (if ft + 1 ≥ (s.awesomeconf.ntags : Int) then (0 : Int) else ft + 1) = idx
  have h0 : 0 ≤ idx := by rw [← hidx]; split <;> omega
  have hlt : idx.toNat < s.awesomeconf.tags.length := by
    rw [← hidx]
    split <;> omega
  obtain ⟨tags2, hs1, hs2, hs3, hs4⟩ := selectAt_cleared s.awesomeconf.tags idx.toNat hlt
  rw [Int.toNat_of_nonneg h0] at hs1
  refine ⟨idx.toNat, ?_⟩
  simp only [uicb_tag_viewnext, h1, hidx, hs1, Option.some.injEq, exists_eq_left']
  refine ⟨by omega, trivial, trivial, hs2, by rw [hs3, hnt], hs4,
    ⟨_, List.getElem?_eq_getElem hlt, rfl⟩, ?_, ?_⟩
  · intro hall
    have hft := hf2 (by decide) hall
    rw [← hidx, hft]
    have : ¬ ((-1 : Int) + 1 ≥ (s.awesomeconf.ntags : Int)) := by omega
    simp [this]
  · intro f hf hsel hbefore
    have hft := hf3 (by decide) f hf hsel (fun j hj hjf => hbefore j hj hjf)
    rw [← hidx, hft]
    by_cases hlast : f + 1 = s.awesomeconf.ntags
    · have : ((f : Int) + 1 ≥ (s.awesomeconf.ntags : Int)) := by omega
      rw [if_pos this, ← hlast, Nat.mod_self]
      rfl
    · have : ¬ ((f : Int) + 1 ≥ (s.awesomeconf.ntags : Int)) := by omega
      rw [if_neg this, Nat.mod_eq_of_lt (by omega)]
      omega

/-- One call of `uicb_tag_viewprev` on a non-empty tag list, exactly: one tag `j` is
selected, its layout is the current one, and `j` precedes the last selected tag,
cyclically (`ntags - 1` when no tag was selected). -/
theorem uicb_tag_viewprev_exact (s : State) (arg : Option String)
    (hnt : s.awesomeconf.ntags = s.awesomeconf.tags.length) (hN : 1 ≤ s.awesomeconf.ntags) :
    ∃ (j : Nat) (s1 : State), uicb_tag_viewprev s arg = some s1 ∧ j < s.awesomeconf.ntags ∧
      s1.sel = s.sel ∧ s1.awesomeconf.ntags = s.awesomeconf.ntags ∧
      s1.awesomeconf.tags.length = s.awesomeconf.tags.length ∧
      s1.awesomeconf.tags.map Tag.selected =
        (List.replicate s.awesomeconf.ntags false).set j true ∧
      s1.awesomeconf.tags.map Tag.was_selected = s.awesomeconf.tags.map Tag.was_selected ∧
      (∃ t, s.awesomeconf.tags[j]? = some t ∧ s1.awesomeconf.current_layout = t.layout) ∧
      ((∀ t ∈ s.awesomeconf.tags, t.selected = false) → j = s.awesomeconf.ntags - 1) ∧
      (∀ h (hh : h < s.awesomeconf.tags.length), s.awesomeconf.tags[h].selected = true →
        (∀ k (hk : k < s.awesomeconf.tags.length), h < k →
          s.awesomeconf.tags[k].selected = false) →
        (1 ≤ h → j = h - 1) ∧ (h = 0 → j = s.awesomeconf.ntags - 1)) := by
  obtain ⟨ft, h1⟩ := uicb_tag_viewprev_loop_full (-1) s.awesomeconf.tags
  obtain ⟨_, _, _, _, _, _, _, h2⟩ :=
    uicb_tag_viewprev_loop_spec s.awesomeconf.tags.length (-1) s.awesomeconf.tags (le_refl _)
  obtain ⟨_, hf2, hf3⟩ := uicb_tag_viewprev_loop_first s.awesomeconf.tags.length (-1) ft
    s.awesomeconf.tags _ (le_refl _) h1
  have hb : -1 ≤ ft ∧ ft < s.awesomeconf.tags.length := by
    obtain ⟨ft1, tags1, h3, _, _, _, _, h8⟩ :=
      uicb_tag_viewprev_loop_spec s.awesomeconf.tags.length (-1) s.awesomeconf.tags (le_refl _)
    rw [h1] at h3
    cases h3
    exact h8 (le_refl _) (by omega)
  rw [← hnt] at h1
  generalize hidx : (if ft - 1 < 0 then (s.awesomeconf.ntags : Int) - 1 else ft - 1) = idx
  have h0 : 0 ≤ idx := by rw [← hidx]; split <;> omega
  have hlt : idx.toNat < s.awesomeconf.tags.length := by
    rw [← hidx]
    split <;> omega
  obtain ⟨tags2, hs1, hs2, hs3, hs4⟩ := selectAt_cleared s.awesomeconf.tags idx.toNat hlt
  rw [Int.toNat_of_nonneg h0] at hs1
  refine ⟨idx.toNat, ?_⟩
  simp only [uicb_tag_viewprev, h1, hidx, hs1, Option.some.injEq, exists_eq_left']
  refine ⟨by omega, trivial, trivial, hs2, by rw [hs3, hnt], hs4,
    ⟨_, List.getElem?_eq_getElem hlt, rfl⟩, ?_, ?_⟩
  · intro hall
    have hft := hf2 (by decide) (fun k hk _ => hall _ (List.getElem_mem hk))
    rw [← hidx, hft]
    have : ((-1 : Int) - 1 < 0) := by omega
    rw [if_pos this]
    omega
  · intro h hh hsel hafter
    have hft := hf3 (by decide) h hh hh hsel (fun k hk hk1 _ => hafter k hk hk1)
    rw [← hidx, hft]
    constructor
    · intro h1le
      have : ¬ ((h : Int) - 1 < 0) := by omega
      rw [if_neg this]
      omega
    · intro hz
      have : ((h : Int) - 1 < 0) := by omega
      rw [if_pos this]
      omega

/-- C17: on a tag list of `N ≥ 1` tags, whatever the selection, `uicb_tag_viewnext`
returns with exactly one tag `j` selected, `j = (f + 1) mod N` for the lowest
selected index `f` and `j = 0` when no tag was selected; `uicb_tag_viewprev`
returns with exactly one tag `j` selected, `j = h - 1` for the highest selected
index `h ≥ 1` and `j = N - 1` when `h = 0` or no tag was selected; in both cases
the current layout is the layout of tag `j`. -/
theorem viewnext_viewprev_target (s : State) (arg : Option String)
    (hnt : s.awesomeconf.ntags = s.awesomeconf.tags.length) (hN : 1 ≤ s.awesomeconf.ntags) :
    (∃ (j : Nat) (s1 : State), uicb_tag_viewnext s arg = some s1 ∧ j < s.awesomeconf.ntags ∧
      s1.awesomeconf.tags.map Tag.selected =
        (List.replicate s.awesomeconf.ntags false).set j true ∧
      (∃ t, s.awesomeconf.tags[j]? = some t ∧ s1.awesomeconf.current_layout = t.layout) ∧
      ((∀ t ∈ s.awesomeconf.tags, t.selected = false) → j = 0) ∧
      (∀ f (hf : f < s.awesomeconf.tags.length), s.awesomeconf.tags[f].selected = true →
        (∀ k (hk : k < s.awesomeconf.tags.length), k < f →
          s.awesomeconf.tags[k].selected = false) →
        j = (f + 1) % s.awesomeconf.ntags)) ∧
    (∃ (j : Nat) (s1 : State), uicb_tag_viewprev s arg = some s1 ∧ j < s.awesomeconf.ntags ∧
      s1.awesomeconf.tags.map Tag.selected =
        (List.replicate s.awesomeconf.ntags false).set j true ∧
      (∃ t, s.awesomeconf.tags[j]? = some t ∧ s1.awesomeconf.current_layout = t.layout) ∧
      ((∀ t ∈ s.awesomeconf.tags, t.selected = false) → j = s.awesomeconf.ntags - 1) ∧
      (∀ h (hh : h < s.awesomeconf.tags.length), s.awesomeconf.tags[h].selected = true →
        (∀ k (hk : k < s.awesomeconf.tags.length), h < k →
          s.awesomeconf.tags[k].selected = false) →
        (1 ≤ h → j = h - 1) ∧ (h = 0 → j = s.awesomeconf.ntags - 1))) := by
  constructor
  · obtain ⟨j, s1, h1, h2, _, _, _, h6, _, h8, h9, h10⟩ := uicb_tag_viewnext_exact s arg hnt hN
    exact ⟨j, s1, h1, h2, h6, h8, h9, h10⟩
  · obtain ⟨j, s1, h1, h2, _, _, _, h6, _, h8, h9, h10⟩ := uicb_tag_viewprev_exact s arg hnt hN
    exact ⟨j, s1, h1, h2, h6, h8, h9, h10⟩

/-- Three tags with `web` and `mail` selected: witness of C17. -/
theorem viewnext_viewprev_target_witness :
    (∃ (j : Nat) (s1 : State),
      uicb_tag_viewnext (screenOf [⟨"term", false, false, 0⟩, ⟨"web", true, false, 1⟩,
        ⟨"mail", true, false, 2⟩]) none = some s1 ∧
      j < (screenOf [⟨"term", false, false, 0⟩, ⟨"web", true, false, 1⟩,
        ⟨"mail", true, false, 2⟩]).awesomeconf.ntags ∧
      s1.awesomeconf.tags.map Tag.selected =
        (List.replicate (screenOf [⟨"term", false, false, 0⟩, ⟨"web", true, false, 1⟩,
          ⟨"mail", true, false, 2⟩]).awesomeconf.ntags false).set j true ∧
      (∃ t, (screenOf [⟨"term", false, false, 0⟩, ⟨"web", true, false, 1⟩,
          ⟨"mail", true, false, 2⟩]).awesomeconf.tags[j]? = some t ∧
        s1.awesomeconf.current_layout = t.layout) ∧
      ((∀ t ∈ (screenOf [⟨"term", false, false, 0⟩, ⟨"web", true, false, 1⟩,
          ⟨"mail", true, false, 2⟩]).awesomeconf.tags, t.selected = false) → j = 0) ∧
      (∀ f (hf : f < (screenOf [⟨"term", false, false, 0⟩, ⟨"web", true, false, 1⟩,
          ⟨"mail", true, false, 2⟩]).awesomeconf.tags.length),
        (screenOf [⟨"term", false, false, 0⟩, ⟨"web", true, false, 1⟩,
          ⟨"mail", true, false, 2⟩]).awesomeconf.tags[f].selected = true →
        (∀ k (hk : k < (screenOf [⟨"term", false, false, 0⟩, ⟨"web", true, false, 1⟩,
            ⟨"mail", true, false, 2⟩]).awesomeconf.tags.length), k < f →
          (screenOf [⟨"term", false, false, 0⟩, ⟨"web", true, false, 1⟩,
            ⟨"mail", true, false, 2⟩]).awesomeconf.tags[k].selected = false) →
        j = (f + 1) % (screenOf [⟨"term", false, false, 0⟩, ⟨"web", true, false, 1⟩,
          ⟨"mail", true, false, 2⟩]).awesomeconf.ntags)) ∧
    (∃ (j : Nat) (s1 : State),
      uicb_tag_viewprev (screenOf [⟨"term", false, false, 0⟩, ⟨"web", true, false, 1⟩,
        ⟨"mail", true, false, 2⟩]) none = some s1 ∧
      j < (screenOf [⟨"term", false, false, 0⟩, ⟨"web", true, false, 1⟩,
        ⟨"mail", true, false, 2⟩]).awesomeconf.ntags ∧
      s1.awesomeconf.tags.map Tag.selected =
        (List.replicate (screenOf [⟨"term", false, false, 0⟩, ⟨"web", true, false, 1⟩,
          ⟨"mail", true, false, 2⟩]).awesomeconf.ntags false).set j true ∧
      (∃ t, (screenOf [⟨"term", false, false, 0⟩, ⟨"web", true, false, 1⟩,
          ⟨"mail", true, false, 2⟩]).awesomeconf.tags[j]? = some t ∧
        s1.awesomeconf.current_layout = t.layout) ∧
      ((∀ t ∈ (screenOf [⟨"term", false, false, 0⟩, ⟨"web", true, false, 1⟩,
          ⟨"mail", true, false, 2⟩]).awesomeconf.tags, t.selected = false) →
        j = (screenOf [⟨"term", false, false, 0⟩, ⟨"web", true, false, 1⟩,
          ⟨"mail", true, false, 2⟩]).awesomeconf.ntags - 1) ∧
      (∀ h (hh : h < (screenOf [⟨"term", false, false, 0⟩, ⟨"web", true, false, 1⟩,
          ⟨"mail", true, false, 2⟩]).awesomeconf.tags.length),
        (screenOf [⟨"term", false, false, 0⟩, ⟨"web", true, false, 1⟩,
          ⟨"mail", true, false, 2⟩]).awesomeconf.tags[h].selected = true →
        (∀ k (hk : k < (screenOf [⟨"term", false, false, 0⟩, ⟨"web", true, false, 1⟩,
            ⟨"mail", true, false, 2⟩]).awesomeconf.tags.length), h < k →
          (screenOf [⟨"term", false, false, 0⟩, ⟨"web", true, false, 1⟩,
            ⟨"mail", true, false, 2⟩]).awesomeconf.tags[k].selected = false) →
        (1 ≤ h → j = h - 1) ∧
        (h = 0 → j = (screenOf [⟨"term", false, false, 0⟩, ⟨"web", true, false, 1⟩,
          ⟨"mail", true, false, 2⟩]).awesomeconf.ntags - 1))) :=
  viewnext_viewprev_target (screenOf [⟨"term", false, false, 0⟩, ⟨"web", true, false, 1⟩,
    ⟨"mail", true, false, 2⟩]) none rfl (by decide)

/-- When exactly tag `i` is selected, `selected` of tag `k` says whether `k = i`. -/
theorem selected_of_exactly (tags : List Tag) (i : Nat) (hi : i < tags.length)
    (h : tags.map Tag.selected = (List.replicate tags.length false).set i true) :
    ∀ k (hk : k < tags.length), tags[k].selected = true ↔ k = i := by
  intro k hk
  have h1 := congrArg (fun l => l[k]?) h
  simp only [List.getElem?_map, List.getElem?_eq_getElem hk, Option.map_some'] at h1
  by_cases hki : i = k
  · subst hki
    rw [List.getElem?_set_self (by simpa using hi)] at h1
    simp only [Option.some.injEq] at h1
    simp [h1]
  · rw [List.getElem?_set_ne hki, List.getElem?_replicate_of_lt hk] at h1
    simp only [Option.some.injEq] at h1
    simp only [h1, Bool.false_eq_true, false_iff]
    exact fun hc => hki hc.symm

/-- C11: on a tag list of `N > 1` tags with exactly tag `i` selected,
`uicb_tag_viewnext` followed by `uicb_tag_viewprev` returns with exactly tag `i`
selected; `uicb_tag_viewnext` from `i = N - 1` selects exactly tag `0`;
`uicb_tag_viewprev` from `i = 0` selects exactly tag `N - 1`. -/
theorem viewnext_then_viewprev (s : State) (arg1 arg2 : Option String) (i : Nat)
    (hnt : s.awesomeconf.ntags = s.awesomeconf.tags.length) (hN : 1 < s.awesomeconf.ntags)
    (hi : i < s.awesomeconf.ntags)
    (hstart : s.awesomeconf.tags.map Tag.selected =
      (List.replicate s.awesomeconf.ntags false).set i true) :
    (∃ s1 s2, uicb_tag_viewnext s arg1 = some s1 ∧ uicb_tag_viewprev s1 arg2 = some s2 ∧
      s2.awesomeconf.tags.map Tag.selected =
        (List.replicate s.awesomeconf.ntags false).set i true) ∧
    (i = s.awesomeconf.ntags - 1 →
      ∃ s1, uicb_tag_viewnext s arg1 = some s1 ∧
        s1.awesomeconf.tags.map Tag.selected =
          (List.replicate s.awesomeconf.ntags false).set 0 true) ∧
    (i = 0 →
      ∃ s1, uicb_tag_viewprev s arg1 = some s1 ∧
        s1.awesomeconf.tags.map Tag.selected =
          (List.replicate s.awesomeconf.ntags false).set (s.awesomeconf.ntags - 1) true) := by
  have hil : i < s.awesomeconf.tags.length := by omega
  have hex := selected_of_exactly s.awesomeconf.tags i hil (by rw [← hnt]; exact hstart)
  have hseli : s.awesomeconf.tags[i].selected = true := (hex i hil).mpr rfl
  have hother : ∀ k (hk : k < s.awesomeconf.tags.length), k ≠ i →
      s.awesomeconf.tags[k].selected = false := by
    intro k hk hne
    have := (hex k hk).not.mpr hne
    simpa using this
  obtain ⟨j, s1, h1, h2, _, h4, h5, h6, _, _, _, h10⟩ :=
    uicb_tag_viewnext_exact s arg1 hnt (by omega)
  have hj := h10 i hil hseli (fun k hk hki => hother k hk (by omega))
  refine ⟨?_, ?_, ?_⟩
  · have hnt1 : s1.awesomeconf.ntags = s1.awesomeconf.tags.length := by omega
    have hjl : j < s1.awesomeconf.tags.length := by omega
    have hex1 := selected_of_exactly s1.awesomeconf.tags j hjl
      (by rw [h6, h5, ← hnt])
    obtain ⟨j2, s2, g1, g2, _, _, _, g6, _, _, _, g10⟩ :=
      uicb_tag_viewprev_exact s1 arg2 hnt1 (by omega)
    have hj2 := g10 j hjl ((hex1 j hjl).mpr rfl) (fun k hk hjk => by
      have := (hex1 k hk).not.mpr (by omega)
      simpa using this)
    refine ⟨s1, s2, h1, g1, ?_⟩
    rw [g6, h4]
    congr 1
    by_cases hlast : i + 1 = s.awesomeconf.ntags
    · have hj0 : j = 0 := by rw [hj, ← hlast, Nat.mod_self]
      have := hj2.2 hj0
      omega
    · have hj1 : j = i + 1 := by rw [hj, Nat.mod_eq_of_lt (by omega)]
      have := hj2.1 (by omega)
      omega
  · intro hlast
    refine ⟨s1, h1, ?_⟩
    rw [h6]
    congr 1
    have : i + 1 = s.awesomeconf.ntags := by omega
    rw [hj, this, Nat.mod_self]
  · intro hzero
    obtain ⟨j2, s2, g1, _, _, _, _, g6, _, _, _, g10⟩ :=
      uicb_tag_viewprev_exact s arg1 hnt (by omega)
    have hj2 := g10 i hil hseli (fun k hk hik => hother k hk (by omega))
    refine ⟨s2, g1, ?_⟩
    rw [g6]
    congr 1
    exact hj2.2 hzero

/-- Three tags with `web` alone selected: witness of C11. -/
theorem viewnext_then_viewprev_witness :
    (∃ s1 s2, uicb_tag_viewnext (screenOf threeTags) none = some s1 ∧
      uicb_tag_viewprev s1 none = some s2 ∧
      s2.awesomeconf.tags.map Tag.selected =
        (List.replicate (screenOf threeTags).awesomeconf.ntags false).set 1 true) ∧
    (1 = (screenOf threeTags).awesomeconf.ntags - 1 →
      ∃ s1, uicb_tag_viewnext (screenOf threeTags) none = some s1 ∧
        s1.awesomeconf.tags.map Tag.selected =
          (List.replicate (screenOf threeTags).awesomeconf.ntags false).set 0 true) ∧
    (1 = 0 →
      ∃ s1, uicb_tag_viewprev (screenOf threeTags) none = some s1 ∧
        s1.awesomeconf.tags.map Tag.selected =
          (List.replicate (screenOf threeTags).awesomeconf.ntags false).set
            ((screenOf threeTags).awesomeconf.ntags - 1) true) :=
  viewnext_then_viewprev (screenOf threeTags) none none 1 rfl (by decide) (by decide)
    (by decide)

/-! ## Toggling twice -/

/-- The index `idxoftag` returns depends on the names of the tags only. -/
theorem idxoftag_congr (arg : Option String) (tags1 tags : List Tag) (n : Nat)
    (h : tags1.map Tag.name = tags.map Tag.name) :
    idxoftag arg tags1 n = idxoftag arg tags n := by
  cases arg with
  | none => rfl
  | some name =>
    have hk : ∀ k : Nat, (tags1[k]?).map Tag.name = (tags[k]?).map Tag.name := by
      intro k
      have := congrArg (fun l => l[k]?) h
      simpa only [List.getElem?_map] using this
    have hgen : ∀ (m i0 : Nat), idxoftag.loop name tags1 m i0 = idxoftag.loop name tags m i0 := by
      intro m
      induction m with
      | zero => intro i0; rfl
      | succ m ih =>
        intro i0
        have h0 := hk i0
        simp only [idxoftag.loop]
        cases h1 : tags1[i0]? with
        | none =>
          cases h2 : tags[i0]? with
          | none => rfl
          | some t => rw [h1, h2] at h0; cases h0
        | some t1 =>
          cases h2 : tags[i0]? with
          | none => rw [h1, h2] at h0; cases h0
          | some t =>
            rw [h1, h2] at h0
            simp only [Option.map_some', Option.some.injEq] at h0
            simp only [h0, ih]
    exact hgen n 0

/-- On a non-empty tag list with a selected tag, `uicb_toggleview` applied twice
with the same argument returns the configuration it started from; each call
leaves every tag but the resolved one, every `was_selected` and the current layout
as they were. -/
theorem uicb_toggleview_twice (s : State) (arg : Option String)
    (hnt : s.awesomeconf.ntags = s.awesomeconf.tags.length) (hN : 1 ≤ s.awesomeconf.ntags)
    (hsel : ∃ u ∈ s.awesomeconf.tags, u.selected = true) :
    ∃ (s1 s2 : State) (i : Nat),
      idxoftag arg s.awesomeconf.tags s.awesomeconf.ntags = some i ∧
      uicb_toggleview s arg = some s1 ∧ uicb_toggleview s1 arg = some s2 ∧
      s2.awesomeconf = s.awesomeconf ∧
      s1.awesomeconf.current_layout = s.awesomeconf.current_layout ∧
      s1.awesomeconf.tags.map Tag.was_selected = s.awesomeconf.tags.map Tag.was_selected ∧
      (∀ k : Nat, k ≠ i → s1.awesomeconf.tags[k]? = s.awesomeconf.tags[k]?) ∧
      (∀ k : Nat, k ≠ i → s2.awesomeconf.tags[k]? = s1.awesomeconf.tags[k]?) := by
  obtain ⟨i, t, tags1, h1, h2, h3, h4, h5, h6, h7⟩ := uicb_toggleview_spec s arg hnt hN
  obtain ⟨hi, ht⟩ := List.getElem?_eq_some.mp h2
  -- the first call writes entry `i` only, and only its `selected`
  have hform : ∃ v, tags1 = s.awesomeconf.tags.set i { t with selected := v } := by
    by_cases hex : ∃ u ∈ s.awesomeconf.tags.set i { t with selected := !t.selected },
        u.selected = true
    · exact ⟨_, h4 hex⟩
    · refine ⟨_, h5 ?_⟩
      intro u hu
      by_contra hne
      exact hex ⟨u, hu, by simpa using hne⟩
  obtain ⟨v, hv⟩ := hform
  have hnames : tags1.map Tag.name = s.awesomeconf.tags.map Tag.name := by
    rw [hv]
    exact map_set_of_eq Tag.name _ i t _ h2 rfl
  -- the second call
  obtain ⟨i2, t2, tags2, g1, g2, g3, g4, g5, _, _⟩ := uicb_toggleview_spec
    { s with
      awesomeconf := { s.awesomeconf with tags := tags1 }
      calls := s.calls ++ [Event.saveawesomeprops { s.awesomeconf with tags := tags1 },
        Event.arrange { s.awesomeconf with tags := tags1 }] } arg
    (by simpa [h7] using hnt) hN
  simp only at g1 g2 g3 g4 g5
  rw [idxoftag_congr arg tags1 s.awesomeconf.tags _ hnames, h1] at g1
  cases g1
  have hback : tags2 = s.awesomeconf.tags := by
    by_cases hex : ∃ u ∈ s.awesomeconf.tags.set i { t with selected := !t.selected },
        u.selected = true
    · -- the flip stood; the second flip undoes it
      have ht1 := h4 hex
      rw [ht1, List.getElem?_set_self hi] at g2
      cases g2
      have hflip : (s.awesomeconf.tags.set i { t with selected := !t.selected }).set i
          { ({ t with selected := !t.selected } : Tag) with selected := !(!t.selected) } =
          s.awesomeconf.tags := by
        rw [List.set_set]
        simp only [Bool.not_not]
        rw [← ht]
        exact set_getElem_same _ i hi
      rw [ht1] at g4
      rw [hflip] at g4
      exact g4 hsel
    · -- the flip was reverted: the tag was, and stays, selected
      have hall : ∀ u ∈ s.awesomeconf.tags.set i { t with selected := !t.selected },
          u.selected = false := by
        intro u hu
        by_contra hne
        exact hex ⟨u, hu, by simpa using hne⟩
      have htrue : t.selected = true := by
        have := hall _ (List.mem_iff_getElem?.mpr ⟨i, List.getElem?_set_self hi⟩)
        simpa using this
      have hsame : s.awesomeconf.tags.set i { t with selected := true } = s.awesomeconf.tags := by
        have : ({ t with selected := true } : Tag) = t := by
          cases t
          simp_all
        rw [this, ← ht]
        exact set_getElem_same _ i hi
      have ht1 : tags1 = s.awesomeconf.tags := (h5 hall).trans hsame
      rw [ht1, h2] at g2
      cases g2
      rw [ht1] at g5
      exact (g5 hall).trans hsame
  refine ⟨_, _, i, h1, h3, g3, ?_, rfl, ?_, ?_, ?_⟩
  · simp only [hback]
  · show tags1.map Tag.was_selected = _
    rw [hv]
    exact map_set_of_eq Tag.was_selected _ i t _ h2 rfl
  · intro k hk
    show tags1[k]? = _
    rw [hv, List.getElem?_set_ne (Ne.symm hk)]
  · intro k hk
    show tags2[k]? = tags1[k]?
    rw [hback, hv, List.getElem?_set_ne (Ne.symm hk)]

/-- The scan of `uicb_toggletag` over the whole bitset stops at its end exactly
when no bit is true. -/
theorem toggletag_scan_full (ct : List Bool) :
    ∃ j, uicb_toggletag.scan ct ct.length 0 = some j ∧
      (j = ct.length ↔ ∀ u ∈ ct, u = false) := by
  obtain ⟨j, h1, _, h3, h4, h5⟩ := toggletag_scan_spec ct ct.length 0 (by omega)
  refine ⟨j, h1, ?_, ?_⟩
  · intro hj u hu
    obtain ⟨k, hk, rfl⟩ := List.getElem_of_mem hu
    have := h5 (by omega) k (Nat.zero_le _) (by omega)
    rw [List.getElem?_eq_getElem hk] at this
    exact Option.some.inj this
  · intro hall
    by_contra hne
    have htrue := h4 (by omega)
    have := hall true (List.getElem?_mem htrue)
    cases this

/-- What one call of `uicb_toggletag` does, exactly: the bitset is the old one with
the resolved bit negated, or, when that leaves no bit true, forced to true. -/
theorem uicb_toggletag_exact (s : State) (c : Client) (arg : Option String)
    (hsel : s.sel = some c) (hnt : s.awesomeconf.ntags = s.awesomeconf.tags.length)
    (hct : c.tags.length = s.awesomeconf.ntags) (hN : 1 ≤ s.awesomeconf.ntags) :
    ∃ (i : Nat) (b : Bool) (ct1 : List Bool),
      idxoftag arg s.awesomeconf.tags s.awesomeconf.ntags = some i ∧
      c.tags[i]? = some b ∧
      uicb_toggletag s arg = some { s with
        sel := some { c with tags := ct1 }
        calls := s.calls ++ [Event.saveprops { c with tags := ct1 } s.awesomeconf.ntags,
          Event.arrange s.awesomeconf] } ∧
      ((∃ u ∈ c.tags.set i (!b), u = true) → ct1 = c.tags.set i (!b)) ∧
      ((∀ u ∈ c.tags.set i (!b), u = false) → ct1 = c.tags.set i true) ∧
      ct1.length = c.tags.length := by
  obtain ⟨i, hi1, hi2⟩ := idxoftag_lt arg s.awesomeconf.tags (by omega)
  rw [← hnt] at hi1
  have hic : i < c.tags.length := by omega
  obtain ⟨j, hj1, hj2⟩ := toggletag_scan_full (c.tags.set i (!c.tags[i]))
  have hlen : i < (c.tags.set i (!c.tags[i])).length := by rw [List.length_set]; exact hic
  rw [List.length_set, hct] at hj1 hj2
  by_cases hj : j = s.awesomeconf.ntags
  · refine ⟨i, c.tags[i], c.tags.set i true, hi1, List.getElem?_eq_getElem hic, ?_, ?_,
      fun _ => rfl, by simp⟩
    · simp [uicb_toggletag, hsel, hi1, List.getElem?_eq_getElem hic, store_of_lt _ hic, hj1, hj,
        store_of_lt _ hlen]
    · rintro ⟨u, hu1, hu2⟩
      rw [(hj2.mp hj) u hu1] at hu2
      cases hu2
  · have hex : ∃ u ∈ c.tags.set i (!c.tags[i]), u = true := by
      by_contra hcon
      apply hj
      apply hj2.mpr
      intro u hu
      by_contra hne
      exact hcon ⟨u, hu, by simpa using hne⟩
    refine ⟨i, c.tags[i], c.tags.set i (!c.tags[i]), hi1, List.getElem?_eq_getElem hic, ?_,
      fun _ => rfl, ?_, by simp⟩
    · simp [uicb_toggletag, hsel, hi1, List.getElem?_eq_getElem hic, store_of_lt _ hic, hj1, hj]
    · intro hall
      obtain ⟨u, hu1, hu2⟩ := hex
      rw [hall u hu1] at hu2
      cases hu2

/-- On a selected window whose bitset has a true bit, `uicb_toggletag` applied twice
with the same argument returns the bitset it started from; each call leaves
every bit but the resolved one as it was. -/
theorem uicb_toggletag_twice (s : State) (c : Client) (arg : Option String)
    (hsel : s.sel = some c) (hnt : s.awesomeconf.ntags = s.awesomeconf.tags.length)
    (hct : c.tags.length = s.awesomeconf.ntags) (hN : 1 ≤ s.awesomeconf.ntags)
    (hbit : ∃ u ∈ c.tags, u = true) :
    ∃ (s1 s2 : State) (c1 c2 : Client) (i : Nat),
      idxoftag arg s.awesomeconf.tags s.awesomeconf.ntags = some i ∧
      uicb_toggletag s arg = some s1 ∧ s1.sel = some c1 ∧
      uicb_toggletag s1 arg = some s2 ∧ s2.sel = some c2 ∧
      c2.tags = c.tags ∧ s2.awesomeconf = s.awesomeconf ∧
      (∀ k : Nat, k ≠ i → c1.tags[k]? = c.tags[k]?) ∧
      (∀ k : Nat, k ≠ i → c2.tags[k]? = c1.tags[k]?) := by
  obtain ⟨i, b, ct1, h1, h2, h3, h4, h5, h6⟩ := uicb_toggletag_exact s c arg hsel hnt hct hN
  obtain ⟨hi, hb⟩ := List.getElem?_eq_some.mp h2
  have hform : ∃ v, ct1 = c.tags.set i v := by
    by_cases hex : ∃ u ∈ c.tags.set i (!b), u = true
    · exact ⟨_, h4 hex⟩
    · refine ⟨_, h5 ?_⟩
      intro u hu
      by_contra hne
      exact hex ⟨u, hu, by simpa using hne⟩
  obtain ⟨v, hv⟩ := hform
  obtain ⟨i2, b2, ct2, g1, g2, g3, g4, g5, _⟩ := uicb_toggletag_exact
    { s with
      sel := some { c with tags := ct1 }
      calls := s.calls ++ [Event.saveprops { c with tags := ct1 } s.awesomeconf.ntags,
        Event.arrange s.awesomeconf] } { c with tags := ct1 } arg rfl hnt
    (by simpa [h6] using hct) hN
  simp only at g1 g2 g3 g4 g5
  rw [h1] at g1
  cases g1
  have hback : ct2 = c.tags := by
    by_cases hex : ∃ u ∈ c.tags.set i (!b), u = true
    · have ht1 := h4 hex
      rw [ht1, List.getElem?_set_self hi] at g2
      cases g2
      have hflip : (c.tags.set i (!b)).set i (!(!b)) = c.tags := by
        rw [List.set_set, Bool.not_not, ← hb]
        exact set_getElem_same _ i hi
      rw [ht1, hflip] at g4
      exact g4 hbit
    · have hall : ∀ u ∈ c.tags.set i (!b), u = false := by
        intro u hu
        by_contra hne
        exact hex ⟨u, hu, by simpa using hne⟩
      have htrue : b = true := by
        have := hall _ (List.mem_iff_getElem?.mpr ⟨i, List.getElem?_set_self hi⟩)
        simpa using this
      have hsame : c.tags.set i true = c.tags := by
        rw [← htrue, ← hb]
        exact set_getElem_same _ i hi
      have ht1 : ct1 = c.tags := (h5 hall).trans hsame
      rw [ht1, h2] at g2
      cases g2
      rw [ht1] at g5
      exact (g5 hall).trans hsame
  refine ⟨_, _, { c with tags := ct1 }, { c with tags := ct2 }, i, h1, h3, rfl, g3, rfl,
    hback, rfl, ?_, ?_⟩
  · intro k hk
    show ct1[k]? = _
    rw [hv, List.getElem?_set_ne (Ne.symm hk)]
  · intro k hk
    show ct2[k]? = ct1[k]?
    rw [hback, hv, List.getElem?_set_ne (Ne.symm hk)]

/-- C20: toggling twice is the identity on valid states.  On a tag list of `N ≥ 1`
tags with a selected tag, `uicb_toggleview` applied twice with any argument
returns the configuration it started from (every `selected` and `was_selected`
flag and the current layout); on a selected window with a true bit,
`uicb_toggletag` applied twice returns the bitset it started from; and each
single call changes at most the entry at the resolved index. -/
theorem toggle_twice_identity (s : State) (arg : Option String)
    (hnt : s.awesomeconf.ntags = s.awesomeconf.tags.length) (hN : 1 ≤ s.awesomeconf.ntags) :
    ((∃ u ∈ s.awesomeconf.tags, u.selected = true) →
      ∃ (s1 s2 : State) (i : Nat),
        idxoftag arg s.awesomeconf.tags s.awesomeconf.ntags = some i ∧
        uicb_toggleview s arg = some s1 ∧ uicb_toggleview s1 arg = some s2 ∧
        s2.awesomeconf = s.awesomeconf ∧
        s1.awesomeconf.current_layout = s.awesomeconf.current_layout ∧
        s1.awesomeconf.tags.map Tag.was_selected = s.awesomeconf.tags.map Tag.was_selected ∧
        (∀ k : Nat, k ≠ i → s1.awesomeconf.tags[k]? = s.awesomeconf.tags[k]?) ∧
        (∀ k : Nat, k ≠ i → s2.awesomeconf.tags[k]? = s1.awesomeconf.tags[k]?)) ∧
    (∀ c : Client, s.sel = some c → c.tags.length = s.awesomeconf.ntags →
      (∃ u ∈ c.tags, u = true) →
      ∃ (s1 s2 : State) (c1 c2 : Client) (i : Nat),
        idxoftag arg s.awesomeconf.tags s.awesomeconf.ntags = some i ∧
        uicb_toggletag s arg = some s1 ∧ s1.sel = some c1 ∧
        uicb_toggletag s1 arg = some s2 ∧ s2.sel = some c2 ∧
        c2.tags = c.tags ∧ s2.awesomeconf = s.awesomeconf ∧
        (∀ k : Nat, k ≠ i → c1.tags[k]? = c.tags[k]?) ∧
        (∀ k : Nat, k ≠ i → c2.tags[k]? = c1.tags[k]?)) :=
  ⟨fun hsel => uicb_toggleview_twice s arg hnt hN hsel,
   fun c hsel hct hbit => uicb_toggletag_twice s c arg hsel hnt hct hN hbit⟩

/-- A window on `web` among three tags of which `web` alone is in view, toggled on
`web` twice (both flips are reverted): witness of C20. -/
theorem toggle_twice_identity_witness :
    ((∃ u ∈ (screenWith threeTags [false, true, false]).awesomeconf.tags, u.selected = true) →
      ∃ (s1 s2 : State) (i : Nat),
        idxoftag (some "web") (screenWith threeTags [false, true, false]).awesomeconf.tags
          (screenWith threeTags [false, true, false]).awesomeconf.ntags = some i ∧
        uicb_toggleview (screenWith threeTags [false, true, false]) (some "web") = some s1 ∧
        uicb_toggleview s1 (some "web") = some s2 ∧
        s2.awesomeconf = (screenWith threeTags [false, true, false]).awesomeconf ∧
        s1.awesomeconf.current_layout =
          (screenWith threeTags [false, true, false]).awesomeconf.current_layout ∧
        s1.awesomeconf.tags.map Tag.was_selected =
          (screenWith threeTags [false, true, false]).awesomeconf.tags.map Tag.was_selected ∧
        (∀ k : Nat, k ≠ i → s1.awesomeconf.tags[k]? =
          (screenWith threeTags [false, true, false]).awesomeconf.tags[k]?) ∧
        (∀ k : Nat, k ≠ i → s2.awesomeconf.tags[k]? = s1.awesomeconf.tags[k]?)) ∧
    (∀ c : Client, (screenWith threeTags [false, true, false]).sel = some c →
      c.tags.length = (screenWith threeTags [false, true, false]).awesomeconf.ntags →
      (∃ u ∈ c.tags, u = true) →
      ∃ (s1 s2 : State) (c1 c2 : Client) (i : Nat),
        idxoftag (some "web") (screenWith threeTags [false, true, false]).awesomeconf.tags
          (screenWith threeTags [false, true, false]).awesomeconf.ntags = some i ∧
        uicb_toggletag (screenWith threeTags [false, true, false]) (some "web") = some s1 ∧
        s1.sel = some c1 ∧ uicb_toggletag s1 (some "web") = some s2 ∧ s2.sel = some c2 ∧
        c2.tags = c.tags ∧
        s2.awesomeconf = (screenWith threeTags [false, true, false]).awesomeconf ∧
        (∀ k : Nat, k ≠ i → c1.tags[k]? = c.tags[k]?) ∧
        (∀ k : Nat, k ≠ i → c2.tags[k]? = c1.tags[k]?)) :=
  toggle_twice_identity (screenWith threeTags [false, true, false]) (some "web") rfl
    (by decide)

end Awesome
